import Mathlib

/-!
# sparse_linalg: CSR matrix container and matrix-vector multiplication

A shallow embedding of `sparse_linalg/core/sparse_matrix.hpp` and
`sparse_linalg/core/matrix_ops.hpp`.

Modelling conventions.
* `std::vector<X>` is `List X`; `size_type` is `Nat` (sizes stay far below the
  wrap-around point of `std::size_t`, because every size here is the length of
  an allocated vector, or an index into one).
* The element type `T` is instantiated with `Int` (exact integral arithmetic),
  so `value_type{}` is `0`.
* A member function that can throw returns an `Except Error _`; a mutating
  member function returns the outcome together with the state after the call.
* Unchecked `operator[]` is `List.getD _ _ 0`.
-/

namespace SparseLinalg

/-- The failures raised by the library: `std::out_of_range` (matrix indices),
`std::invalid_argument` (vector size), `std::runtime_error` (submit to a pool
without workers) and `std::invalid_argument` (pool of zero threads). -/
inductive Error where
  | IndexOutOfRange
  | DimensionMismatch
  | PoolClosed
  | InvalidConfiguration
  deriving DecidableEq, Repr

deriving instance DecidableEq for Except

/-! ## Standard-library helpers -/

/-- The loop of `std::lower_bound` over the offsets `[first, first + count)` of
`xs`; `fuel` bounds the number of iterations (`count` halves each time). -/
def lower_bound_loop (xs : List Nat) (value : Nat) : Nat → Nat → Nat → Nat
  | 0, first, _ => first
  | fuel + 1, first, count =>
    if count = 0 then first
    else
      let step := count / 2
      if xs.getD (first + step) 0 < value then
        lower_bound_loop xs value fuel (first + step + 1) (count - (step + 1))
      else
        lower_bound_loop xs value fuel first step

/-- Binary search `std::lower_bound(xs.begin() + first, xs.begin() + last, value)`,
returned as an offset from `xs.begin()`. -/
def lower_bound (xs : List Nat) (first last value : Nat) : Nat :=
  lower_bound_loop xs value (last - first) first (last - first)

/-- Single-element `std::vector::insert(begin() + pos, x)`. -/
def vector_insert {α : Type} (xs : List α) (pos : Nat) (x : α) : List α :=
  xs.take pos ++ x :: xs.drop pos

/-- View `std::span(xs.begin() + first, xs.begin() + last)`. -/
def span {α : Type} (xs : List α) (first last : Nat) : List α :=
  (xs.drop first).take (last - first)

/-! ## The CSR container -/

/-- The three parallel sequences of `SparseMatrix::CSRMatrix`. -/
structure CSRMatrix where
  values : List Int
  col_indices : List Nat
  row_ptrs : List Nat
  deriving DecidableEq, Repr

/-- The data members of `SparseMatrix<T>`. -/
structure SparseMatrix where
  rows_ : Nat
  cols_ : Nat
  data_ : CSRMatrix
  deriving DecidableEq, Repr

namespace SparseMatrix

/-- Constructor `SparseMatrix(rows, cols)`: `row_ptrs.resize(rows + 1, 0)`. -/
def construct (rows cols : Nat) : SparseMatrix :=
  { rows_ := rows, cols_ := cols,
    data_ := { values := [], col_indices := [], row_ptrs := List.replicate (rows + 1) 0 } }

def rows (m : SparseMatrix) : Nat := m.rows_

def cols (m : SparseMatrix) : Nat := m.cols_

def nnz (m : SparseMatrix) : Nat := m.data_.values.length

def validate_indices (m : SparseMatrix) (row col : Nat) : Except Error Unit :=
  if row ≥ m.rows_ ∨ col ≥ m.cols_ then .error .IndexOutOfRange else .ok ()

def validate_row (m : SparseMatrix) (row : Nat) : Except Error Unit :=
  if row ≥ m.rows_ then .error .IndexOutOfRange else .ok ()

/-- Element access `operator()(row, col)`. -/
def lookup (m : SparseMatrix) (row col : Nat) : Except Error Int :=
  match m.validate_indices row col with
  | .error e => .error e
  | .ok _ =>
    let row_start := m.data_.row_ptrs.getD row 0
    let row_end := m.data_.row_ptrs.getD (row + 1) 0
    let it := lower_bound m.data_.col_indices row_start row_end col
    if it ≠ row_end ∧ m.data_.col_indices.getD it 0 = col then
      .ok (m.data_.values.getD it 0)
    else
      .ok 0

/-- The loop `for (i = first; i < last; ++i) ++row_ptrs[i];` of `insert`. -/
def increment_row_ptrs (row_ptrs : List Nat) (first last : Nat) : List Nat :=
  (List.range' first (last - first)).foldl (fun rp i => rp.set i (rp.getD i 0 + 1)) row_ptrs

/-- Mutator `insert(row, col, value)`: the outcome of the call and the matrix after it. -/
def insert (m : SparseMatrix) (row col : Nat) (value : Int) : Except Error Unit × SparseMatrix :=
  match m.validate_indices row col with
  | .error e => (.error e, m)
  | .ok _ =>
    if value = 0 then (.ok (), m)
    else
      let row_start := m.data_.row_ptrs.getD row 0
      let row_end := m.data_.row_ptrs.getD (row + 1) 0
      let it := lower_bound m.data_.col_indices row_start row_end col
      let pos := it
      if it ≠ row_end ∧ m.data_.col_indices.getD it 0 = col then
        (.ok (), { m with data_ := { m.data_ with values := m.data_.values.set pos value } })
      else
        (.ok (), { m with data_ :=
          { values := vector_insert m.data_.values pos value,
            col_indices := vector_insert m.data_.col_indices it col,
            row_ptrs := increment_row_ptrs m.data_.row_ptrs (row + 1) (m.rows_ + 1) } })

def row_values (m : SparseMatrix) (row : Nat) : Except Error (List Int) :=
  match m.validate_row row with
  | .error e => .error e
  | .ok _ =>
    .ok (span m.data_.values (m.data_.row_ptrs.getD row 0) (m.data_.row_ptrs.getD (row + 1) 0))

def row_indices (m : SparseMatrix) (row : Nat) : Except Error (List Nat) :=
  match m.validate_row row with
  | .error e => .error e
  | .ok _ =>
    .ok (span m.data_.col_indices (m.data_.row_ptrs.getD row 0) (m.data_.row_ptrs.getD (row + 1) 0))

/-- The matrices a caller can build: a constructed matrix followed by any
sequence of `insert` calls (failing and zero-valued ones included). -/
inductive Reachable : SparseMatrix → Prop
  | construct (rows cols : Nat) : Reachable (construct rows cols)
  | insert {m : SparseMatrix} (row col : Nat) (value : Int) :
      Reachable m → Reachable (m.insert row col value).2

/-- Offset of the first entry of row `r` (`row_ptrs[r]`). -/
abbrev ptr (m : SparseMatrix) (r : Nat) : Nat := m.data_.row_ptrs.getD r 0

/-- An entry is stored at `(row, col)`: some offset of row `row`'s segment
`[row_ptrs[row], row_ptrs[row + 1])` carries column index `col`. -/
def stored (m : SparseMatrix) (row col : Nat) : Prop :=
  ∃ i, m.ptr row ≤ i ∧ i < m.ptr (row + 1) ∧ m.data_.col_indices.getD i 0 = col

end SparseMatrix

/-! ## The numeric kernel -/

/-- Static lane capabilities `execution::SimdTraits<T>` of the element type:
the primary template has `is_vectorizable = false`, `vector_size = 1`; a
specialisation has `is_vectorizable = true` and its lane width. A lane
vector (`vector_type`) is a list of `vector_size` elements. -/
structure SimdTraits where
  is_vectorizable : Bool
  vector_size : Nat
  deriving DecidableEq, Repr

namespace SimdTraits

/-- Unaligned load `load(ptr)` of `vector_size` contiguous elements, with
`ptr = &xs[base]`. -/
def load (t : SimdTraits) (xs : List Int) (base : Nat) : List Int :=
  (List.range t.vector_size).map (fun j => xs.getD (base + j) 0)

/-- Lane-wise product. -/
def multiply (a b : List Int) : List Int := List.zipWith (fun x y => x * y) a b

/-- Lane-wise sum. -/
def add (a b : List Int) : List Int := List.zipWith (fun x y => x + y) a b

def set_zero (t : SimdTraits) : List Int := List.replicate t.vector_size 0

/-- Horizontal reduction: the sum of all lanes. -/
def reduce_sum (v : List Int) : Int := v.sum

end SimdTraits

namespace MatrixOps

/-- The per-row kernel `sparse_dot_product(values, indices, vec)`; the
`if constexpr` on the traits selects the chunked or the scalar path. -/
def sparse_dot_product (t : SimdTraits) (values : List Int) (indices : List Nat)
    (vec : List Int) : Int :=
  if t.is_vectorizable then
    let vec_size := t.vector_size
    let vec_count := values.length / vec_size
    let sum := (List.range vec_count).foldl (fun sum i =>
      let base := i * vec_size
      let vec_vals := t.load values base
      let gathered_data := (List.range vec_size).map
        (fun j => vec.getD (indices.getD (base + j) 0) 0)
      let vec_vec := t.load gathered_data 0
      SimdTraits.add sum (SimdTraits.multiply vec_vals vec_vec)) t.set_zero
    let result := SimdTraits.reduce_sum sum
    (List.range' (vec_count * vec_size) (values.length - vec_count * vec_size)).foldl
      (fun result i => result + values.getD i 0 * vec.getD (indices.getD i 0) 0) result
  else
    (List.range values.length).foldl
      (fun sum i => sum + values.getD i 0 * vec.getD (indices.getD i 0) 0) 0

def validate_dimensions (matrix : SparseMatrix) (vec : List Int) : Except Error Unit :=
  if matrix.cols ≠ vec.length then .error .DimensionMismatch else .ok ()

/-- The row loop of `multiply` over the row numbers still to do; a failure of
a row view propagates. -/
def multiply_loop (t : SimdTraits) (matrix : SparseMatrix) (vec : List Int) :
    List Nat → List Int → Except Error (List Int)
  | [], result => .ok result
  | i :: rest, result =>
    match matrix.row_values i with
    | .error e => .error e
    | .ok row_vals =>
      match matrix.row_indices i with
      | .error e => .error e
      | .ok row_cols =>
        multiply_loop t matrix vec rest
          (result.set i (sparse_dot_product t row_vals row_cols vec))

/-- Sequential matrix-vector multiplication `multiply(matrix, vec)`. -/
def multiply (t : SimdTraits) (matrix : SparseMatrix) (vec : List Int) :
    Except Error (List Int) :=
  match validate_dimensions matrix vec with
  | .error e => .error e
  | .ok _ =>
    let result := List.replicate matrix.rows 0
    multiply_loop t matrix vec (List.range matrix.rows) result

end MatrixOps

namespace detail

/-- Boundaries `detail::partition_range(begin, end, num_parts)`; the loop
state is `current` and the vector built so far. -/
def partition_range (begin_ end_ num_parts : Nat) : List Nat :=
  let chunk := (end_ - begin_) / num_parts
  let remainder := (end_ - begin_) % num_parts
  ((List.range num_parts).foldl (fun (st : Nat × List Nat) i =>
    let current := st.1 + (chunk + (if i < remainder then 1 else 0))
    (current, st.2 ++ [current])) (begin_, [begin_])).2

/-- Closed form of boundary `k` of `partition_range begin_ end_ num_parts`:
`k` chunks plus one extra row for each of the first `remainder` parts. -/
def partition_bound (begin_ end_ num_parts k : Nat) : Nat :=
  begin_ + (k * ((end_ - begin_) / num_parts) + min k ((end_ - begin_) % num_parts))

end detail

/-! ## The task pool, as far as the multiplication engine uses it -/

/-- A queued `std::function<void()>`. The closures `multiply_parallel` submits
capture the result buffer by reference, so one acts as a transformer of that
buffer; a failure raised inside is kept by the task's own `std::future`. -/
abbrev Task := List Int → List Int

/-- The pool members the engine touches: the number of workers
(`workers_.size()`) and the task queue `tasks_`. -/
structure ThreadPool where
  workers_ : Nat
  tasks_ : List Task

namespace ThreadPool

def thread_count (pool : ThreadPool) : Nat := pool.workers_

/-- Enqueue `submit(f)`: the outcome of the call and the pool after it. -/
def submit (pool : ThreadPool) (f : Task) : Except Error Unit × ThreadPool :=
  if pool.workers_ = 0 then (.error .PoolClosed, pool)
  else (.ok (), { pool with tasks_ := pool.tasks_ ++ [f] })

/-- Submitting a sequence of tasks in order; the first failure ends the loop. -/
def submit_all (pool : ThreadPool) : List Task → Except Error Unit × ThreadPool
  | [] => (.ok (), pool)
  | f :: rest =>
    match pool.submit f with
    | (.error e, pool1) => (.error e, pool1)
    | (.ok _, pool1) => submit_all pool1 rest

end ThreadPool

namespace MatrixOps

/-- The row loop inside one submitted closure; a failure of a row view ends
the closure (it is captured by the future), leaving the writes made so far. -/
def run_rows (t : SimdTraits) (matrix : SparseMatrix) (vec : List Int) :
    List Nat → List Int → List Int
  | [], result => result
  | row :: rest, result =>
    match matrix.row_values row, matrix.row_indices row with
    | .ok row_vals, .ok row_cols =>
      run_rows t matrix vec rest (result.set row (sparse_dot_product t row_vals row_cols vec))
    | _, _ => result

/-- The closure submitted for the rows `[start, end)`. -/
def partition_task (t : SimdTraits) (matrix : SparseMatrix) (vec : List Int)
    (start end_ : Nat) : Task :=
  fun result => run_rows t matrix vec (List.range' start (end_ - start)) result

/-- Running closures one after the other on the shared buffer. -/
def run_tasks (tasks : List Task) (result : List Int) : List Int :=
  tasks.foldl (fun r f => f r) result

/-- The closures of `multiply_parallel`, in submission order. -/
def partition_tasks (t : SimdTraits) (matrix : SparseMatrix) (vec : List Int)
    (num_threads : Nat) : List Task :=
  let partitions := detail.partition_range 0 matrix.rows num_threads
  (List.range num_threads).map (fun i =>
    partition_task t matrix vec (partitions.getD i 0) (partitions.getD (i + 1) 0))

/-- Parallel multiplication `multiply_parallel(matrix, vec, pool)`: the outcome
and the pool when the call returns or throws. Once every future has been
waited for, the workers have taken the submitted closures, and everything
queued before them, off the queue and run them; the closures are run here in
submission order. -/
def multiply_parallel (t : SimdTraits) (matrix : SparseMatrix) (vec : List Int)
    (pool : ThreadPool) : Except Error (List Int) × ThreadPool :=
  match validate_dimensions matrix vec with
  | .error e => (.error e, pool)
  | .ok _ =>
    let result := List.replicate matrix.rows 0
    let num_threads := pool.thread_count
    let tasks := partition_tasks t matrix vec num_threads
    match pool.submit_all tasks with
    | (.error e, pool1) => (.error e, pool1)
    | (.ok _, pool1) => (.ok (run_tasks tasks result), { pool1 with tasks_ := [] })

/-- The product contributed by offset `i` of a sparse row:
`values[i] * vec[indices[i]]`. -/
def row_term (values : List Int) (indices : List Nat) (vec : List Int) (i : Nat) : Int :=
  values.getD i 0 * vec.getD (indices.getD i 0) 0

/-- The kernel applied to the two views of row `r`, as both multiplication
paths compute it. -/
def row_product (t : SimdTraits) (matrix : SparseMatrix) (vec : List Int) (r : Nat) : Int :=
  sparse_dot_product t
    (span matrix.data_.values (matrix.ptr r) (matrix.ptr (r + 1)))
    (span matrix.data_.col_indices (matrix.ptr r) (matrix.ptr (r + 1))) vec

/-- The matrix of scenario A of the test suite: 3x3 with
(0,0)=1, (0,1)=2, (1,1)=3, (2,1)=4, (2,2)=5. -/
def scenario_a : SparseMatrix :=
  (((((SparseMatrix.construct 3 3).insert 0 0 1).2.insert 0 1 2).2.insert 1 1 3).2.insert
    2 1 4).2.insert 2 2 5 |>.2

/-- The dense reference product of row `r` with `vec`, in the words of the
specification: the sum over all columns `c < cols` of `lookup(r, c) * vec[c]`. -/
def dense_row_product (matrix : SparseMatrix) (vec : List Int) (r : Nat) : Int :=
  ((List.range matrix.cols).map (fun c =>
    (match matrix.lookup r c with
      | .ok x => x
      | .error _ => 0) * vec.getD c 0)).sum

end MatrixOps

/-- Offset `p` is the partition point of `value` in `xs[lo, hi)`: everything
before it is smaller than `value`, everything from it on is not. -/
def IsPartitionPoint (xs : List Nat) (lo hi value p : Nat) : Prop :=
  lo ≤ p ∧ p ≤ hi ∧ (∀ i, lo ≤ i → i < p → xs.getD i 0 < value) ∧
    (∀ i, p ≤ i → i < hi → value ≤ xs.getD i 0)

/-- Strictly increasing on the offsets `[lo, hi)`. -/
def StrictSortedOn (xs : List Nat) (lo hi : Nat) : Prop :=
  ∀ i j, lo ≤ i → i < j → j < hi → xs.getD i 0 < xs.getD j 0

namespace SparseMatrix

/-- The representation invariant of the CSR container. -/
structure Inv (m : SparseMatrix) : Prop where
  len_ptrs : m.data_.row_ptrs.length = m.rows_ + 1
  ptr_zero : m.ptr 0 = 0
  ptr_mono : ∀ r, r < m.rows_ → m.ptr r ≤ m.ptr (r + 1)
  len_cols : m.data_.col_indices.length = m.data_.values.length
  len_vals : m.data_.values.length = m.ptr m.rows_
  sorted : ∀ r, r < m.rows_ → StrictSortedOn m.data_.col_indices (m.ptr r) (m.ptr (r + 1))
  col_lt : ∀ i, i < m.data_.col_indices.length → m.data_.col_indices.getD i 0 < m.cols_
  nonzero : ∀ i, i < m.data_.values.length → m.data_.values.getD i 0 ≠ 0

/-- Row `row` stores the value `x` at column `col`: some offset of the row's
segment carries column index `col` and value `x`. -/
def entry (m : SparseMatrix) (row col : Nat) (x : Int) : Prop :=
  ∃ i, m.ptr row ≤ i ∧ i < m.ptr (row + 1) ∧ m.data_.col_indices.getD i 0 = col ∧
    m.data_.values.getD i 0 = x

/-- The matrix left by the overwrite branch of `insert`. -/
def overwrite_at (m : SparseMatrix) (pos : Nat) (value : Int) : SparseMatrix :=
  { m with data_ := { m.data_ with values := m.data_.values.set pos value } }

/-- The matrix left by the new-entry branch of `insert`. -/
def place_at (m : SparseMatrix) (row pos col : Nat) (value : Int) : SparseMatrix :=
  { m with data_ :=
    { values := vector_insert m.data_.values pos value,
      col_indices := vector_insert m.data_.col_indices pos col,
      row_ptrs := increment_row_ptrs m.data_.row_ptrs (row + 1) (m.rows_ + 1) } }

end SparseMatrix

/-! ## The thread pool as a state machine

`execution/thread_pool.hpp`. The pool is shared by the client thread and the
worker threads; every block that runs under `mutex_` is one atomic step, and
so is the unlocked invocation of a task between the two locked blocks of the
worker loop. -/

namespace execution

/-- An exception object (what a `std::exception_ptr` refers to), identified by
a code. -/
abbrev Failure := Nat

/-- The `std::future_error` raised by invoking a `std::packaged_task` whose
shared state is already satisfied. -/
def future_error : Failure := 0

/-- What invoking a bound callable does: return a value or raise a failure. -/
abbrev Callable := Except Failure Int

/-- Where a worker thread is in `Worker::operator()`. -/
inductive WorkerPc where
  /-- At the top of the loop, in or before `cv_.wait`. -/
  | waiting
  /-- Past the first locked block, holding the dequeued `task`. -/
  | running (task : Nat)
  /-- Past the `try` block, before the second locked block. -/
  | finishing (task : Nat)
  /-- Returned from `operator()`. -/
  | exited
  deriving DecidableEq, Repr

/-- A worker thread: its position and the stop state of its `std::jthread`. -/
structure Worker where
  pc : WorkerPc
  stop_requested : Bool
  deriving DecidableEq, Repr

/-- Where the destructor is in `shutdown()`. -/
inductive ShutdownPc where
  /-- Not called. -/
  | idle
  /-- Past the wait for quiescence. -/
  | drained
  /-- Past the `request_stop` loop and `notify_all`. -/
  | stopping
  /-- Past `workers_.clear()`. -/
  | cleared
  deriving DecidableEq, Repr

/-- The data members of `ThreadPool`, the packaged tasks `submit` created
(`packaged`, by identifier, with their shared states `futures`), and two
history fields that record what has happened: `invocations` counts how often
each callable was invoked, `completed` lists the tasks whose worker has
passed the second locked block. `tasks_` holds the identifier of the
packaged task each queued closure refers to. -/
structure PoolState where
  packaged : List Callable
  futures : List (Option (Except Failure Int))
  invocations : List Nat
  completed : List Nat
  tasks_ : List Nat
  workers_ : List Worker
  active_tasks_ : Nat
  exceptions_ : List Failure
  shutdown_pc : ShutdownPc
  deriving DecidableEq, Repr

/-- Constructor `ThreadPool(num_threads)`. -/
def construct (num_threads : Nat) : Except Error PoolState :=
  if num_threads = 0 then .error .InvalidConfiguration
  else .ok
    { packaged := [], futures := [], invocations := [], completed := [], tasks_ := [],
      workers_ := List.replicate num_threads { pc := .waiting, stop_requested := false },
      active_tasks_ := 0, exceptions_ := [], shutdown_pc := .idle }

namespace PoolState

def thread_count (s : PoolState) : Nat := s.workers_.length

/-- Call `submit(f)`: the handle (identifier of the packaged task) or the
failure, and the pool after the call. -/
def submit (s : PoolState) (f : Callable) : Except Error Nat × PoolState :=
  if s.workers_.isEmpty then (.error .PoolClosed, s)
  else
    (.ok s.packaged.length,
      { s with
        packaged := s.packaged ++ [f],
        futures := s.futures ++ [none],
        invocations := s.invocations ++ [0],
        tasks_ := s.tasks_ ++ [s.packaged.length] })

/-- Retrieval `future.get()` on handle `h`: `none` while the call would block,
else the value or the failure stored in the shared state. -/
def future_get (s : PoolState) (h : Nat) : Option (Except Failure Int) :=
  s.futures.getD h none

/-- Call `wait_all()`: `none` while the caller is blocked on `completed_cv_`,
else the normal return or the re-raised failure. -/
def wait_all (s : PoolState) : Option (Except Failure Unit) :=
  if s.active_tasks_ = 0 ∧ s.tasks_ = [] then
    match s.exceptions_ with
    | [] => some (.ok ())
    | e :: _ => some (.error e)
  else none

/-- Invocation `(*task)()` of packaged task `task`: the callable runs and its
value or failure goes into the shared state; nothing is raised to the caller
unless the shared state is already satisfied. -/
def invoke (s : PoolState) (task : Nat) : Except Failure Unit × PoolState :=
  match s.futures.getD task none with
  | some _ => (.error future_error, s)
  | none =>
    (.ok (),
      { s with
        futures := s.futures.set task (some (s.packaged.getD task (.ok 0))),
        invocations := s.invocations.set task (s.invocations.getD task 0 + 1) })

/-- First locked block of the worker loop, for worker `w`: `none` while the
worker is not at the top of the loop or is blocked in `cv_.wait`. -/
def worker_dequeue (s : PoolState) (w : Nat) : Option PoolState :=
  match s.workers_[w]? with
  | none => none
  | some wk =>
    match wk.pc with
    | .waiting =>
      if wk.stop_requested = true ∨ s.tasks_ ≠ [] then
        if wk.stop_requested = true ∧ s.tasks_ = [] then
          some { s with workers_ := s.workers_.set w { wk with pc := .exited } }
        else
          match s.tasks_ with
          | [] => some s
          | task :: rest =>
            some { s with
              tasks_ := rest,
              active_tasks_ := s.active_tasks_ + 1,
              workers_ := s.workers_.set w { wk with pc := .running task } }
      else none
    | _ => none

/-- The `try { task(); } catch (...)` block of worker `w`. -/
def worker_run (s : PoolState) (w : Nat) : Option PoolState :=
  match s.workers_[w]? with
  | none => none
  | some wk =>
    match wk.pc with
    | .running task =>
      match s.invoke task with
      | (.ok _, s1) =>
        some { s1 with workers_ := s1.workers_.set w { wk with pc := .finishing task } }
      | (.error e, s1) =>
        some { s1 with
          exceptions_ := s1.exceptions_ ++ [e],
          workers_ := s1.workers_.set w { wk with pc := .finishing task } }
    | _ => none

/-- Second locked block of the worker loop, for worker `w`. -/
def worker_complete (s : PoolState) (w : Nat) : Option PoolState :=
  match s.workers_[w]? with
  | none => none
  | some wk =>
    match wk.pc with
    | .finishing task =>
      some { s with
        active_tasks_ := s.active_tasks_ - 1,
        completed := s.completed ++ [task],
        workers_ := s.workers_.set w { wk with pc := .waiting } }
    | _ => none

/-- First block of `shutdown()`: the wait for quiescence. -/
def shutdown_wait (s : PoolState) : Option PoolState :=
  if s.shutdown_pc = .idle ∧ s.active_tasks_ = 0 ∧ s.tasks_ = [] then
    some { s with shutdown_pc := .drained }
  else none

/-- The `request_stop` loop and `notify_all` of `shutdown()`. -/
def shutdown_stop (s : PoolState) : Option PoolState :=
  if s.shutdown_pc = .drained then
    some { s with
      workers_ := s.workers_.map (fun wk => { wk with stop_requested := true }),
      shutdown_pc := .stopping }
  else none

/-- The `workers_.clear()` of `shutdown()`: it joins every worker, so it
returns once all of them have exited. -/
def shutdown_clear (s : PoolState) : Option PoolState :=
  if s.shutdown_pc = .stopping ∧ s.workers_.all (fun wk => wk.pc = .exited) = true then
    some { s with workers_ := [], shutdown_pc := .cleared }
  else none

end PoolState

/-- Is `1` when the worker holds task `id`: it has dequeued it and has not yet
passed the second locked block. -/
def holds (id : Nat) (wk : Worker) : Nat :=
  match wk.pc with
  | .running t => if t = id then 1 else 0
  | .finishing t => if t = id then 1 else 0
  | _ => 0

/-- Is `1` when the worker is between its two locked blocks. -/
def busy (wk : Worker) : Nat :=
  match wk.pc with
  | .running _ => 1
  | .finishing _ => 1
  | _ => 0

/-- Is `1` when the worker has invoked task `id` and not yet passed the second
locked block. -/
def ran (id : Nat) (wk : Worker) : Nat :=
  match wk.pc with
  | .finishing t => if t = id then 1 else 0
  | _ => 0

/-- The number of workers counted by `g`. -/
def tally (g : Worker → Nat) (l : List Worker) : Nat := (l.map g).sum

/-- Task `id` is in the queue. -/
def queued (s : PoolState) (id : Nat) : Prop := id ∈ s.tasks_

/-- Task `id` is active: some worker holds it. -/
def active (s : PoolState) (id : Nat) : Prop :=
  ∃ wk ∈ s.workers_, wk.pc = .running id ∨ wk.pc = .finishing id

instance (s : PoolState) (id : Nat) : Decidable (active s id) := by
  unfold active
  infer_instance

/-- The number of active tasks. -/
def active_task_count (s : PoolState) : Nat :=
  ((List.range s.packaged.length).filter (fun id => decide (active s id))).length

/-- Task `id` is completed: its worker has passed the second locked block. -/
def finished (s : PoolState) (id : Nat) : Prop := id ∈ s.completed

/-- What holds of every state of a pool (proved below): the history fields
line up with the packaged tasks, every task is in one place, the counter
counts the busy workers, and a shared state is set exactly by the invocation
of its task. -/
structure PoolInv (s : PoolState) : Prop where
  len_futures : s.futures.length = s.packaged.length
  len_invocations : s.invocations.length = s.packaged.length
  one_place : ∀ id, s.tasks_.count id + tally (holds id) s.workers_ + s.completed.count id =
    if id < s.packaged.length then 1 else 0
  active_count : s.active_tasks_ = tally busy s.workers_
  invoked : ∀ id, s.invocations.getD id 0 = tally (ran id) s.workers_ + s.completed.count id
  future_state : ∀ id, s.futures.getD id none =
    if s.invocations.getD id 0 = 0 then none else some (s.packaged.getD id (.ok 0))
  no_exceptions : s.exceptions_ = []
  exited_stopped : ∀ wk ∈ s.workers_, wk.pc = .exited → wk.stop_requested = true
  stopped_late : ∀ wk ∈ s.workers_, wk.stop_requested = true →
    s.shutdown_pc = .stopping ∨ s.shutdown_pc = .cleared

/-- The atomic steps of the pool. -/
inductive Action where
  | submit (f : Callable)
  | dequeue (w : Nat)
  | run (w : Nat)
  | complete (w : Nat)
  | shutdown_wait
  | shutdown_stop
  | shutdown_clear
  deriving DecidableEq, Repr

/-- One step: `none` when the action is not enabled in `s`. A `submit` call
always returns; the pool after it is the state after the step. -/
def step (s : PoolState) : Action → Option PoolState
  | .submit f => some (s.submit f).2
  | .dequeue w => s.worker_dequeue w
  | .run w => s.worker_run w
  | .complete w => s.worker_complete w
  | .shutdown_wait => s.shutdown_wait
  | .shutdown_stop => s.shutdown_stop
  | .shutdown_clear => s.shutdown_clear

/-- Running a schedule (a list of actions) from `s`; `none` when some action
of the schedule is not enabled where it stands. -/
def run_schedule (s : PoolState) : List Action → Option PoolState
  | [] => some s
  | a :: rest =>
    match step s a with
    | none => none
    | some s1 => run_schedule s1 rest

/-- The schedule in which worker `w` serves `k` queued tasks one after the
other: dequeue, invoke, complete. -/
def serve (w : Nat) : Nat → List Action
  | 0 => []
  | k + 1 => .dequeue w :: .run w :: .complete w :: serve w k

/-- Pool `s2` arises from `s` by finitely many steps. -/
inductive Steps (s : PoolState) : PoolState → Prop
  | refl : Steps s s
  | tail {s1 s2 : PoolState} (a : Action) : Steps s s1 → step s1 a = some s2 → Steps s s2

/-- The states of a pool constructed with `num_threads` workers. -/
def Reachable (num_threads : Nat) (s : PoolState) : Prop :=
  ∃ s0, construct num_threads = .ok s0 ∧ Steps s0 s

end execution

/-! ## Bounds-checked reading

The same engine with every `operator[]` and every view replaced by a checked
one: `none` stands for an access outside the sequence. -/

/-- Checked `xs[i]`. -/
def read {α : Type} (xs : List α) (i : Nat) : Option α := xs[i]?

/-- Checked `xs[i] = x`. -/
def write {α : Type} (xs : List α) (i : Nat) (x : α) : Option (List α) :=
  if i < xs.length then some (xs.set i x) else none

/-- Checked view `std::span(xs.begin() + first, xs.begin() + last)`. -/
def span_checked {α : Type} (xs : List α) (first last : Nat) : Option (List α) :=
  if first ≤ last ∧ last ≤ xs.length then some (span xs first last) else none

/-- Reading the positions of `js` one after the other. -/
def read_all {α : Type} (f : Nat → Option α) : List Nat → Option (List α)
  | [] => some []
  | j :: js =>
    match f j with
    | none => none
    | some x =>
      match read_all f js with
      | none => none
      | some xs => some (x :: xs)

/-- A loop over `is` whose body can hit an access outside a sequence. -/
def fold_checked {β : Type} (f : β → Nat → Option β) : List Nat → β → Option β
  | [], acc => some acc
  | i :: is, acc =>
    match f acc i with
    | none => none
    | some acc1 => fold_checked f is acc1

namespace MatrixOps

/-- One step `sum += values[i] * vec[indices[i]]`, checked. -/
def term_checked (values : List Int) (indices : List Nat) (vec : List Int) (sum : Int)
    (i : Nat) : Option Int :=
  match read values i with
  | none => none
  | some v =>
    match read indices i with
    | none => none
    | some c =>
      match read vec c with
      | none => none
      | some x => some (sum + v * x)

/-- The kernel `sparse_dot_product` with checked reads. -/
def sparse_dot_product_checked (t : SimdTraits) (values : List Int) (indices : List Nat)
    (vec : List Int) : Option Int :=
  if t.is_vectorizable then
    let vec_size := t.vector_size
    let vec_count := values.length / vec_size
    match fold_checked (fun sum i =>
        let base := i * vec_size
        match read_all (fun j => read values (base + j)) (List.range vec_size) with
        | none => none
        | some vec_vals =>
          match read_all (fun j =>
              match read indices (base + j) with
              | none => none
              | some c => read vec c) (List.range vec_size) with
          | none => none
          | some gathered_data =>
            match read_all (fun j => read gathered_data (0 + j)) (List.range vec_size) with
            | none => none
            | some vec_vec => some (SimdTraits.add sum (SimdTraits.multiply vec_vals vec_vec)))
        (List.range vec_count) t.set_zero with
    | none => none
    | some sum =>
      fold_checked (term_checked values indices vec)
        (List.range' (vec_count * vec_size) (values.length - vec_count * vec_size))
        (SimdTraits.reduce_sum sum)
  else
    fold_checked (term_checked values indices vec) (List.range values.length) 0

/-- The body of both row loops, checked: the two row views, the kernel and the
write of `result[row]`. An inner `.error` is a failure raised by a row view. -/
def row_step_checked (t : SimdTraits) (matrix : SparseMatrix) (vec : List Int)
    (result : List Int) (row : Nat) : Option (Except Error (List Int)) :=
  match matrix.validate_row row with
  | .error e => some (.error e)
  | .ok _ =>
    match read matrix.data_.row_ptrs row, read matrix.data_.row_ptrs (row + 1) with
    | some first, some last =>
      match span_checked matrix.data_.values first last,
        span_checked matrix.data_.col_indices first last with
      | some row_vals, some row_cols =>
        match sparse_dot_product_checked t row_vals row_cols vec with
        | none => none
        | some x =>
          match write result row x with
          | none => none
          | some result1 => some (.ok result1)
      | _, _ => none
    | _, _ => none

/-- The row loop of `multiply`, checked. -/
def multiply_loop_checked (t : SimdTraits) (matrix : SparseMatrix) (vec : List Int) :
    List Nat → List Int → Option (Except Error (List Int))
  | [], result => some (.ok result)
  | i :: rest, result =>
    match row_step_checked t matrix vec result i with
    | none => none
    | some (.error e) => some (.error e)
    | some (.ok result1) => multiply_loop_checked t matrix vec rest result1

/-- Sequential `multiply`, checked. -/
def multiply_checked (t : SimdTraits) (matrix : SparseMatrix) (vec : List Int) :
    Option (Except Error (List Int)) :=
  match validate_dimensions matrix vec with
  | .error e => some (.error e)
  | .ok _ => multiply_loop_checked t matrix vec (List.range matrix.rows)
      (List.replicate matrix.rows 0)

/-- The row loop of a submitted closure, checked; a failure raised by a row
view ends the closure and is kept by its future. -/
def run_rows_checked (t : SimdTraits) (matrix : SparseMatrix) (vec : List Int) :
    List Nat → List Int → Option (List Int)
  | [], result => some result
  | row :: rest, result =>
    match row_step_checked t matrix vec result row with
    | none => none
    | some (.error _) => some result
    | some (.ok result1) => run_rows_checked t matrix vec rest result1

/-- The closure submitted for the rows `[start, end)`, checked. -/
def partition_task_checked (t : SimdTraits) (matrix : SparseMatrix) (vec : List Int)
    (start end_ : Nat) (result : List Int) : Option (List Int) :=
  run_rows_checked t matrix vec (List.range' start (end_ - start)) result

end MatrixOps

/-! ## Facts about the standard-library helpers -/

theorem length_vector_insert {α : Type} (xs : List α) (pos : Nat) (x : α) :
    (vector_insert xs pos x).length = xs.length + 1 := by
  simp only [vector_insert, List.length_append, List.length_cons, List.length_take,
    List.length_drop]
  omega

theorem getD_vector_insert {α : Type} (xs : List α) (pos : Nat) (x d : α) (i : Nat)
    (hpos : pos ≤ xs.length) :
    (vector_insert xs pos x).getD i d =
      if i < pos then xs.getD i d else if i = pos then x else xs.getD (i - 1) d := by
  have hlen : (xs.take pos).length = pos := by
    rw [List.length_take]; omega
  simp only [vector_insert, List.getD_eq_getElem?_getD]
  by_cases h1 : i < pos
  · rw [List.getElem?_append_left (by omega), List.getElem?_take_of_lt h1]
    simp [h1]
  · rw [List.getElem?_append_right (by omega), hlen]
    simp only [h1, if_false]
    by_cases h2 : i = pos
    · subst h2
      simp
    · obtain ⟨k, hk⟩ : ∃ k, i - pos = k + 1 := ⟨i - pos - 1, by omega⟩
      rw [hk, List.getElem?_cons_succ, List.getElem?_drop]
      have : pos + k = i - 1 := by omega
      simp [h2, this]

theorem length_span {α : Type} (xs : List α) (first last : Nat) (hlast : last ≤ xs.length) :
    (span xs first last).length = last - first := by
  simp only [span, List.length_take, List.length_drop]
  omega

theorem getD_span {α : Type} (xs : List α) (first last : Nat) (d : α) (k : Nat)
    (hk : k < last - first) :
    (span xs first last).getD k d = xs.getD (first + k) d := by
  simp only [span, List.getD_eq_getElem?_getD, List.getElem?_take, hk, if_true,
    List.getElem?_drop]

theorem length_increment_row_ptrs (rp : List Nat) (first last : Nat) :
    (SparseMatrix.increment_row_ptrs rp first last).length = rp.length := by
  unfold SparseMatrix.increment_row_ptrs
  generalize last - first = n
  induction n generalizing rp first with
  | zero => simp
  | succ n ih =>
    rw [List.range'_succ, List.foldl_cons, ih]
    simp

theorem getD_increment_row_ptrs (rp : List Nat) (first last : Nat) (i : Nat)
    (hlast : last ≤ rp.length) :
    (SparseMatrix.increment_row_ptrs rp first last).getD i 0 =
      if first ≤ i ∧ i < last then rp.getD i 0 + 1 else rp.getD i 0 := by
  unfold SparseMatrix.increment_row_ptrs
  by_cases hfl : first ≤ last
  · obtain ⟨n, rfl⟩ : ∃ n, last = first + n := ⟨last - first, by omega⟩
    have hsub : first + n - first = n := by omega
    rw [hsub]
    clear hsub hfl
    induction n generalizing rp first with
    | zero =>
      have h1 : ¬ (first ≤ i ∧ i < first) := by omega
      simp [h1]
    | succ n ih =>
      rw [List.range'_succ, List.foldl_cons, ih (rp.set first (rp.getD first 0 + 1)) (first + 1)
        (by simp; omega)]
      simp only [List.getD_eq_getElem?_getD, List.getElem?_set]
      by_cases h1 : first = i
      · subst h1
        have h2 : first < rp.length := by omega
        simp [h2]
      · by_cases h2 : first + 1 ≤ i ∧ i < first + 1 + n
        · have h3 : first ≤ i ∧ i < first + (n + 1) := by omega
          simp [h1, h2, h3]
        · have h3 : ¬ (first ≤ i ∧ i < first + (n + 1)) := by omega
          simp [h1, h2, h3]
  · have h0 : last - first = 0 := by omega
    have h1 : ¬ (first ≤ i ∧ i < last) := by omega
    simp [h0, h1]

theorem lower_bound_loop_spec (xs : List Nat) (value lo hi : Nat)
    (hsorted : StrictSortedOn xs lo hi) :
    ∀ fuel first count, count ≤ fuel → lo ≤ first → first + count ≤ hi →
      (∀ i, lo ≤ i → i < first → xs.getD i 0 < value) →
      (∀ i, first + count ≤ i → i < hi → value ≤ xs.getD i 0) →
      IsPartitionPoint xs lo hi value (lower_bound_loop xs value fuel first count) := by
  intro fuel
  induction fuel with
  | zero =>
    intro first count hc hlo hhi hbelow habove
    have hc0 : count = 0 := by omega
    subst hc0
    show IsPartitionPoint xs lo hi value first
    exact ⟨hlo, by omega, hbelow, fun i hi1 hi2 => habove i (by omega) hi2⟩
  | succ fuel ih =>
    intro first count hc hlo hhi hbelow habove
    unfold lower_bound_loop
    by_cases hc0 : count = 0
    · subst hc0
      simp only [if_true]
      exact ⟨hlo, by omega, hbelow, fun i hi1 hi2 => habove i (by omega) hi2⟩
    · simp only [hc0, if_false]
      have hstep : count / 2 < count := Nat.div_lt_self (by omega) (by omega)
      by_cases hlt : xs.getD (first + count / 2) 0 < value
      · simp only [hlt, if_true]
        apply ih
        · omega
        · omega
        · omega
        · intro i hi1 hi2
          by_cases hi3 : i < first
          · exact hbelow i hi1 hi3
          · by_cases hi4 : i = first + count / 2
            · rw [hi4]; exact hlt
            · have := hsorted i (first + count / 2) hi1 (by omega) (by omega)
              omega
        · intro i hi1 hi2
          exact habove i (by omega) hi2
      · simp only [hlt, if_false]
        apply ih
        · omega
        · omega
        · omega
        · exact hbelow
        · intro i hi1 hi2
          by_cases hi3 : first + count ≤ i
          · exact habove i hi3 hi2
          · by_cases hi4 : i = first + count / 2
            · rw [hi4]; omega
            · have := hsorted (first + count / 2) i (by omega) (by omega) hi2
              omega

theorem lower_bound_spec (xs : List Nat) (value lo hi : Nat) (hle : lo ≤ hi)
    (hsorted : StrictSortedOn xs lo hi) :
    IsPartitionPoint xs lo hi value (lower_bound xs lo hi value) := by
  unfold lower_bound
  apply lower_bound_loop_spec xs value lo hi hsorted
  · exact Nat.le_refl _
  · exact Nat.le_refl _
  · omega
  · intro i h1 h2; omega
  · intro i h1 h2; omega

theorem IsPartitionPoint.unique {xs : List Nat} {lo hi value p q : Nat}
    (hp : IsPartitionPoint xs lo hi value p) (hq : IsPartitionPoint xs lo hi value q) :
    p = q := by
  obtain ⟨hp1, hp2, hp3, hp4⟩ := hp
  obtain ⟨hq1, hq2, hq3, hq4⟩ := hq
  rcases Nat.lt_trichotomy p q with h | h | h
  · have h1 := hq3 p hp1 h
    have h2 := hp4 p (Nat.le_refl _) (by omega)
    omega
  · exact h
  · have h1 := hp3 q hq1 h
    have h2 := hq4 q (Nat.le_refl _) (by omega)
    omega

theorem lower_bound_eq (xs : List Nat) (value lo hi p : Nat) (hle : lo ≤ hi)
    (hsorted : StrictSortedOn xs lo hi) (hp : IsPartitionPoint xs lo hi value p) :
    lower_bound xs lo hi value = p :=
  (lower_bound_spec xs value lo hi hle hsorted).unique hp

/-! ## The representation invariant -/

namespace SparseMatrix

theorem insert_eq (m : SparseMatrix) (row col : Nat) (value : Int)
    (hr : row < m.rows_) (hc : col < m.cols_) (hv : value ≠ 0) :
    m.insert row col value =
      if lower_bound m.data_.col_indices (m.ptr row) (m.ptr (row + 1)) col ≠ m.ptr (row + 1) ∧
          m.data_.col_indices.getD
            (lower_bound m.data_.col_indices (m.ptr row) (m.ptr (row + 1)) col) 0 = col then
        (.ok (), m.overwrite_at
          (lower_bound m.data_.col_indices (m.ptr row) (m.ptr (row + 1)) col) value)
      else
        (.ok (), m.place_at row
          (lower_bound m.data_.col_indices (m.ptr row) (m.ptr (row + 1)) col) col value) := by
  have h1 : ¬ (row ≥ m.rows_ ∨ col ≥ m.cols_) := by omega
  simp only [insert, validate_indices, h1, if_false, hv, overwrite_at, place_at, ptr]

theorem insert_out_of_range (m : SparseMatrix) (row col : Nat) (value : Int)
    (h : row ≥ m.rows_ ∨ col ≥ m.cols_) :
    m.insert row col value = (.error .IndexOutOfRange, m) := by
  simp only [insert, validate_indices, h, if_true]

theorem insert_zero (m : SparseMatrix) (row col : Nat)
    (hr : row < m.rows_) (hc : col < m.cols_) :
    m.insert row col 0 = (.ok (), m) := by
  have h1 : ¬ (row ≥ m.rows_ ∨ col ≥ m.cols_) := by omega
  simp only [insert, validate_indices, h1, if_false, if_true]

theorem Inv.ptr_le {m : SparseMatrix} (h : m.Inv) :
    ∀ j, j ≤ m.rows_ → ∀ i, i ≤ j → m.ptr i ≤ m.ptr j := by
  intro j
  induction j with
  | zero =>
    intro _ i hi
    have : i = 0 := by omega
    subst this
    exact Nat.le_refl _
  | succ j ih =>
    intro hj i hi
    by_cases hij : i = j + 1
    · subst hij
      exact Nat.le_refl _
    · exact Nat.le_trans (ih (by omega) i (by omega)) (h.ptr_mono j (by omega))

theorem Inv.ptr_le_len {m : SparseMatrix} (h : m.Inv) (r : Nat) (hr : r ≤ m.rows_) :
    m.ptr r ≤ m.data_.col_indices.length := by
  rw [h.len_cols, h.len_vals]
  exact h.ptr_le m.rows_ (Nat.le_refl _) r hr

theorem Inv.partition_point {m : SparseMatrix} (h : m.Inv) (row col : Nat) (hr : row < m.rows_) :
    IsPartitionPoint m.data_.col_indices (m.ptr row) (m.ptr (row + 1)) col
      (lower_bound m.data_.col_indices (m.ptr row) (m.ptr (row + 1)) col) :=
  lower_bound_spec _ _ _ _ (h.ptr_mono row hr) (h.sorted row hr)

theorem Inv.construct (rows cols : Nat) : (construct rows cols).Inv := by
  have hget : ∀ i, (List.replicate (rows + 1) 0).getD i 0 = 0 := by
    intro i
    simp only [List.getD_eq_getElem?_getD, List.getElem?_replicate]
    split <;> rfl
  refine ⟨?_, ?_, ?_, ?_, ?_, ?_, ?_, ?_⟩
  · simp [SparseMatrix.construct]
  · exact hget 0
  · intro r _
    show (List.replicate (rows + 1) 0).getD r 0 ≤ (List.replicate (rows + 1) 0).getD (r + 1) 0
    rw [hget, hget]
  · rfl
  · show 0 = (List.replicate (rows + 1) 0).getD rows 0
    rw [hget]
  · intro r _ i j h1 h2 h3
    have : (List.replicate (rows + 1) 0).getD (r + 1) 0 = 0 := hget _
    have h4 : j < (List.replicate (rows + 1) 0).getD (r + 1) 0 := h3
    omega
  · intro i hi
    simp [SparseMatrix.construct] at hi
  · intro i hi
    simp [SparseMatrix.construct] at hi

theorem Inv.overwrite_at {m : SparseMatrix} (h : m.Inv) (pos : Nat) (value : Int)
    (hv : value ≠ 0) : (m.overwrite_at pos value).Inv := by
  refine ⟨h.len_ptrs, h.ptr_zero, h.ptr_mono, ?_, ?_, h.sorted, h.col_lt, ?_⟩
  · show m.data_.col_indices.length = (m.data_.values.set pos value).length
    rw [List.length_set]; exact h.len_cols
  · show (m.data_.values.set pos value).length = m.ptr m.rows_
    rw [List.length_set]; exact h.len_vals
  · intro i hi
    have hi2 : i < (m.data_.values.set pos value).length := hi
    rw [List.length_set] at hi2
    show (m.data_.values.set pos value).getD i 0 ≠ 0
    rw [List.getD_eq_getElem?_getD, List.getElem?_set]
    by_cases hp : pos = i
    · subst hp
      simp [hi2, hv]
    · simp only [hp, if_false]
      have := h.nonzero i hi2
      rwa [List.getD_eq_getElem?_getD] at this

theorem ptr_place_at (m : SparseMatrix) (row pos col : Nat) (value : Int)
    (hlen : m.data_.row_ptrs.length = m.rows_ + 1) (r : Nat) :
    (m.place_at row pos col value).ptr r =
      if row < r ∧ r ≤ m.rows_ then m.ptr r + 1 else m.ptr r := by
  show (increment_row_ptrs m.data_.row_ptrs (row + 1) (m.rows_ + 1)).getD r 0 = _
  rw [getD_increment_row_ptrs _ _ _ _ (by omega)]
  by_cases h1 : row < r ∧ r ≤ m.rows_
  · have h2 : row + 1 ≤ r ∧ r < m.rows_ + 1 := by omega
    simp [h1, h2]
  · have h2 : ¬ (row + 1 ≤ r ∧ r < m.rows_ + 1) := by omega
    simp [h1, h2]

theorem getD_vector_insert_lt {α : Type} (xs : List α) (pos : Nat) (x d : α) (i : Nat)
    (hpos : pos ≤ xs.length) (hi : i < pos) :
    (vector_insert xs pos x).getD i d = xs.getD i d := by
  rw [getD_vector_insert xs pos x d i hpos, if_pos hi]

theorem getD_vector_insert_eq {α : Type} (xs : List α) (pos : Nat) (x d : α)
    (hpos : pos ≤ xs.length) :
    (vector_insert xs pos x).getD pos d = x := by
  rw [getD_vector_insert xs pos x d pos hpos, if_neg (Nat.lt_irrefl _), if_pos rfl]

theorem getD_vector_insert_gt {α : Type} (xs : List α) (pos : Nat) (x d : α) (i : Nat)
    (hpos : pos ≤ xs.length) (hi : pos < i) :
    (vector_insert xs pos x).getD i d = xs.getD (i - 1) d := by
  rw [getD_vector_insert xs pos x d i hpos, if_neg (by omega), if_neg (by omega)]

theorem Inv.place_at {m : SparseMatrix} (h : m.Inv) (row pos col : Nat) (value : Int)
    (hr : row < m.rows_) (hc : col < m.cols_) (hv : value ≠ 0)
    (hlo : m.ptr row ≤ pos) (hhi : pos ≤ m.ptr (row + 1))
    (hbelow : ∀ i, m.ptr row ≤ i → i < pos → m.data_.col_indices.getD i 0 < col)
    (habove : ∀ i, pos ≤ i → i < m.ptr (row + 1) → col < m.data_.col_indices.getD i 0) :
    (m.place_at row pos col value).Inv := by
  have hposc : pos ≤ m.data_.col_indices.length :=
    Nat.le_trans hhi (h.ptr_le_len (row + 1) hr)
  have hposv : pos ≤ m.data_.values.length := h.len_cols ▸ hposc
  have hptr := ptr_place_at m row pos col value h.len_ptrs
  have hcol_lt : ∀ i, i < pos → (m.place_at row pos col value).data_.col_indices.getD i 0 =
      m.data_.col_indices.getD i 0 := fun i hi => getD_vector_insert_lt _ _ _ _ _ hposc hi
  have hcol_eq : (m.place_at row pos col value).data_.col_indices.getD pos 0 = col :=
    getD_vector_insert_eq _ _ _ _ hposc
  have hcol_gt : ∀ i, pos < i → (m.place_at row pos col value).data_.col_indices.getD i 0 =
      m.data_.col_indices.getD (i - 1) 0 := fun i hi => getD_vector_insert_gt _ _ _ _ _ hposc hi
  have hrows : (m.place_at row pos col value).rows_ = m.rows_ := rfl
  have hlenc : (m.place_at row pos col value).data_.col_indices.length =
      m.data_.col_indices.length + 1 := length_vector_insert _ _ _
  have hlenv : (m.place_at row pos col value).data_.values.length =
      m.data_.values.length + 1 := length_vector_insert _ _ _
  refine ⟨?_, ?_, ?_, ?_, ?_, ?_, ?_, ?_⟩
  · show (increment_row_ptrs m.data_.row_ptrs (row + 1) (m.rows_ + 1)).length = m.rows_ + 1
    rw [length_increment_row_ptrs]; exact h.len_ptrs
  · rw [hptr]
    have h0 : ¬ (row < 0 ∧ 0 ≤ m.rows_) := by omega
    simp only [h0, if_false]
    exact h.ptr_zero
  · intro r hr2
    rw [hrows] at hr2
    rw [hptr, hptr]
    have := h.ptr_mono r hr2
    split_ifs <;> omega
  · rw [hlenc, hlenv, h.len_cols]
  · rw [hlenv, hrows, hptr]
    have h0 : row < m.rows_ ∧ m.rows_ ≤ m.rows_ := by omega
    simp only [h0, and_self, if_true]
    rw [h.len_vals]
  · intro r hr2 i j hi hij hj
    rw [hrows] at hr2
    rw [hptr] at hi hj
    rcases Nat.lt_trichotomy r row with hlt | heq | hgt
    · have h1 : ¬ (row < r ∧ r ≤ m.rows_) := by omega
      have h2 : ¬ (row < r + 1 ∧ r + 1 ≤ m.rows_) := by omega
      simp only [h1, h2, if_false] at hi hj
      have h3 := h.ptr_le row (by omega) (r + 1) (by omega)
      rw [hcol_lt i (by omega), hcol_lt j (by omega)]
      exact h.sorted r hr2 i j hi hij hj
    · subst heq
      have h1 : ¬ (r < r ∧ r ≤ m.rows_) := by omega
      have h2 : r < r + 1 ∧ r + 1 ≤ m.rows_ := by omega
      simp only [h1, h2, and_self, if_true, if_false] at hi hj
      rcases Nat.lt_trichotomy i pos with hi1 | hi1 | hi1
      · rcases Nat.lt_trichotomy j pos with hj1 | hj1 | hj1
        · rw [hcol_lt i hi1, hcol_lt j hj1]
          exact h.sorted r hr2 i j hi hij (by omega)
        · subst hj1
          rw [hcol_lt i hi1, hcol_eq]
          exact hbelow i hi hi1
        · rw [hcol_lt i hi1, hcol_gt j hj1]
          exact h.sorted r hr2 i (j - 1) hi (by omega) (by omega)
      · subst hi1
        rw [hcol_eq, hcol_gt j hij]
        exact habove (j - 1) (by omega) (by omega)
      · rw [hcol_gt i hi1, hcol_gt j (by omega)]
        exact h.sorted r hr2 (i - 1) (j - 1) (by omega) (by omega) (by omega)
    · have h1 : row < r ∧ r ≤ m.rows_ := by omega
      have h2 : row < r + 1 ∧ r + 1 ≤ m.rows_ := by omega
      simp only [h1, h2, and_self, if_true] at hi hj
      have h3 := h.ptr_le r (by omega) (row + 1) (by omega)
      rw [hcol_gt i (by omega), hcol_gt j (by omega)]
      exact h.sorted r hr2 (i - 1) (j - 1) (by omega) (by omega) (by omega)
  · intro i hi
    rw [hlenc] at hi
    show _ < m.cols_
    rcases Nat.lt_trichotomy i pos with hi1 | hi1 | hi1
    · rw [hcol_lt i hi1]; exact h.col_lt i (by omega)
    · subst hi1; rw [hcol_eq]; exact hc
    · rw [hcol_gt i hi1]; exact h.col_lt (i - 1) (by omega)
  · intro i hi
    rw [hlenv] at hi
    show (vector_insert m.data_.values pos value).getD i 0 ≠ 0
    rcases Nat.lt_trichotomy i pos with hi1 | hi1 | hi1
    · rw [getD_vector_insert_lt _ _ _ _ _ hposv hi1]; exact h.nonzero i (by omega)
    · subst hi1; rw [getD_vector_insert_eq _ _ _ _ hposv]; exact hv
    · rw [getD_vector_insert_gt _ _ _ _ _ hposv hi1]; exact h.nonzero (i - 1) (by omega)

/-- The two ways a valid, nonzero `insert` can go on a well-formed matrix. -/
theorem Inv.insert_cases {m : SparseMatrix} (h : m.Inv) (row col : Nat) (value : Int)
    (hr : row < m.rows_) (hc : col < m.cols_) (hv : value ≠ 0) :
    ∃ pos, IsPartitionPoint m.data_.col_indices (m.ptr row) (m.ptr (row + 1)) col pos ∧
      ((pos < m.ptr (row + 1) ∧ m.data_.col_indices.getD pos 0 = col ∧
          m.insert row col value = (.ok (), m.overwrite_at pos value)) ∨
        ((∀ i, pos ≤ i → i < m.ptr (row + 1) → col < m.data_.col_indices.getD i 0) ∧
          m.insert row col value = (.ok (), m.place_at row pos col value))) := by
  have hpp := h.partition_point row col hr
  refine ⟨_, hpp, ?_⟩
  rw [insert_eq m row col value hr hc hv]
  obtain ⟨h1, h2, h3, h4⟩ := hpp
  by_cases hfound : lower_bound m.data_.col_indices (m.ptr row) (m.ptr (row + 1)) col ≠
      m.ptr (row + 1) ∧ m.data_.col_indices.getD
        (lower_bound m.data_.col_indices (m.ptr row) (m.ptr (row + 1)) col) 0 = col
  · left
    rw [if_pos hfound]
    exact ⟨by omega, hfound.2, rfl⟩
  · right
    rw [if_neg hfound]
    refine ⟨?_, rfl⟩
    intro i hi1 hi2
    have h5 := h4 _ (Nat.le_refl _) (by omega)
    have h6 : m.data_.col_indices.getD
        (lower_bound m.data_.col_indices (m.ptr row) (m.ptr (row + 1)) col) 0 ≠ col := by
      intro heq
      exact hfound ⟨by omega, heq⟩
    by_cases hi3 : i = lower_bound m.data_.col_indices (m.ptr row) (m.ptr (row + 1)) col
    · rw [hi3]; omega
    · have := h.sorted row hr _ i h1 (by omega) hi2
      omega

theorem Inv.insert {m : SparseMatrix} (h : m.Inv) (row col : Nat) (value : Int) :
    (m.insert row col value).2.Inv := by
  by_cases hrange : row ≥ m.rows_ ∨ col ≥ m.cols_
  · rw [insert_out_of_range m row col value hrange]; exact h
  · have hr : row < m.rows_ := by omega
    have hc : col < m.cols_ := by omega
    by_cases hv : value = 0
    · subst hv
      rw [insert_zero m row col hr hc]; exact h
    · obtain ⟨pos, hpp, hcase | hcase⟩ := h.insert_cases row col value hr hc hv
      · rw [hcase.2.2]
        exact h.overwrite_at pos value hv
      · rw [hcase.2]
        exact h.place_at row pos col value hr hc hv hpp.1 hpp.2.1 hpp.2.2.1 hcase.1

theorem Reachable.inv {m : SparseMatrix} (h : m.Reachable) : m.Inv := by
  induction h with
  | construct rows cols => exact Inv.construct rows cols
  | insert row col value _ ih => exact ih.insert row col value

theorem lookup_eq (m : SparseMatrix) (row col : Nat)
    (hr : row < m.rows_) (hc : col < m.cols_) :
    m.lookup row col =
      if lower_bound m.data_.col_indices (m.ptr row) (m.ptr (row + 1)) col ≠ m.ptr (row + 1) ∧
          m.data_.col_indices.getD
            (lower_bound m.data_.col_indices (m.ptr row) (m.ptr (row + 1)) col) 0 = col then
        .ok (m.data_.values.getD
          (lower_bound m.data_.col_indices (m.ptr row) (m.ptr (row + 1)) col) 0)
      else .ok 0 := by
  have h1 : ¬ (row ≥ m.rows_ ∨ col ≥ m.cols_) := by omega
  simp only [lookup, validate_indices, h1, if_false, ptr]

/-- On a well-formed matrix, `lookup` returns the value at the offset of the
row segment that carries the column, when there is one. -/
theorem Inv.lookup_of_offset {m : SparseMatrix} (h : m.Inv) (row col pos : Nat)
    (hr : row < m.rows_) (hc : col < m.cols_)
    (hlo : m.ptr row ≤ pos) (hhi : pos < m.ptr (row + 1))
    (hcol : m.data_.col_indices.getD pos 0 = col) :
    m.lookup row col = .ok (m.data_.values.getD pos 0) := by
  have hlb : lower_bound m.data_.col_indices (m.ptr row) (m.ptr (row + 1)) col = pos := by
    apply lower_bound_eq _ _ _ _ _ (h.ptr_mono row hr) (h.sorted row hr)
    refine ⟨hlo, by omega, ?_, ?_⟩
    · intro i hi1 hi2
      have := h.sorted row hr i pos hi1 hi2 hhi
      omega
    · intro i hi1 hi2
      by_cases hi3 : i = pos
      · rw [hi3]; omega
      · have := h.sorted row hr pos i hlo (by omega) hi2
        omega
  rw [lookup_eq m row col hr hc, hlb, if_pos ⟨by omega, hcol⟩]

/-- On a well-formed matrix, `lookup` returns the additive identity when no
offset of the row segment carries the column. -/
theorem Inv.lookup_of_absent {m : SparseMatrix} (h : m.Inv) (row col : Nat)
    (hr : row < m.rows_) (hc : col < m.cols_) (habs : ¬ m.stored row col) :
    m.lookup row col = .ok 0 := by
  rw [lookup_eq m row col hr hc]
  have hpp := h.partition_point row col hr
  rw [if_neg]
  intro hfound
  exact habs ⟨_, hpp.1, Nat.lt_of_le_of_ne hpp.2.1 hfound.1, hfound.2⟩

theorem not_stored_of_place {m : SparseMatrix} (row col pos : Nat)
    (hpp : IsPartitionPoint m.data_.col_indices (m.ptr row) (m.ptr (row + 1)) col pos)
    (habove : ∀ i, pos ≤ i → i < m.ptr (row + 1) → col < m.data_.col_indices.getD i 0) :
    ¬ m.stored row col := by
  rintro ⟨i, hi1, hi2, hi3⟩
  by_cases hi4 : i < pos
  · have := hpp.2.2.1 i hi1 hi4
    omega
  · have := habove i (by omega) hi2
    omega

/-- After a valid, nonzero `insert` on a well-formed matrix the call has
succeeded and the inserted value is what `lookup` returns. -/
theorem Inv.lookup_insert {m : SparseMatrix} (h : m.Inv) (row col : Nat) (value : Int)
    (hr : row < m.rows_) (hc : col < m.cols_) (hv : value ≠ 0) :
    (m.insert row col value).1 = .ok () ∧
      (m.insert row col value).2.lookup row col = .ok value := by
  have hinv := h.insert row col value
  obtain ⟨pos, hpp, hcase | hcase⟩ := h.insert_cases row col value hr hc hv
  · obtain ⟨hlt, hcol, heq⟩ := hcase
    rw [heq] at hinv ⊢
    refine ⟨rfl, ?_⟩
    have hlen : pos < m.data_.values.length := by
      have := h.ptr_le_len (row + 1) hr
      rw [h.len_cols] at this
      omega
    rw [hinv.lookup_of_offset row col pos hr hc hpp.1 hlt hcol]
    show Except.ok ((m.data_.values.set pos value).getD pos 0) = Except.ok value
    rw [List.getD_eq_getElem?_getD, List.getElem?_set]
    simp [hlen]
  · obtain ⟨habove, heq⟩ := hcase
    rw [heq] at hinv ⊢
    refine ⟨rfl, ?_⟩
    have hposc : pos ≤ m.data_.col_indices.length :=
      Nat.le_trans hpp.2.1 (h.ptr_le_len (row + 1) hr)
    have hposv : pos ≤ m.data_.values.length := h.len_cols ▸ hposc
    have hptr := ptr_place_at m row pos col value h.len_ptrs
    have hlo : (m.place_at row pos col value).ptr row ≤ pos := by
      rw [hptr, if_neg (by omega)]; exact hpp.1
    have hhi : pos < (m.place_at row pos col value).ptr (row + 1) := by
      rw [hptr, if_pos (by omega)]
      have := hpp.2.1
      omega
    rw [hinv.lookup_of_offset row col pos hr hc hlo hhi (getD_vector_insert_eq _ _ _ _ hposc)]
    show Except.ok ((vector_insert m.data_.values pos value).getD pos 0) = Except.ok value
    rw [getD_vector_insert_eq _ _ _ _ hposv]

/-- Re-inserting a nonzero value where an entry is stored takes the overwrite
branch: the sequences keep their lengths. -/
theorem Inv.nnz_insert_stored {m : SparseMatrix} (h : m.Inv) (row col : Nat) (value : Int)
    (hr : row < m.rows_) (hc : col < m.cols_) (hst : m.stored row col) :
    (m.insert row col value).2.data_.values.length = m.data_.values.length := by
  by_cases hv : value = 0
  · subst hv
    rw [insert_zero m row col hr hc]
  · obtain ⟨pos, hpp, hcase | hcase⟩ := h.insert_cases row col value hr hc hv
    · rw [hcase.2.2]
      show (m.data_.values.set pos value).length = _
      rw [List.length_set]
    · exact absurd hst (not_stored_of_place row col pos hpp hcase.1)

end SparseMatrix

/-! ## Row partitioning -/

namespace detail

theorem partition_bound_succ (b e n k : Nat) :
    partition_bound b e n k + ((e - b) / n + (if k < (e - b) % n then 1 else 0)) =
      partition_bound b e n (k + 1) := by
  unfold partition_bound
  rw [Nat.succ_mul]
  split_ifs with h
  · rw [Nat.min_eq_left (Nat.le_of_lt h), Nat.min_eq_left h]; omega
  · rw [Nat.min_eq_right (by omega), Nat.min_eq_right (by omega)]; omega

theorem partition_range_fold (b e n j : Nat) :
    (List.range j).foldl (fun (st : Nat × List Nat) i =>
      (st.1 + ((e - b) / n + (if i < (e - b) % n then 1 else 0)),
        st.2 ++ [st.1 + ((e - b) / n + (if i < (e - b) % n then 1 else 0))])) (b, [b]) =
      (partition_bound b e n j, (List.range (j + 1)).map (partition_bound b e n)) := by
  induction j with
  | zero => simp [partition_bound, List.range_succ]
  | succ j ih =>
    rw [List.range_succ, List.foldl_append, ih, List.foldl_cons, List.foldl_nil,
      partition_bound_succ, List.range_succ (j + 1), List.map_append]
    rfl

theorem partition_range_eq (b e n : Nat) :
    partition_range b e n = (List.range (n + 1)).map (partition_bound b e n) := by
  unfold partition_range
  exact congrArg Prod.snd (partition_range_fold b e n n)

theorem partition_range_getD (b e n k : Nat) (hk : k ≤ n) :
    (partition_range b e n).getD k 0 = partition_bound b e n k := by
  have hk2 : k < n + 1 := by omega
  rw [partition_range_eq]
  simp [List.getD_eq_getElem?_getD, List.getElem?_range hk2, hk2]

theorem partition_bound_zero (b e n : Nat) : partition_bound b e n 0 = b := by
  simp [partition_bound]

theorem partition_bound_last (b e n : Nat) (hn : 1 ≤ n) (hbe : b ≤ e) :
    partition_bound b e n n = e := by
  unfold partition_bound
  have hmod : (e - b) % n < n := Nat.mod_lt _ (by omega)
  rw [Nat.min_eq_right (Nat.le_of_lt hmod), Nat.div_add_mod]
  omega

theorem partition_bound_mono (b e n k : Nat) :
    partition_bound b e n k ≤ partition_bound b e n (k + 1) := by
  rw [← partition_bound_succ]
  exact Nat.le_add_right _ _

theorem partition_bound_le (b e n : Nat) (i j : Nat) (hij : i ≤ j) :
    partition_bound b e n i ≤ partition_bound b e n j := by
  induction j with
  | zero =>
    have : i = 0 := by omega
    subst this
    exact Nat.le_refl _
  | succ j ih =>
    by_cases h : i = j + 1
    · subst h
      exact Nat.le_refl _
    · exact Nat.le_trans (ih (by omega)) (partition_bound_mono b e n j)

/-- Every position between the first boundary and boundary `j` lies in one of
the first `j` parts. -/
theorem partition_bound_cover (b e n r : Nat) (j : Nat) (hlo : partition_bound b e n 0 ≤ r)
    (hhi : r < partition_bound b e n j) :
    ∃ i, i < j ∧ partition_bound b e n i ≤ r ∧ r < partition_bound b e n (i + 1) := by
  induction j with
  | zero => omega
  | succ j ih =>
    by_cases h : r < partition_bound b e n j
    · obtain ⟨i, hi, h1, h2⟩ := ih h
      exact ⟨i, by omega, h1, h2⟩
    · exact ⟨j, by omega, by omega, hhi⟩

end detail

/-! ## The numeric kernel -/

namespace MatrixOps

theorem foldl_add_eq_sum (g : Nat → Int) (l : List Nat) (a : Int) :
    l.foldl (fun s i => s + g i) a = a + (l.map g).sum := by
  induction l generalizing a with
  | nil => simp
  | cons x l ih => simp [ih, add_assoc]

theorem sum_lane_add (a b : List Int) (h : a.length = b.length) :
    (SimdTraits.add a b).sum = a.sum + b.sum := by
  unfold SimdTraits.add
  induction a generalizing b with
  | nil =>
    cases b with
    | nil => simp
    | cons y b => simp at h
  | cons x a ih =>
    cases b with
    | nil => simp at h
    | cons y b =>
      simp only [List.length_cons, Nat.add_right_cancel_iff] at h
      simp only [List.zipWith_cons_cons, List.sum_cons, ih b h]
      ring

theorem length_lane_add (a b : List Int) (h : a.length = b.length) :
    (SimdTraits.add a b).length = a.length := by
  simp [SimdTraits.add, h]

theorem lane_multiply_map (g k : Nat → Int) (l : List Nat) :
    SimdTraits.multiply (l.map g) (l.map k) = l.map (fun j => g j * k j) := by
  unfold SimdTraits.multiply
  induction l with
  | nil => simp
  | cons x l ih => simp [ih]

/-- One chunk of the vectorized path holds the products of its `vector_size`
offsets. -/
theorem chunk_eq (t : SimdTraits) (values : List Int) (indices : List Nat) (vec : List Int)
    (base : Nat) :
    SimdTraits.multiply (t.load values base)
        (t.load ((List.range t.vector_size).map
          (fun j => vec.getD (indices.getD (base + j) 0) 0)) 0) =
      (List.range t.vector_size).map (fun j => row_term values indices vec (base + j)) := by
  have hload : t.load ((List.range t.vector_size).map
      (fun j => vec.getD (indices.getD (base + j) 0) 0)) 0 =
      (List.range t.vector_size).map (fun j => vec.getD (indices.getD (base + j) 0) 0) := by
    unfold SimdTraits.load
    apply List.map_congr_left
    intro j hj
    rw [List.mem_range] at hj
    simp [List.getD_eq_getElem?_getD, List.getElem?_range hj, hj]
  rw [hload]
  unfold SimdTraits.load
  rw [lane_multiply_map]
  rfl

theorem range_mul_succ (n w : Nat) :
    List.range ((n + 1) * w) = List.range (n * w) ++ (List.range w).map (fun j => n * w + j) := by
  rw [Nat.succ_mul, List.range_add]

/-- The lane accumulator after `n` full chunks: it has `vector_size` lanes and
its lanes add up to the sum of the first `n * vector_size` products. -/
theorem lanes_spec (t : SimdTraits) (values : List Int) (indices : List Nat) (vec : List Int)
    (n : Nat) :
    ((List.range n).foldl (fun sum i =>
        SimdTraits.add sum (SimdTraits.multiply (t.load values (i * t.vector_size))
          (t.load ((List.range t.vector_size).map
            (fun j => vec.getD (indices.getD (i * t.vector_size + j) 0) 0)) 0)))
        t.set_zero).length = t.vector_size ∧
    ((List.range n).foldl (fun sum i =>
        SimdTraits.add sum (SimdTraits.multiply (t.load values (i * t.vector_size))
          (t.load ((List.range t.vector_size).map
            (fun j => vec.getD (indices.getD (i * t.vector_size + j) 0) 0)) 0)))
        t.set_zero).sum =
      ((List.range (n * t.vector_size)).map (row_term values indices vec)).sum := by
  induction n with
  | zero => simp [SimdTraits.set_zero]
  | succ n ih =>
    rw [List.range_succ, List.foldl_append, List.foldl_cons, List.foldl_nil, chunk_eq,
      range_mul_succ, List.map_append, List.sum_append, List.map_map]
    have hlen : ((List.range n).foldl (fun sum i =>
        SimdTraits.add sum (SimdTraits.multiply (t.load values (i * t.vector_size))
          (t.load ((List.range t.vector_size).map
            (fun j => vec.getD (indices.getD (i * t.vector_size + j) 0) 0)) 0)))
        t.set_zero).length =
        ((List.range t.vector_size).map
          (fun j => row_term values indices vec (n * t.vector_size + j))).length := by
      rw [ih.1]; simp
    refine ⟨?_, ?_⟩
    · rw [length_lane_add _ _ hlen, ih.1]
    · rw [sum_lane_add _ _ hlen, ih.2]
      rfl

theorem range_split (a b : Nat) (h : a ≤ b) :
    List.range b = List.range a ++ List.range' a (b - a) := by
  obtain ⟨k, rfl⟩ : ∃ k, b = a + k := ⟨b - a, by omega⟩
  rw [List.range_add, Nat.add_sub_cancel_left, List.range'_eq_map_range]

/-- Both paths of the kernel return the sum, over the offsets of the row, of
`values[i] * vec[indices[i]]`. -/
theorem sparse_dot_product_eq_sum (t : SimdTraits) (values : List Int) (indices : List Nat)
    (vec : List Int) :
    sparse_dot_product t values indices vec =
      ((List.range values.length).map (row_term values indices vec)).sum := by
  unfold sparse_dot_product
  by_cases hv : t.is_vectorizable = true
  · rw [if_pos hv]
    show (List.range' (values.length / t.vector_size * t.vector_size)
        (values.length - values.length / t.vector_size * t.vector_size)).foldl
        (fun result i => result + row_term values indices vec i) (SimdTraits.reduce_sum _) = _
    rw [foldl_add_eq_sum]
    unfold SimdTraits.reduce_sum
    rw [(lanes_spec t values indices vec (values.length / t.vector_size)).2]
    rw [range_split _ values.length (Nat.div_mul_le_self values.length t.vector_size),
      List.map_append, List.sum_append]
  · rw [if_neg hv]
    show (List.range values.length).foldl
        (fun sum i => sum + row_term values indices vec i) 0 = _
    rw [foldl_add_eq_sum, zero_add]

theorem sum_map_range_eq_finset (g : Nat → Int) (n : Nat) :
    ((List.range n).map g).sum = ∑ i in Finset.range n, g i := by
  induction n with
  | zero => simp
  | succ n ih =>
    rw [List.range_succ, List.map_append, List.sum_append, Finset.sum_range_succ, ih]
    simp

/-- On a well-formed matrix the sum over the stored entries of row `r` is the
dense reference product of that row. -/
theorem row_sum_eq_dense {m : SparseMatrix} (h : m.Inv) (vec : List Int) (r : Nat)
    (hr : r < m.rows_) :
    ((List.range (span m.data_.values (m.ptr r) (m.ptr (r + 1))).length).map
      (row_term (span m.data_.values (m.ptr r) (m.ptr (r + 1)))
        (span m.data_.col_indices (m.ptr r) (m.ptr (r + 1))) vec)).sum =
      dense_row_product m vec r := by
  have hle := h.ptr_mono r hr
  have hec := h.ptr_le_len (r + 1) hr
  have hev : m.ptr (r + 1) ≤ m.data_.values.length := h.len_cols ▸ hec
  rw [length_span _ _ _ hev]
  have hterm : ∀ k ∈ List.range (m.ptr (r + 1) - m.ptr r),
      row_term (span m.data_.values (m.ptr r) (m.ptr (r + 1)))
        (span m.data_.col_indices (m.ptr r) (m.ptr (r + 1))) vec k =
      m.data_.values.getD (m.ptr r + k) 0 *
        vec.getD (m.data_.col_indices.getD (m.ptr r + k) 0) 0 := by
    intro k hk
    rw [List.mem_range] at hk
    unfold row_term
    rw [getD_span _ _ _ _ _ hk, getD_span _ _ _ _ _ hk]
  rw [List.map_congr_left hterm, sum_map_range_eq_finset]
  unfold dense_row_product
  rw [sum_map_range_eq_finset]
  have hinj : ∀ x ∈ Finset.range (m.ptr (r + 1) - m.ptr r),
      ∀ y ∈ Finset.range (m.ptr (r + 1) - m.ptr r),
      m.data_.col_indices.getD (m.ptr r + x) 0 = m.data_.col_indices.getD (m.ptr r + y) 0 →
      x = y := by
    intro x hx y hy hxy
    rw [Finset.mem_range] at hx hy
    rcases Nat.lt_trichotomy x y with hlt | heq | hgt
    · have := h.sorted r hr (m.ptr r + x) (m.ptr r + y) (by omega) (by omega) (by omega)
      omega
    · exact heq
    · have := h.sorted r hr (m.ptr r + y) (m.ptr r + x) (by omega) (by omega) (by omega)
      omega
  have hsub : (Finset.range (m.ptr (r + 1) - m.ptr r)).image
      (fun k => m.data_.col_indices.getD (m.ptr r + k) 0) ⊆ Finset.range m.cols := by
    intro c hc
    rw [Finset.mem_image] at hc
    obtain ⟨k, hk, rfl⟩ := hc
    rw [Finset.mem_range] at hk ⊢
    exact h.col_lt _ (by omega)
  rw [← Finset.sum_subset hsub, Finset.sum_image hinj]
  · apply Finset.sum_congr rfl
    intro k hk
    rw [Finset.mem_range] at hk
    rw [h.lookup_of_offset r _ (m.ptr r + k) hr (h.col_lt _ (by omega)) (by omega) (by omega)
      rfl]
  · intro c hc hnot
    rw [Finset.mem_range] at hc
    have habs : ¬ m.stored r c := by
      rintro ⟨i, hi1, hi2, hi3⟩
      apply hnot
      rw [Finset.mem_image]
      refine ⟨i - m.ptr r, by rw [Finset.mem_range]; omega, ?_⟩
      have : m.ptr r + (i - m.ptr r) = i := by omega
      rw [this]; exact hi3
    rw [h.lookup_of_absent r c hr hc habs]
    simp

/-! ## The row loops -/

theorem row_values_ok (m : SparseMatrix) (r : Nat) (hr : r < m.rows_) :
    m.row_values r = .ok (span m.data_.values (m.ptr r) (m.ptr (r + 1))) := by
  have hnr : ¬ r ≥ m.rows_ := by omega
  simp only [SparseMatrix.row_values, SparseMatrix.validate_row, hnr, if_false]

theorem row_indices_ok (m : SparseMatrix) (r : Nat) (hr : r < m.rows_) :
    m.row_indices r = .ok (span m.data_.col_indices (m.ptr r) (m.ptr (r + 1))) := by
  have hnr : ¬ r ≥ m.rows_ := by omega
  simp only [SparseMatrix.row_indices, SparseMatrix.validate_row, hnr, if_false]

theorem multiply_loop_eq (t : SimdTraits) (m : SparseMatrix) (vec : List Int) (l : List Nat)
    (hl : ∀ i ∈ l, i < m.rows_) (result : List Int) :
    multiply_loop t m vec l result =
      .ok (l.foldl (fun res i => res.set i (row_product t m vec i)) result) := by
  induction l generalizing result with
  | nil => rfl
  | cons i l ih =>
    have hi : i < m.rows_ := hl i (List.mem_cons_self _ _)
    unfold multiply_loop
    rw [row_values_ok m i hi, row_indices_ok m i hi]
    exact ih (fun j hj => hl j (List.mem_cons_of_mem _ hj)) _

theorem run_rows_eq (t : SimdTraits) (m : SparseMatrix) (vec : List Int) (l : List Nat)
    (hl : ∀ i ∈ l, i < m.rows_) (result : List Int) :
    run_rows t m vec l result =
      l.foldl (fun res i => res.set i (row_product t m vec i)) result := by
  induction l generalizing result with
  | nil => rfl
  | cons i l ih =>
    have hi : i < m.rows_ := hl i (List.mem_cons_self _ _)
    unfold run_rows
    rw [row_values_ok m i hi, row_indices_ok m i hi]
    exact ih (fun j hj => hl j (List.mem_cons_of_mem _ hj)) _

theorem length_foldl_set (k : Nat → Int) (l : List Nat) (result : List Int) :
    (l.foldl (fun res i => res.set i (k i)) result).length = result.length := by
  induction l generalizing result with
  | nil => rfl
  | cons i l ih => rw [List.foldl_cons, ih, List.length_set]

theorem getD_foldl_set (k : Nat → Int) (l : List Nat) (result : List Int) (r : Nat) :
    (l.foldl (fun res i => res.set i (k i)) result).getD r 0 =
      if r ∈ l ∧ r < result.length then k r else result.getD r 0 := by
  induction l generalizing result with
  | nil => simp
  | cons i l ih =>
    rw [List.foldl_cons, ih, List.length_set]
    by_cases h1 : r ∈ l ∧ r < result.length
    · rw [if_pos h1, if_pos ⟨List.mem_cons_of_mem _ h1.1, h1.2⟩]
    · rw [if_neg h1]
      rw [List.getD_eq_getElem?_getD, List.getElem?_set]
      by_cases h2 : i = r
      · subst h2
        by_cases h3 : i < result.length
        · have h4 : i ∈ i :: l ∧ i < result.length := ⟨List.mem_cons_self _ _, h3⟩
          rw [if_pos rfl, if_pos h4]
          simp [h3]
        · have h4 : ¬ (i ∈ i :: l ∧ i < result.length) := fun hc => h3 hc.2
          rw [if_pos rfl, if_neg h4]
          have h5 : result.length ≤ i := by omega
          simp [h3, List.getElem?_eq_none h5]
      · have h4 : ¬ (r ∈ i :: l ∧ r < result.length) := by
          rintro ⟨hm, hlt⟩
          rcases List.mem_cons.mp hm with heq | hmem
          · exact h2 heq.symm
          · exact h1 ⟨hmem, hlt⟩
        rw [if_neg h4]
        simp [h2]

theorem eq_of_getD_eq (a b : List Int) (hlen : a.length = b.length)
    (h : ∀ r, r < a.length → a.getD r 0 = b.getD r 0) : a = b := by
  apply List.ext_getElem hlen
  intro r h1 h2
  have := h r h1
  rwa [List.getD_eq_getElem _ 0 h1, List.getD_eq_getElem _ 0 h2] at this

/-- The buffer the sequential loop leaves: entry `r` is the kernel's result
for row `r`. -/
theorem multiply_eq (t : SimdTraits) (m : SparseMatrix) (vec : List Int)
    (hv : vec.length = m.cols) :
    multiply t m vec = .ok ((List.range m.rows).map (row_product t m vec)) := by
  have hd : ¬ m.cols ≠ vec.length := by simp [hv]
  simp only [multiply, validate_dimensions, hd, if_false, SparseMatrix.rows]
  rw [multiply_loop_eq t m vec _ (fun i hi => List.mem_range.mp hi)]
  congr 1
  apply eq_of_getD_eq
  · rw [length_foldl_set]; simp
  · intro r hr
    rw [length_foldl_set, List.length_replicate] at hr
    rw [getD_foldl_set, if_pos ⟨List.mem_range.mpr hr, by simpa using hr⟩]
    simp [List.getD_eq_getElem?_getD, List.getElem?_range hr, hr]

/-! ## The parallel path -/

theorem submit_all_ok (pool : ThreadPool) (tasks : List Task) (hw : pool.workers_ ≠ 0) :
    pool.submit_all tasks = (.ok (), { pool with tasks_ := pool.tasks_ ++ tasks }) := by
  induction tasks generalizing pool with
  | nil => simp [ThreadPool.submit_all]
  | cons f rest ih =>
    unfold ThreadPool.submit_all
    simp only [ThreadPool.submit, hw, if_false]
    rw [ih { workers_ := pool.workers_, tasks_ := pool.tasks_ ++ [f] } hw]
    simp

theorem partition_tasks_zero (t : SimdTraits) (m : SparseMatrix) (vec : List Int) :
    partition_tasks t m vec 0 = [] := rfl

/-- The call never fails in the submit loop: with no worker there is nothing
to submit, with a worker every submit is accepted. -/
theorem submit_all_partition_tasks (t : SimdTraits) (m : SparseMatrix) (vec : List Int)
    (pool : ThreadPool) :
    pool.submit_all (partition_tasks t m vec pool.thread_count) =
      (.ok (), { pool with
        tasks_ := pool.tasks_ ++ partition_tasks t m vec pool.thread_count }) := by
  by_cases hw : pool.workers_ = 0
  · have : pool.thread_count = 0 := hw
    rw [this, partition_tasks_zero]
    simp [ThreadPool.submit_all]
  · exact submit_all_ok pool _ hw

/-- One closure, when its rows are rows of the matrix, writes the kernel's
result into each slot of its range. -/
theorem partition_task_eq (t : SimdTraits) (m : SparseMatrix) (vec : List Int)
    (start end_ : Nat) (hend : end_ ≤ m.rows_) (result : List Int) :
    partition_task t m vec start end_ result =
      (List.range' start (end_ - start)).foldl
        (fun res i => res.set i (row_product t m vec i)) result := by
  unfold partition_task
  apply run_rows_eq
  intro i hi
  rw [List.mem_range'_1] at hi
  omega

theorem length_partition_task (t : SimdTraits) (m : SparseMatrix) (vec : List Int)
    (start end_ : Nat) (hend : end_ ≤ m.rows_) (result : List Int) :
    (partition_task t m vec start end_ result).length = result.length := by
  rw [partition_task_eq t m vec start end_ hend, length_foldl_set]

theorem getD_partition_task (t : SimdTraits) (m : SparseMatrix) (vec : List Int)
    (start end_ : Nat) (hend : end_ ≤ m.rows_) (result : List Int) (r : Nat) :
    (partition_task t m vec start end_ result).getD r 0 =
      if (start ≤ r ∧ r < end_) ∧ r < result.length then row_product t m vec r
      else result.getD r 0 := by
  rw [partition_task_eq t m vec start end_ hend, getD_foldl_set]
  by_cases h : (start ≤ r ∧ r < end_) ∧ r < result.length
  · rw [if_pos h, if_pos ⟨List.mem_range'_1.mpr (by omega), h.2⟩]
  · rw [if_neg h, if_neg]
    rintro ⟨h1, h2⟩
    rw [List.mem_range'_1] at h1
    exact h ⟨by omega, h2⟩

theorem length_run_tasks (t : SimdTraits) (m : SparseMatrix) (vec : List Int)
    (lo hi : Nat → Nat) (order : List Nat) (hhi : ∀ i ∈ order, hi i ≤ m.rows_)
    (result : List Int) :
    (run_tasks (order.map (fun i => partition_task t m vec (lo i) (hi i))) result).length =
      result.length := by
  induction order generalizing result with
  | nil => rfl
  | cons i rest ih =>
    show (run_tasks (rest.map _) (partition_task t m vec (lo i) (hi i) result)).length = _
    rw [ih (fun j hj => hhi j (List.mem_cons_of_mem _ hj)),
      length_partition_task t m vec _ _ (hhi i (List.mem_cons_self _ _))]

/-- Whatever the order in which the closures are run, a slot covered by one of
them ends up holding the kernel's result for its row. -/
theorem getD_run_tasks (t : SimdTraits) (m : SparseMatrix) (vec : List Int)
    (lo hi : Nat → Nat) (order : List Nat) (hhi : ∀ i ∈ order, hi i ≤ m.rows_)
    (result : List Int) (r : Nat) (hr : r < result.length)
    (hcov : (∃ i ∈ order, lo i ≤ r ∧ r < hi i) ∨ result.getD r 0 = row_product t m vec r) :
    (run_tasks (order.map (fun i => partition_task t m vec (lo i) (hi i))) result).getD r 0 =
      row_product t m vec r := by
  induction order generalizing result with
  | nil =>
    rcases hcov with ⟨i, hi, _⟩ | h
    · cases hi
    · exact h
  | cons i rest ih =>
    show (run_tasks (rest.map _) (partition_task t m vec (lo i) (hi i) result)).getD r 0 = _
    have hend := hhi i (List.mem_cons_self _ _)
    apply ih (fun j hj => hhi j (List.mem_cons_of_mem _ hj))
    · rw [length_partition_task t m vec _ _ hend]; exact hr
    · rcases hcov with ⟨j, hj, hjr⟩ | h
      · rcases List.mem_cons.mp hj with heq | hmem
        · subst heq
          right
          rw [getD_partition_task t m vec _ _ hend, if_pos ⟨hjr, hr⟩]
        · left
          exact ⟨j, hmem, hjr⟩
      · right
        rw [getD_partition_task t m vec _ _ hend]
        split_ifs
        · rfl
        · exact h

/-- Run in any order that contains every partition, the closures of
`multiply_parallel` fill the zero buffer with the kernel's result of every row. -/
theorem run_partition_tasks (t : SimdTraits) (m : SparseMatrix) (vec : List Int) (n : Nat)
    (hn : 1 ≤ n) (order : List Nat) (hsub : ∀ i ∈ order, i < n)
    (hall : ∀ i, i < n → i ∈ order) :
    run_tasks (order.map (fun i => partition_task t m vec
        ((detail.partition_range 0 m.rows n).getD i 0)
        ((detail.partition_range 0 m.rows n).getD (i + 1) 0)))
      (List.replicate m.rows 0) = (List.range m.rows).map (row_product t m vec) := by
  have hhi : ∀ i ∈ order, (detail.partition_range 0 m.rows n).getD (i + 1) 0 ≤ m.rows_ := by
    intro i hi
    have hi2 := hsub i hi
    rw [detail.partition_range_getD 0 m.rows n (i + 1) (by omega)]
    have h1 := detail.partition_bound_le 0 m.rows n (i + 1) n (by omega)
    rw [detail.partition_bound_last 0 m.rows n hn (Nat.zero_le _)] at h1
    exact h1
  apply eq_of_getD_eq
  · rw [length_run_tasks t m vec _ _ order hhi]; simp
  · intro r hr
    rw [length_run_tasks t m vec _ _ order hhi, List.length_replicate] at hr
    rw [getD_run_tasks t m vec _ _ order hhi _ r (by simpa using hr)]
    · simp [List.getD_eq_getElem?_getD, List.getElem?_range hr, hr]
    · left
      have hlast := detail.partition_bound_last 0 m.rows n hn (Nat.zero_le _)
      obtain ⟨i, hi, h1, h2⟩ := detail.partition_bound_cover 0 m.rows n r n
        (by rw [detail.partition_bound_zero]; exact Nat.zero_le _) (by rw [hlast]; exact hr)
      refine ⟨i, hall i hi, ?_, ?_⟩
      · rw [detail.partition_range_getD 0 m.rows n i (by omega)]; exact h1
      · rw [detail.partition_range_getD 0 m.rows n (i + 1) (by omega)]; exact h2

theorem multiply_parallel_eq (t : SimdTraits) (m : SparseMatrix) (vec : List Int)
    (pool : ThreadPool) (hv : vec.length = m.cols) (hn : 1 ≤ pool.thread_count) :
    (multiply_parallel t m vec pool).1 = .ok ((List.range m.rows).map (row_product t m vec)) := by
  have hd : ¬ m.cols ≠ vec.length := by simp [hv]
  simp only [multiply_parallel, validate_dimensions, hd, if_false]
  rw [submit_all_partition_tasks]
  show Except.ok (run_tasks (partition_tasks t m vec pool.thread_count)
    (List.replicate m.rows 0)) = _
  congr 1
  exact run_partition_tasks t m vec pool.thread_count hn (List.range pool.thread_count)
    (fun i hi => List.mem_range.mp hi) (fun i hi => List.mem_range.mpr hi)

end MatrixOps

/-! ## Claims about the container -/

open SparseMatrix

/-- C1. Insert-then-lookup round trip: on every matrix reachable from `construct`
by inserts, for every in-range position and every value different from the
additive identity, `insert` succeeds and a following `lookup` of the same
position returns the inserted value, whether or not the position held an
entry before. -/
theorem insert_then_lookup (m : SparseMatrix) (hm : m.Reachable) (row col : Nat) (v : Int)
    (hr : row < m.rows) (hc : col < m.cols) (hv : v ≠ 0) :
    (m.insert row col v).1 = .ok () ∧ (m.insert row col v).2.lookup row col = .ok v :=
  hm.inv.lookup_insert row col v hr hc hv

theorem insert_then_lookup_witness :
    (((construct 10 10).insert 1 2 3).2.insert 1 0 7).1 = .ok () ∧
      (((construct 10 10).insert 1 2 3).2.insert 1 0 7).2.lookup 1 0 = .ok 7 :=
  insert_then_lookup ((construct 10 10).insert 1 2 3).2
    (.insert 1 2 3 (.construct 10 10)) 1 0 7 (by decide) (by decide) (by decide)

/-- C4 as stated, refuted: re-inserting the additive identity at a stored
position leaves the old value in place, so `lookup` does not return the
re-inserted value. -/
theorem reinsert_any_value_counterexample :
    ¬ (∀ (m : SparseMatrix) (row col : Nat) (v : Int), m.Reachable → row < m.rows →
        col < m.cols → m.stored row col →
        (m.insert row col v).2.nnz = m.nnz ∧ (m.insert row col v).2.lookup row col = .ok v) := by
  intro hall
  have h := (hall ((construct 10 10).insert 5 5 1).2 5 5 0
    (.insert 5 5 1 (.construct 10 10)) (by decide) (by decide)
    ⟨0, by decide, by decide, by decide⟩).2
  have h1 : (((construct 10 10).insert 5 5 1).2.insert 5 5 0).2.lookup 5 5 = .ok 1 := rfl
  rw [h1] at h
  cases h

/-- C4, amended. Re-inserting a nonzero value at an existing position updates
in place: on every reachable matrix, for every in-range position at which an
entry is stored and every value different from the additive identity,
`insert` leaves `nnz()` unchanged and `lookup` then returns the new value. -/
theorem reinsert_updates_in_place (m : SparseMatrix) (hm : m.Reachable) (row col : Nat) (v : Int)
    (hr : row < m.rows) (hc : col < m.cols) (hst : m.stored row col) (hv : v ≠ 0) :
    (m.insert row col v).2.nnz = m.nnz ∧ (m.insert row col v).2.lookup row col = .ok v :=
  ⟨hm.inv.nnz_insert_stored row col v hr hc hst, (hm.inv.lookup_insert row col v hr hc hv).2⟩

theorem reinsert_updates_in_place_witness :
    (((construct 10 10).insert 5 5 1).2.insert 5 5 2).2.nnz = 1 ∧
      (((construct 10 10).insert 5 5 1).2.insert 5 5 2).2.lookup 5 5 = .ok 2 :=
  reinsert_updates_in_place ((construct 10 10).insert 5 5 1).2
    (.insert 5 5 1 (.construct 10 10)) 5 5 2 (by decide) (by decide)
    ⟨0, by decide, by decide, by decide⟩ (by decide)

/-- C5. Zero insert is a no-op on the whole state: for every matrix and every
in-range position, inserting the additive identity returns normally and leaves
`values`, `col_indices` and `row_ptrs` exactly as they were, hence `nnz()` and
every `lookup` too; nothing is added, removed or overwritten. -/
theorem insert_zero_is_noop (m : SparseMatrix) (row col : Nat)
    (hr : row < m.rows) (hc : col < m.cols) :
    (m.insert row col 0).1 = .ok () ∧
      (m.insert row col 0).2.data_.values = m.data_.values ∧
      (m.insert row col 0).2.data_.col_indices = m.data_.col_indices ∧
      (m.insert row col 0).2.data_.row_ptrs = m.data_.row_ptrs ∧
      (m.insert row col 0).2.nnz = m.nnz ∧
      ∀ r c, (m.insert row col 0).2.lookup r c = m.lookup r c := by
  rw [insert_zero m row col hr hc]
  exact ⟨rfl, rfl, rfl, rfl, rfl, fun _ _ => rfl⟩

theorem insert_zero_is_noop_witness :
    (((construct 10 10).insert 5 5 1).2.insert 5 5 0).2.data_.values = [1] ∧
      (((construct 10 10).insert 5 5 1).2.insert 5 5 0).2.lookup 5 5 = .ok 1 :=
  ⟨(insert_zero_is_noop ((construct 10 10).insert 5 5 1).2 5 5 (by decide) (by decide)).2.1,
    (insert_zero_is_noop ((construct 10 10).insert 5 5 1).2 5 5 (by decide)
      (by decide)).2.2.2.2.2 5 5⟩

/-- C6. Bounds checking: for every matrix, position and value (zero included),
`insert` fails with `IndexOutOfRange` exactly when `row >= rows` or
`col >= cols`, `lookup` fails with `IndexOutOfRange` under exactly the same
condition, neither raises any other failure, and a failing `insert` leaves
the matrix unchanged. -/
theorem bounds_checking (m : SparseMatrix) (row col : Nat) (value : Int) :
    ((m.insert row col value).1 = .error .IndexOutOfRange ↔ (row ≥ m.rows ∨ col ≥ m.cols)) ∧
      (m.lookup row col = .error .IndexOutOfRange ↔ (row ≥ m.rows ∨ col ≥ m.cols)) ∧
      (∀ e, (m.insert row col value).1 = .error e → e = .IndexOutOfRange) ∧
      (∀ e, m.lookup row col = .error e → e = .IndexOutOfRange) ∧
      (∀ e, (m.insert row col value).1 = .error e → (m.insert row col value).2 = m) := by
  by_cases hrange : row ≥ m.rows_ ∨ col ≥ m.cols_
  · have hins := insert_out_of_range m row col value hrange
    have hlk : m.lookup row col = .error .IndexOutOfRange := by
      simp only [lookup, validate_indices, hrange, if_true]
    rw [hins, hlk]
    refine ⟨⟨fun _ => hrange, fun _ => rfl⟩, ⟨fun _ => hrange, fun _ => rfl⟩, ?_, ?_, ?_⟩
    · intro e he; cases he; rfl
    · intro e he; cases he; rfl
    · intro e _; rfl
  · have hr : row < m.rows_ := by omega
    have hc : col < m.cols_ := by omega
    have hins : (m.insert row col value).1 = .ok () := by
      simp only [SparseMatrix.insert, validate_indices, hrange, if_false]
      split_ifs <;> rfl
    have hlk : ∃ x, m.lookup row col = .ok x := by
      rw [lookup_eq m row col hr hc]
      split_ifs
      · exact ⟨_, rfl⟩
      · exact ⟨_, rfl⟩
    obtain ⟨x, hx⟩ := hlk
    rw [hins, hx]
    refine ⟨⟨fun h => (by cases h), fun h => absurd h hrange⟩,
      ⟨fun h => (by cases h), fun h => absurd h hrange⟩, ?_, ?_, ?_⟩
    · intro e he; cases he
    · intro e he; cases he
    · intro e he; cases he

/-- C10. Row views expose the row's entries sorted by column: on every
reachable matrix and for every `r < rows`, `row_indices(r)` and
`row_values(r)` return views of equal length, `row_indices(r)` is strictly
increasing and contains exactly the columns at which row `r` stores an
entry, and `row_values(r)[k]` is what `lookup(r, row_indices(r)[k])`
returns, for every `k`. -/
theorem row_views_sorted_by_column (m : SparseMatrix) (hm : m.Reachable) (r : Nat)
    (hr : r < m.rows) :
    ∃ idx vals, m.row_indices r = .ok idx ∧ m.row_values r = .ok vals ∧
      idx.length = vals.length ∧
      List.Pairwise (fun a b => a < b) idx ∧
      (∀ c, c ∈ idx ↔ m.stored r c) ∧
      (∀ k, k < idx.length → m.lookup r (idx.getD k 0) = .ok (vals.getD k 0)) := by
  have h := hm.inv
  have hr2 : r < m.rows_ := hr
  have hnr : ¬ r ≥ m.rows_ := by omega
  have hle := h.ptr_mono r hr2
  have hec := h.ptr_le_len (r + 1) hr2
  have hev : m.ptr (r + 1) ≤ m.data_.values.length := h.len_cols ▸ hec
  have hli := length_span m.data_.col_indices (m.ptr r) (m.ptr (r + 1)) hec
  have hlv := length_span m.data_.values (m.ptr r) (m.ptr (r + 1)) hev
  have hgi : ∀ k, k < m.ptr (r + 1) - m.ptr r →
      (span m.data_.col_indices (m.ptr r) (m.ptr (r + 1))).getD k 0 =
        m.data_.col_indices.getD (m.ptr r + k) 0 := fun k hk => getD_span _ _ _ _ _ hk
  refine ⟨span m.data_.col_indices (m.ptr r) (m.ptr (r + 1)),
    span m.data_.values (m.ptr r) (m.ptr (r + 1)), ?_, ?_, ?_, ?_, ?_, ?_⟩
  · simp only [row_indices, validate_row, hnr, if_false]
  · simp only [row_values, validate_row, hnr, if_false]
  · rw [hli, hlv]
  · rw [List.pairwise_iff_getElem]
    intro i j hi hj hij
    rw [← List.getD_eq_getElem _ 0 hi, ← List.getD_eq_getElem _ 0 hj,
      hgi i (by omega), hgi j (by omega)]
    exact h.sorted r hr2 _ _ (by omega) (by omega) (by omega)
  · intro c
    rw [List.mem_iff_getElem]
    constructor
    · rintro ⟨k, hk, hkc⟩
      rw [← List.getD_eq_getElem _ 0 hk, hgi k (by omega)] at hkc
      exact ⟨m.ptr r + k, by omega, by omega, hkc⟩
    · rintro ⟨i, hi1, hi2, hi3⟩
      have hk : i - m.ptr r < (span m.data_.col_indices (m.ptr r) (m.ptr (r + 1))).length := by
        omega
      refine ⟨i - m.ptr r, hk, ?_⟩
      rw [← List.getD_eq_getElem _ 0 hk, hgi _ (by omega)]
      have : m.ptr r + (i - m.ptr r) = i := by omega
      rw [this]; exact hi3
  · intro k hk
    rw [hli] at hk
    rw [hgi k hk, getD_span m.data_.values _ _ 0 k hk]
    exact h.lookup_of_offset r _ (m.ptr r + k) hr2 (h.col_lt _ (by omega)) (by omega)
      (by omega) rfl

theorem row_views_sorted_by_column_witness :
    ((((construct 5 5).insert 2 4 3).2.insert 2 0 1).2.insert 2 2 2).2.row_indices 2 =
        .ok [0, 2, 4] ∧
      List.Pairwise (fun a b => a < b) [0, 2, 4] ∧
      ((((construct 5 5).insert 2 4 3).2.insert 2 0 1).2.insert 2 2 2).2.lookup 2 2 = .ok 2 := by
  obtain ⟨idx, vals, h1, h2, _, h4, _, h6⟩ := row_views_sorted_by_column
    ((((construct 5 5).insert 2 4 3).2.insert 2 0 1).2.insert 2 2 2).2
    (.insert 2 2 2 (.insert 2 0 1 (.insert 2 4 3 (.construct 5 5)))) 2 (by decide)
  have e1 : ((((construct 5 5).insert 2 4 3).2.insert 2 0 1).2.insert 2 2 2).2.row_indices 2 =
      .ok [0, 2, 4] := rfl
  have e2 : ((((construct 5 5).insert 2 4 3).2.insert 2 0 1).2.insert 2 2 2).2.row_values 2 =
      .ok [1, 2, 3] := rfl
  rw [e1] at h1
  rw [e2] at h2
  cases h1
  cases h2
  exact ⟨e1, h4, h6 1 (by decide)⟩

/-- C8. Column order invariant: in every matrix reachable from `construct` by
any sequence of inserts, the column indices of each row segment
`[row_ptrs[r], row_ptrs[r+1])` are strictly increasing, so no column occurs
at two different offsets of a row. -/
theorem column_order_invariant (m : SparseMatrix) (hm : m.Reachable) (r : Nat) (hr : r < m.rows) :
    (∀ i j, m.data_.row_ptrs.getD r 0 ≤ i → i < j → j < m.data_.row_ptrs.getD (r + 1) 0 →
        m.data_.col_indices.getD i 0 < m.data_.col_indices.getD j 0) ∧
      (∀ i j, m.data_.row_ptrs.getD r 0 ≤ i → i < m.data_.row_ptrs.getD (r + 1) 0 →
        m.data_.row_ptrs.getD r 0 ≤ j → j < m.data_.row_ptrs.getD (r + 1) 0 → i ≠ j →
        m.data_.col_indices.getD i 0 ≠ m.data_.col_indices.getD j 0) := by
  have hs := hm.inv.sorted r hr
  refine ⟨hs, ?_⟩
  intro i j hi1 hi2 hj1 hj2 hij
  rcases Nat.lt_or_gt_of_ne hij with hlt | hgt
  · have := hs i j hi1 hlt hj2
    omega
  · have := hs j i hj1 hgt hi2
    omega

theorem column_order_invariant_witness :
    (((construct 2 3).insert 0 2 5).2.insert 0 0 4).2.data_.col_indices.getD 0 0 <
      (((construct 2 3).insert 0 2 5).2.insert 0 0 4).2.data_.col_indices.getD 1 0 :=
  (column_order_invariant (((construct 2 3).insert 0 2 5).2.insert 0 0 4).2
    (.insert 0 0 4 (.insert 0 2 5 (.construct 2 3))) 0 (by decide)).1 0 1
    (by decide) (by decide) (by decide)

/-- C9. Structural CSR invariant: in every matrix reachable from
`construct(rows, cols)` by any sequence of inserts (failing and zero-valued
ones included), `row_ptrs` has length `rows + 1`, starts with `0`, is
non-decreasing, and `values.length == col_indices.length == row_ptrs[rows]
== nnz()`. -/
theorem structural_invariant (m : SparseMatrix) (hm : m.Reachable) :
    m.data_.row_ptrs.length = m.rows + 1 ∧
      m.data_.row_ptrs.getD 0 0 = 0 ∧
      (∀ i j, i ≤ j → j < m.data_.row_ptrs.length →
        m.data_.row_ptrs.getD i 0 ≤ m.data_.row_ptrs.getD j 0) ∧
      m.data_.values.length = m.data_.col_indices.length ∧
      m.data_.col_indices.length = m.data_.row_ptrs.getD m.rows 0 ∧
      m.data_.row_ptrs.getD m.rows 0 = m.nnz := by
  have h := hm.inv
  refine ⟨h.len_ptrs, h.ptr_zero, ?_, h.len_cols.symm, ?_, h.len_vals.symm⟩
  · intro i j hij hj
    have hlen := h.len_ptrs
    exact h.ptr_le j (by omega) i hij
  · rw [h.len_cols]; exact h.len_vals

theorem structural_invariant_witness :
    (((construct 2 3).insert 0 2 5).2.insert 7 0 4).2.data_.row_ptrs.length = 2 + 1 ∧
      (((construct 2 3).insert 0 2 5).2.insert 7 0 4).2.data_.row_ptrs.getD 2 0 = 1 :=
  ⟨(structural_invariant (((construct 2 3).insert 0 2 5).2.insert 7 0 4).2
      (.insert 7 0 4 (.insert 0 2 5 (.construct 2 3)))).1,
    (structural_invariant (((construct 2 3).insert 0 2 5).2.insert 7 0 4).2
      (.insert 7 0 4 (.insert 0 2 5 (.construct 2 3)))).2.2.2.2.2⟩

/-! ## Claims about the multiplication engine -/

open MatrixOps

/-- C2. Sequential multiply computes the matrix-vector product: on every
matrix reachable by inserts and every vector of length `cols`, over exact
integer arithmetic and with either kernel path, `multiply` returns a vector
of length `rows` whose entry `r` is the dense reference sum over all
`c < cols` of `lookup(r, c) * v[c]`, which is also the kernel's dot product
of `row_values(r)`, `row_indices(r)` with `v`. -/
theorem multiply_is_matrix_vector_product (t : SimdTraits) (m : SparseMatrix)
    (hm : m.Reachable) (vec : List Int) (hv : vec.length = m.cols) :
    ∃ result, multiply t m vec = .ok result ∧ result.length = m.rows ∧
      ∀ r, r < m.rows →
        result.getD r 0 = dense_row_product m vec r ∧
        ∃ vals idx, m.row_values r = .ok vals ∧ m.row_indices r = .ok idx ∧
          result.getD r 0 = sparse_dot_product t vals idx vec := by
  refine ⟨_, multiply_eq t m vec hv, by simp, ?_⟩
  intro r hr
  have hget : ((List.range m.rows).map (row_product t m vec)).getD r 0 =
      row_product t m vec r := by
    simp [List.getD_eq_getElem?_getD, List.getElem?_range hr, hr]
  rw [hget]
  refine ⟨?_, _, _, row_values_ok m r hr, row_indices_ok m r hr, rfl⟩
  unfold row_product
  rw [sparse_dot_product_eq_sum]
  exact row_sum_eq_dense hm.inv vec r hr

theorem multiply_is_matrix_vector_product_witness :
    multiply ⟨true, 2⟩ scenario_a [1, 2, 3] = .ok [5, 6, 23] ∧
      dense_row_product scenario_a [1, 2, 3] 2 = 23 := by
  obtain ⟨result, h1, _, h3⟩ := multiply_is_matrix_vector_product ⟨true, 2⟩ scenario_a
    (.insert 2 2 5 (.insert 2 1 4 (.insert 1 1 3 (.insert 0 1 2 (.insert 0 0 1
      (.construct 3 3)))))) [1, 2, 3] (by decide)
  have e : multiply ⟨true, 2⟩ scenario_a [1, 2, 3] = .ok [5, 6, 23] := rfl
  rw [e] at h1
  cases h1
  exact ⟨e, ((h3 2 (by decide)).1).symm⟩

/-- C3. Parallel and sequential multiplication agree: for every matrix
(reachable by inserts or not), every vector of length `cols` and every pool
with at least one worker (more workers than rows and zero rows included),
`multiply_parallel` returns the very vector `multiply` returns. -/
theorem parallel_agrees_with_sequential (t : SimdTraits) (m : SparseMatrix) (vec : List Int)
    (pool : ThreadPool) (hv : vec.length = m.cols) (hn : 1 ≤ pool.thread_count) :
    ∃ result, multiply t m vec = .ok result ∧
      (multiply_parallel t m vec pool).1 = .ok result :=
  ⟨_, multiply_eq t m vec hv, multiply_parallel_eq t m vec pool hv hn⟩

theorem parallel_agrees_with_sequential_witness :
    ∃ result, multiply ⟨false, 1⟩ scenario_a [1, 2, 3] = .ok result ∧
      (multiply_parallel ⟨false, 1⟩ scenario_a [1, 2, 3] ⟨4, []⟩).1 = .ok result :=
  parallel_agrees_with_sequential ⟨false, 1⟩ scenario_a [1, 2, 3] ⟨4, []⟩ (by decide) (by decide)

/-- C7. Dimension check of both multiply entry points: for every matrix,
vector and pool, `multiply` and `multiply_parallel` each fail with
`DimensionMismatch` exactly when `vector.length != matrix.cols()`, neither
raises any other failure, and a failing `multiply_parallel` has submitted
nothing: the pool, its queue included, is as it was. -/
theorem dimension_check (t : SimdTraits) (m : SparseMatrix) (vec : List Int)
    (pool : ThreadPool) :
    (multiply t m vec = .error .DimensionMismatch ↔ vec.length ≠ m.cols) ∧
      ((multiply_parallel t m vec pool).1 = .error .DimensionMismatch ↔
        vec.length ≠ m.cols) ∧
      (∀ e, multiply t m vec = .error e → e = .DimensionMismatch) ∧
      (∀ e, (multiply_parallel t m vec pool).1 = .error e → e = .DimensionMismatch) ∧
      (∀ e, (multiply_parallel t m vec pool).1 = .error e →
        (multiply_parallel t m vec pool).2 = pool ∧
        (multiply_parallel t m vec pool).2.tasks_ = pool.tasks_) := by
  by_cases hv : vec.length = m.cols
  · have hseq := multiply_eq t m vec hv
    have hd : ¬ m.cols ≠ vec.length := by simp [hv]
    have hpar : ∃ x, (multiply_parallel t m vec pool).1 = .ok x := by
      simp only [multiply_parallel, validate_dimensions, hd, if_false]
      rw [submit_all_partition_tasks]
      exact ⟨_, rfl⟩
    obtain ⟨x, hx⟩ := hpar
    rw [hseq, hx]
    refine ⟨⟨fun h => (by cases h), fun h => absurd hv h⟩,
      ⟨fun h => (by cases h), fun h => absurd hv h⟩, ?_, ?_, ?_⟩
    · intro e he; cases he
    · intro e he; cases he
    · intro e he; cases he
  · have hd : m.cols ≠ vec.length := fun h => hv h.symm
    have hseq : multiply t m vec = .error .DimensionMismatch := by
      unfold multiply validate_dimensions
      rw [if_pos hd]
    have hpar : multiply_parallel t m vec pool = (.error .DimensionMismatch, pool) := by
      unfold multiply_parallel validate_dimensions
      rw [if_pos hd]
    rw [hseq, hpar]
    refine ⟨⟨fun _ => hv, fun _ => rfl⟩, ⟨fun _ => hv, fun _ => rfl⟩, ?_, ?_, ?_⟩
    · intro e he; cases he; rfl
    · intro e he; cases he; rfl
    · intro e _; exact ⟨rfl, rfl⟩


/-! ## Further facts and claims about the container and the engine -/

theorem SparseMatrix.ptr_construct (rows cols i : Nat) : (construct rows cols).ptr i = 0 := by
  show (List.replicate (rows + 1) 0).getD i 0 = 0
  simp only [List.getD_eq_getElem?_getD, List.getElem?_replicate]
  split <;> rfl

namespace SparseMatrix

theorem stored_iff_entry (m : SparseMatrix) (r c : Nat) :
    m.stored r c ↔ ∃ x, m.entry r c x := by
  constructor
  · rintro ⟨i, h1, h2, h3⟩
    exact ⟨_, i, h1, h2, h3, rfl⟩
  · rintro ⟨_, i, h1, h2, h3, _⟩
    exact ⟨i, h1, h2, h3⟩

theorem Inv.lookup_of_entry {m : SparseMatrix} (h : m.Inv) (r c : Nat) (x : Int)
    (hr : r < m.rows_) (hc : c < m.cols_) (he : m.entry r c x) : m.lookup r c = .ok x := by
  obtain ⟨i, h1, h2, h3, h4⟩ := he
  rw [h.lookup_of_offset r c i hr hc h1 h2 h3, h4]

/-- Two matrices with the same entries in a row answer `lookup` alike there. -/
theorem lookup_eq_of_entry_iff {m m2 : SparseMatrix} (h : m.Inv) (h2 : m2.Inv)
    (hrows : m2.rows_ = m.rows_) (hcols : m2.cols_ = m.cols_) (r c : Nat)
    (hr : r < m.rows_) (hc : c < m.cols_) (hent : ∀ x, m2.entry r c x ↔ m.entry r c x) :
    m2.lookup r c = m.lookup r c := by
  by_cases hst : m.stored r c
  · obtain ⟨x, hx⟩ := (stored_iff_entry m r c).mp hst
    rw [h.lookup_of_entry r c x hr hc hx,
      h2.lookup_of_entry r c x (hrows ▸ hr) (hcols ▸ hc) ((hent x).mpr hx)]
  · have hst2 : ¬ m2.stored r c := by
      intro hs
      obtain ⟨x, hx⟩ := (stored_iff_entry m2 r c).mp hs
      exact hst ((stored_iff_entry m r c).mpr ⟨x, (hent x).mp hx⟩)
    rw [h.lookup_of_absent r c hr hc hst,
      h2.lookup_of_absent r c (hrows ▸ hr) (hcols ▸ hc) hst2]

/-- Row segments do not overlap. -/
theorem Inv.segment_unique {m : SparseMatrix} (h : m.Inv) (r r2 i : Nat)
    (hr : r < m.rows_) (hr2 : r2 < m.rows_)
    (h1 : m.ptr r ≤ i) (h2 : i < m.ptr (r + 1))
    (h3 : m.ptr r2 ≤ i) (h4 : i < m.ptr (r2 + 1)) : r = r2 := by
  rcases Nat.lt_trichotomy r r2 with hlt | heq | hgt
  · have := h.ptr_le r2 (by omega) (r + 1) (by omega)
    omega
  · exact heq
  · have := h.ptr_le r (by omega) (r2 + 1) (by omega)
    omega

/-- The overwrite branch changes the entry at its own position only. -/
theorem Inv.entry_overwrite_at {m : SparseMatrix} (h : m.Inv) (row col pos : Nat) (value : Int)
    (hr : row < m.rows_) (hlo : m.ptr row ≤ pos) (hhi : pos < m.ptr (row + 1))
    (hcol : m.data_.col_indices.getD pos 0 = col) (r2 c2 : Nat) (hr2 : r2 < m.rows_)
    (hne : ¬ (r2 = row ∧ c2 = col)) (x : Int) :
    (m.overwrite_at pos value).entry r2 c2 x ↔ m.entry r2 c2 x := by
  have hval : ∀ i, m.ptr r2 ≤ i → i < m.ptr (r2 + 1) → m.data_.col_indices.getD i 0 = c2 →
      (m.data_.values.set pos value).getD i 0 = m.data_.values.getD i 0 := by
    intro i h1 h2 h3
    have hip : pos ≠ i := by
      intro heq
      subst heq
      exact hne ⟨(h.segment_unique row r2 pos hr hr2 hlo hhi h1 h2).symm, h3.symm.trans hcol⟩
    simp only [List.getD_eq_getElem?_getD, List.getElem?_set, hip, if_false]
  constructor
  · rintro ⟨i, h1, h2, h3, h4⟩
    refine ⟨i, h1, h2, h3, ?_⟩
    rw [← hval i h1 h2 h3]; exact h4
  · rintro ⟨i, h1, h2, h3, h4⟩
    refine ⟨i, h1, h2, h3, ?_⟩
    show (m.data_.values.set pos value).getD i 0 = x
    rw [hval i h1 h2 h3]; exact h4

/-- The new-entry branch adds the entry at its own position and keeps every
other entry of every row. -/
theorem Inv.entry_place_at {m : SparseMatrix} (h : m.Inv) (row pos col : Nat) (value : Int)
    (hr : row < m.rows_) (hlo : m.ptr row ≤ pos) (hhi : pos ≤ m.ptr (row + 1))
    (r2 c2 : Nat) (hr2 : r2 < m.rows_) (x : Int) :
    (m.place_at row pos col value).entry r2 c2 x ↔
      m.entry r2 c2 x ∨ (r2 = row ∧ c2 = col ∧ x = value) := by
  have hposc : pos ≤ m.data_.col_indices.length :=
    Nat.le_trans hhi (h.ptr_le_len (row + 1) hr)
  have hposv : pos ≤ m.data_.values.length := h.len_cols ▸ hposc
  have hptr := ptr_place_at m row pos col value h.len_ptrs
  have hcol_lt : ∀ i, i < pos → (m.place_at row pos col value).data_.col_indices.getD i 0 =
      m.data_.col_indices.getD i 0 := fun i hi => getD_vector_insert_lt _ _ _ _ _ hposc hi
  have hcol_eq : (m.place_at row pos col value).data_.col_indices.getD pos 0 = col :=
    getD_vector_insert_eq _ _ _ _ hposc
  have hcol_gt : ∀ i, pos < i → (m.place_at row pos col value).data_.col_indices.getD i 0 =
      m.data_.col_indices.getD (i - 1) 0 := fun i hi => getD_vector_insert_gt _ _ _ _ _ hposc hi
  have hval_lt : ∀ i, i < pos → (m.place_at row pos col value).data_.values.getD i 0 =
      m.data_.values.getD i 0 := fun i hi => getD_vector_insert_lt _ _ _ _ _ hposv hi
  have hval_eq : (m.place_at row pos col value).data_.values.getD pos 0 = value :=
    getD_vector_insert_eq _ _ _ _ hposv
  have hval_gt : ∀ i, pos < i → (m.place_at row pos col value).data_.values.getD i 0 =
      m.data_.values.getD (i - 1) 0 := fun i hi => getD_vector_insert_gt _ _ _ _ _ hposv hi
  have hp1 : (m.place_at row pos col value).ptr r2 =
      if row < r2 ∧ r2 ≤ m.rows_ then m.ptr r2 + 1 else m.ptr r2 := hptr r2
  have hp2 : (m.place_at row pos col value).ptr (r2 + 1) =
      if row < r2 + 1 ∧ r2 + 1 ≤ m.rows_ then m.ptr (r2 + 1) + 1 else m.ptr (r2 + 1) :=
    hptr (r2 + 1)
  have hbefore : r2 < row → m.ptr (r2 + 1) ≤ m.ptr row :=
    fun hlt => h.ptr_le row (by omega) (r2 + 1) (by omega)
  have hafter : row < r2 → m.ptr (row + 1) ≤ m.ptr r2 :=
    fun hgt => h.ptr_le r2 (by omega) (row + 1) (by omega)
  have hmono := h.ptr_mono r2 hr2
  constructor
  · rintro ⟨i, h1, h2, h3, h4⟩
    rw [hp1] at h1
    rw [hp2] at h2
    rcases Nat.lt_trichotomy i pos with hi | hi | hi
    · left
      rw [hcol_lt i hi] at h3
      rw [hval_lt i hi] at h4
      refine ⟨i, ?_, ?_, h3, h4⟩
      · split_ifs at h1 <;> omega
      · rcases Nat.lt_trichotomy r2 row with hlt | heq | hgt
        · rw [if_neg (by omega)] at h2; exact h2
        · subst heq; omega
        · have := hafter hgt
          rw [if_pos (by omega)] at h1
          omega
    · right
      subst hi
      rw [hcol_eq] at h3
      rw [hval_eq] at h4
      refine ⟨?_, h3.symm, h4.symm⟩
      rcases Nat.lt_trichotomy r2 row with hlt | heq | hgt
      · have := hbefore hlt
        rw [if_neg (by omega)] at h2
        omega
      · exact heq
      · have := hafter hgt
        rw [if_pos (by omega)] at h1
        omega
    · left
      rw [hcol_gt i hi] at h3
      rw [hval_gt i hi] at h4
      refine ⟨i - 1, ?_, ?_, h3, h4⟩
      · rcases Nat.lt_trichotomy r2 row with hlt | heq | hgt
        · have := hbefore hlt
          rw [if_neg (by omega)] at h2
          omega
        · subst heq; omega
        · rw [if_pos (by omega)] at h1
          omega
      · split_ifs at h2 <;> omega
  · rintro (⟨i, h1, h2, h3, h4⟩ | ⟨hrow, hc2, hx⟩)
    · by_cases hshift : row < r2 ∨ (r2 = row ∧ pos ≤ i)
      · refine ⟨i + 1, ?_, ?_, ?_, ?_⟩
        · rw [hp1]; split_ifs <;> omega
        · rw [hp2]
          rcases hshift with hgt | ⟨heq, _⟩
          · rw [if_pos (by omega)]; omega
          · rw [if_pos (by omega)]; omega
        · have hi : pos < i + 1 := by
            rcases hshift with hgt | ⟨_, hle⟩
            · have := hafter hgt
              omega
            · omega
          rw [hcol_gt (i + 1) hi]; exact h3
        · have hi : pos < i + 1 := by
            rcases hshift with hgt | ⟨_, hle⟩
            · have := hafter hgt
              omega
            · omega
          rw [hval_gt (i + 1) hi]; exact h4
      · have hi : i < pos := by
          rcases Nat.lt_trichotomy r2 row with hlt | heq | hgt
          · have := hbefore hlt
            omega
          · by_contra hcon
            exact hshift (Or.inr ⟨heq, by omega⟩)
          · exact absurd (Or.inl hgt) hshift
        refine ⟨i, ?_, ?_, ?_, ?_⟩
        · rw [hp1, if_neg (by omega)]; exact h1
        · rw [hp2]; split_ifs <;> omega
        · rw [hcol_lt i hi]; exact h3
        · rw [hval_lt i hi]; exact h4
    · subst hrow hc2 hx
      refine ⟨pos, ?_, ?_, hcol_eq, hval_eq⟩
      · rw [hp1, if_neg (by omega)]; exact hlo
      · rw [hp2, if_pos (by omega)]; omega

/-- An `insert` leaves `lookup` at every other in-range position as it was. -/
theorem Inv.lookup_insert_other {m : SparseMatrix} (h : m.Inv) (row col : Nat) (value : Int)
    (r2 c2 : Nat) (hr2 : r2 < m.rows_) (hc2 : c2 < m.cols_) (hne : ¬ (r2 = row ∧ c2 = col)) :
    (m.insert row col value).2.lookup r2 c2 = m.lookup r2 c2 := by
  by_cases hrange : row ≥ m.rows_ ∨ col ≥ m.cols_
  · rw [insert_out_of_range m row col value hrange]
  · have hr : row < m.rows_ := by omega
    have hc : col < m.cols_ := by omega
    by_cases hv : value = 0
    · subst hv
      rw [insert_zero m row col hr hc]
    · have hinv := h.insert row col value
      obtain ⟨pos, hpp, hcase | hcase⟩ := h.insert_cases row col value hr hc hv
      · obtain ⟨hlt, hcol, heq⟩ := hcase
        rw [heq] at hinv ⊢
        exact lookup_eq_of_entry_iff h hinv rfl rfl r2 c2 hr2 hc2
          (h.entry_overwrite_at row col pos value hr hpp.1 hlt hcol r2 c2 hr2 hne)
      · obtain ⟨_, heq⟩ := hcase
        rw [heq] at hinv ⊢
        apply lookup_eq_of_entry_iff h hinv rfl rfl r2 c2 hr2 hc2
        intro x
        rw [h.entry_place_at row pos col value hr hpp.1 hpp.2.1 r2 c2 hr2 x]
        constructor
        · rintro (he | ⟨h1, h2, _⟩)
          · exact he
          · exact absurd ⟨h1, h2⟩ hne
        · exact Or.inl

end SparseMatrix

/-- C11. Insert does not disturb other positions: on every matrix reachable
by inserts, for every `insert(row, col, v)` (in range or not, any value) and
every other in-range position `(r2, c2) != (row, col)`, `lookup(r2, c2)`
after the insert returns what it returned before, whether `r2` is the same
row, an earlier row or a later row whose segment is shifted. -/
theorem insert_preserves_other_positions (m : SparseMatrix) (hm : m.Reachable)
    (row col : Nat) (v : Int) (r2 c2 : Nat) (hr2 : r2 < m.rows) (hc2 : c2 < m.cols)
    (hne : (r2, c2) ≠ (row, col)) :
    (m.insert row col v).2.lookup r2 c2 = m.lookup r2 c2 :=
  hm.inv.lookup_insert_other row col v r2 c2 hr2 hc2
    (fun h => hne (by rw [h.1, h.2]))

theorem insert_preserves_other_positions_witness :
    ((((construct 10 10).insert 1 0 2).2.insert 2 5 9).2.insert 1 2 3).2.lookup 2 5 =
      (((construct 10 10).insert 1 0 2).2.insert 2 5 9).2.lookup 2 5 :=
  insert_preserves_other_positions (((construct 10 10).insert 1 0 2).2.insert 2 5 9).2
    (.insert 2 5 9 (.insert 1 0 2 (.construct 10 10))) 1 2 3 2 5 (by decide) (by decide)
    (by decide)

/-- C12. Construction gives an empty matrix: for all `rows` and `cols`,
`construct(rows, cols)` has `rows() == rows`, `cols() == cols`, `nnz() == 0`,
`row_ptrs` equal to `rows + 1` zeros, no values and no column indices, and
`lookup(r, c)` returns the additive identity for every `r < rows`, `c < cols`. -/
theorem construct_is_empty (rows cols : Nat) :
    (construct rows cols).rows = rows ∧ (construct rows cols).cols = cols ∧
      (construct rows cols).nnz = 0 ∧
      (construct rows cols).data_.row_ptrs = List.replicate (rows + 1) 0 ∧
      (construct rows cols).data_.values = [] ∧
      (construct rows cols).data_.col_indices = [] ∧
      ∀ r c, r < rows → c < cols → (construct rows cols).lookup r c = .ok 0 := by
  refine ⟨rfl, rfl, rfl, rfl, rfl, rfl, ?_⟩
  intro r c hr hc
  apply (Inv.construct rows cols).lookup_of_absent r c hr hc
  rintro ⟨i, _, hi2, _⟩
  rw [SparseMatrix.ptr_construct] at hi2
  omega

/-- C13. Row partitioning covers the rows exactly once: for every row count
and every thread count `n >= 1`, `partition_range(0, rows, n)` returns `n + 1`
boundaries `p[0..n]` with `p[0] == 0`, `p[n] == rows` and `p[i] <= p[i+1]`,
and every row of `[0, rows)` lies in exactly one range `[p[i], p[i+1])`. -/
theorem partition_covers_rows_once (rows n : Nat) (hn : 1 ≤ n) :
    (detail.partition_range 0 rows n).length = n + 1 ∧
      (detail.partition_range 0 rows n).getD 0 0 = 0 ∧
      (detail.partition_range 0 rows n).getD n 0 = rows ∧
      (∀ i, i < n → (detail.partition_range 0 rows n).getD i 0 ≤
        (detail.partition_range 0 rows n).getD (i + 1) 0) ∧
      (∀ r, r < rows → ∃ i, (i < n ∧ (detail.partition_range 0 rows n).getD i 0 ≤ r ∧
          r < (detail.partition_range 0 rows n).getD (i + 1) 0) ∧
        ∀ j, (j < n ∧ (detail.partition_range 0 rows n).getD j 0 ≤ r ∧
          r < (detail.partition_range 0 rows n).getD (j + 1) 0) → j = i) := by
  have hget := detail.partition_range_getD 0 rows n
  have hlast := detail.partition_bound_last 0 rows n hn (Nat.zero_le _)
  refine ⟨?_, ?_, ?_, ?_, ?_⟩
  · rw [detail.partition_range_eq]; simp
  · rw [hget 0 (by omega), detail.partition_bound_zero]
  · rw [hget n (Nat.le_refl _), hlast]
  · intro i hi
    rw [hget i (by omega), hget (i + 1) (by omega)]
    exact detail.partition_bound_mono 0 rows n i
  · intro r hr
    obtain ⟨i, hi, h1, h2⟩ := detail.partition_bound_cover 0 rows n r n
      (by rw [detail.partition_bound_zero]; exact Nat.zero_le _) (by rw [hlast]; exact hr)
    refine ⟨i, ⟨hi, by rw [hget i (by omega)]; exact h1,
      by rw [hget (i + 1) (by omega)]; exact h2⟩, ?_⟩
    rintro j ⟨hj, hj1, hj2⟩
    rw [hget j (by omega)] at hj1
    rw [hget (j + 1) (by omega)] at hj2
    rcases Nat.lt_trichotomy j i with hlt | heq | hgt
    · have := detail.partition_bound_le 0 rows n (j + 1) i (by omega)
      omega
    · exact heq
    · have := detail.partition_bound_le 0 rows n (i + 1) j (by omega)
      omega

theorem partition_covers_rows_once_witness :
    (detail.partition_range 0 10 4).length = 4 + 1 ∧
      (detail.partition_range 0 10 4).getD 4 0 = 10 :=
  ⟨(partition_covers_rows_once 10 4 (by decide)).1,
    (partition_covers_rows_once 10 4 (by decide)).2.2.1⟩

/-- C14. Balanced partition sizes: for every row count, every thread count
`n` and every partition index `i < n` (so `n >= 1`), partition `i` of
`partition_range(0, rows, n)` has size `rows / n + 1` when `i < rows % n` and
`rows / n` otherwise; hence any two partition sizes differ by at most one. -/
theorem partition_sizes_balanced (rows n : Nat) (i : Nat) (hi : i < n) :
    ((detail.partition_range 0 rows n).getD (i + 1) 0 -
        (detail.partition_range 0 rows n).getD i 0 =
      if i < rows % n then rows / n + 1 else rows / n) ∧
      ∀ j, j < n →
        ((detail.partition_range 0 rows n).getD (i + 1) 0 -
            (detail.partition_range 0 rows n).getD i 0) ≤
          ((detail.partition_range 0 rows n).getD (j + 1) 0 -
            (detail.partition_range 0 rows n).getD j 0) + 1 := by
  have hsize : ∀ k, k < n → (detail.partition_range 0 rows n).getD (k + 1) 0 -
      (detail.partition_range 0 rows n).getD k 0 =
      if k < rows % n then rows / n + 1 else rows / n := by
    intro k hk
    rw [detail.partition_range_getD 0 rows n k (by omega),
      detail.partition_range_getD 0 rows n (k + 1) (by omega), ← detail.partition_bound_succ]
    simp only [Nat.sub_zero]
    rw [Nat.add_sub_cancel_left]
    split_ifs <;> rfl
  refine ⟨hsize i hi, ?_⟩
  intro j hj
  rw [hsize i hi, hsize j hj]
  generalize rows / n = q
  split_ifs <;> omega

theorem partition_sizes_balanced_witness :
    (detail.partition_range 0 10 4).getD (1 + 1) 0 - (detail.partition_range 0 10 4).getD 1 0 =
      if 1 < 10 % 4 then 10 / 4 + 1 else 10 / 4 :=
  (partition_sizes_balanced 10 4 1 (by decide)).1

/-- C15. Parallel result is independent of task execution order: for every
matrix, vector and thread count `n >= 1`, running the `n` partition closures
of `multiply_parallel` on the zero buffer in any order (any permutation of
`0 .. n-1`) leaves the same buffer as running them in submission order,
namely the kernel's result for every row. -/
theorem parallel_result_order_independent (t : SimdTraits) (m : SparseMatrix) (vec : List Int)
    (n : Nat) (hn : 1 ≤ n) (order : List Nat) (hperm : order.Perm (List.range n)) :
    run_tasks (order.map (fun i => partition_task t m vec
        ((detail.partition_range 0 m.rows n).getD i 0)
        ((detail.partition_range 0 m.rows n).getD (i + 1) 0)))
      (List.replicate m.rows 0) =
      run_tasks (partition_tasks t m vec n) (List.replicate m.rows 0) ∧
    run_tasks (partition_tasks t m vec n) (List.replicate m.rows 0) =
      (List.range m.rows).map (row_product t m vec) := by
  have hseq := run_partition_tasks t m vec n hn (List.range n)
    (fun i hi => List.mem_range.mp hi) (fun i hi => List.mem_range.mpr hi)
  have hord := run_partition_tasks t m vec n hn order
    (fun i hi => List.mem_range.mp (hperm.mem_iff.mp hi))
    (fun i hi => hperm.mem_iff.mpr (List.mem_range.mpr hi))
  exact ⟨hord.trans hseq.symm, hseq⟩

theorem parallel_result_order_independent_witness :
    run_tasks ([2, 0, 1].map (fun i => partition_task ⟨false, 1⟩ scenario_a [1, 2, 3]
        ((detail.partition_range 0 scenario_a.rows 3).getD i 0)
        ((detail.partition_range 0 scenario_a.rows 3).getD (i + 1) 0)))
      (List.replicate scenario_a.rows 0) =
      run_tasks (partition_tasks ⟨false, 1⟩ scenario_a [1, 2, 3] 3)
        (List.replicate scenario_a.rows 0) :=
  (parallel_result_order_independent ⟨false, 1⟩ scenario_a [1, 2, 3] 3 (by decide) [2, 0, 1]
    (by decide)).1


/-- C22. Stored values are never zero: in every matrix reachable from
`construct` by inserts (integer element type), every element of `values` is
different from the additive identity, so for every in-range position
`lookup(row, col) != 0` exactly when an entry is stored at `(row, col)`. -/
theorem stored_values_nonzero (m : SparseMatrix) (hm : m.Reachable) :
    (∀ x ∈ m.data_.values, x ≠ 0) ∧
      ∀ row col, row < m.rows → col < m.cols →
        (m.lookup row col ≠ .ok 0 ↔ m.stored row col) := by
  have h := hm.inv
  refine ⟨?_, ?_⟩
  · intro x hx
    obtain ⟨i, hi, rfl⟩ := List.mem_iff_getElem.mp hx
    have := h.nonzero i hi
    rwa [List.getD_eq_getElem _ 0 hi] at this
  · intro row col hr hc
    constructor
    · intro hne
      by_contra hns
      exact hne (h.lookup_of_absent row col hr hc hns)
    · rintro ⟨i, h1, h2, h3⟩ hzero
      rw [h.lookup_of_offset row col i hr hc h1 h2 h3] at hzero
      have hlen : i < m.data_.values.length := by
        have := h.ptr_le_len (row + 1) hr
        rw [h.len_cols] at this
        omega
      have hz : m.data_.values.getD i 0 = 0 := by
        injection hzero
      exact h.nonzero i hlen hz

theorem stored_values_nonzero_witness :
    (∀ x ∈ scenario_a.data_.values, x ≠ 0) ∧
      (scenario_a.lookup 2 1 ≠ .ok 0 ↔ scenario_a.stored 2 1) :=
  ⟨(stored_values_nonzero scenario_a (.insert 2 2 5 (.insert 2 1 4 (.insert 1 1 3
      (.insert 0 1 2 (.insert 0 0 1 (.construct 3 3))))))).1,
    (stored_values_nonzero scenario_a (.insert 2 2 5 (.insert 2 1 4 (.insert 1 1 3
      (.insert 0 1 2 (.insert 0 0 1 (.construct 3 3))))))).2 2 1 (by decide) (by decide)⟩

/-- C23. Vectorized kernel equals the scalar kernel: for every lane width
`W >= 1`, every sparse row (values and indices of any lengths, so also empty
rows, rows shorter than `W` and lengths that are no multiple of `W`) and
every vector, over exact integer arithmetic the chunked path of
`sparse_dot_product` returns what the scalar path returns, the sum over the
offsets `i` of the row of `values[i] * vec[indices[i]]`, each offset once. -/
theorem vectorized_kernel_equals_scalar (W : Nat) (_hW : 1 ≤ W) (values : List Int)
    (indices : List Nat) (vec : List Int) :
    sparse_dot_product ⟨true, W⟩ values indices vec =
        sparse_dot_product ⟨false, 1⟩ values indices vec ∧
      sparse_dot_product ⟨false, 1⟩ values indices vec =
        ((List.range values.length).map
          (fun i => values.getD i 0 * vec.getD (indices.getD i 0) 0)).sum := by
  rw [sparse_dot_product_eq_sum, sparse_dot_product_eq_sum]
  exact ⟨rfl, rfl⟩

theorem vectorized_kernel_equals_scalar_witness :
    sparse_dot_product ⟨true, 3⟩ [1, 2, 3, 4, 5, 6, 7, 8] [0, 1, 2, 3, 4, 5, 6, 7]
        [1, 1, 1, 1, 1, 10, 100, 1000] =
      sparse_dot_product ⟨false, 1⟩ [1, 2, 3, 4, 5, 6, 7, 8] [0, 1, 2, 3, 4, 5, 6, 7]
        [1, 1, 1, 1, 1, 10, 100, 1000] :=
  (vectorized_kernel_equals_scalar 3 (by decide) [1, 2, 3, 4, 5, 6, 7, 8]
    [0, 1, 2, 3, 4, 5, 6, 7] [1, 1, 1, 1, 1, 10, 100, 1000]).1

/-- C24. Inserting a new entry shifts exactly the following row pointers: on
every reachable matrix, for every in-range position without a stored entry
and every nonzero value, `insert` raises `nnz()` by one, increments
`row_ptrs[i]` for every `row + 1 <= i <= rows`, leaves `row_ptrs[i]` for every
`i <= row`, and puts `(col, v)` at one offset `pos` of the row's segment, the
one that keeps the segment's column indices strictly increasing. -/
theorem insert_new_entry_shifts_row_ptrs (m : SparseMatrix) (hm : m.Reachable)
    (row col : Nat) (v : Int) (hr : row < m.rows) (hc : col < m.cols)
    (hns : ¬ m.stored row col) (hv : v ≠ 0) :
    (m.insert row col v).2.nnz = m.nnz + 1 ∧
      (∀ i, row + 1 ≤ i → i ≤ m.rows →
        (m.insert row col v).2.data_.row_ptrs.getD i 0 = m.data_.row_ptrs.getD i 0 + 1) ∧
      (∀ i, i ≤ row →
        (m.insert row col v).2.data_.row_ptrs.getD i 0 = m.data_.row_ptrs.getD i 0) ∧
      ∃ pos, m.data_.row_ptrs.getD row 0 ≤ pos ∧ pos ≤ m.data_.row_ptrs.getD (row + 1) 0 ∧
        (m.insert row col v).2.data_.col_indices = vector_insert m.data_.col_indices pos col ∧
        (m.insert row col v).2.data_.values = vector_insert m.data_.values pos v ∧
        (m.insert row col v).2.data_.col_indices.getD pos 0 = col ∧
        (m.insert row col v).2.data_.values.getD pos 0 = v ∧
        StrictSortedOn (m.insert row col v).2.data_.col_indices
          ((m.insert row col v).2.data_.row_ptrs.getD row 0)
          ((m.insert row col v).2.data_.row_ptrs.getD (row + 1) 0) := by
  have h := hm.inv
  have hinv := h.insert row col v
  obtain ⟨pos, hpp, hcase | hcase⟩ := h.insert_cases row col v hr hc hv
  · exact absurd ⟨pos, hpp.1, hcase.1, hcase.2.1⟩ hns
  · obtain ⟨_, heq⟩ := hcase
    rw [heq] at hinv ⊢
    have hposc : pos ≤ m.data_.col_indices.length :=
      Nat.le_trans hpp.2.1 (h.ptr_le_len (row + 1) hr)
    have hposv : pos ≤ m.data_.values.length := h.len_cols ▸ hposc
    have hptr := ptr_place_at m row pos col v h.len_ptrs
    refine ⟨length_vector_insert _ _ _, ?_, ?_, pos, hpp.1, hpp.2.1, rfl, rfl,
      getD_vector_insert_eq _ _ _ _ hposc, getD_vector_insert_eq _ _ _ _ hposv,
      hinv.sorted row hr⟩
    · intro i hi1 hi2
      have hi3 : i ≤ m.rows_ := hi2
      exact (hptr i).trans (if_pos ⟨by omega, hi3⟩)
    · intro i hi
      exact (hptr i).trans (if_neg (by omega))

theorem insert_new_entry_shifts_row_ptrs_witness :
    (((construct 3 3).insert 1 2 5).2.insert 1 0 4).2.nnz =
        ((construct 3 3).insert 1 2 5).2.nnz + 1 ∧
      (((construct 3 3).insert 1 2 5).2.insert 1 0 4).2.data_.row_ptrs.getD 2 0 =
        ((construct 3 3).insert 1 2 5).2.data_.row_ptrs.getD 2 0 + 1 :=
  ⟨(insert_new_entry_shifts_row_ptrs ((construct 3 3).insert 1 2 5).2
      (.insert 1 2 5 (.construct 3 3)) 1 0 4 (by decide) (by decide)
      (by rintro ⟨i, h1, h2, h3⟩
          have h4 : i < 1 := h2
          have h5 : i = 0 := by omega
          subst h5
          revert h3
          decide) (by decide)).1,
    (insert_new_entry_shifts_row_ptrs ((construct 3 3).insert 1 2 5).2
      (.insert 1 2 5 (.construct 3 3)) 1 0 4 (by decide) (by decide)
      (by rintro ⟨i, h1, h2, h3⟩
          have h4 : i < 1 := h2
          have h5 : i = 0 := by omega
          subst h5
          revert h3
          decide) (by decide)).2.1 2 (by decide) (by decide)⟩

/-- C25. Each partition task writes only its own output slots: for every
matrix, vector, thread count `n >= 1` and partition index `i < n`, running
partition task `i` on a result buffer of length `rows` keeps its length, sets
`result[row]` to that row's dot product for every row with
`p[i] <= row < p[i+1]`, and leaves every other entry as it was. -/
theorem partition_task_writes_own_slots (t : SimdTraits) (m : SparseMatrix) (vec : List Int)
    (n : Nat) (hn : 1 ≤ n) (i : Nat) (hi : i < n) (result : List Int)
    (hlen : result.length = m.rows) :
    (partition_task t m vec ((detail.partition_range 0 m.rows n).getD i 0)
        ((detail.partition_range 0 m.rows n).getD (i + 1) 0) result).length = result.length ∧
      ∀ row,
        ((detail.partition_range 0 m.rows n).getD i 0 ≤ row ∧
            row < (detail.partition_range 0 m.rows n).getD (i + 1) 0 →
          (partition_task t m vec ((detail.partition_range 0 m.rows n).getD i 0)
            ((detail.partition_range 0 m.rows n).getD (i + 1) 0) result).getD row 0 =
            row_product t m vec row) ∧
        (¬ ((detail.partition_range 0 m.rows n).getD i 0 ≤ row ∧
            row < (detail.partition_range 0 m.rows n).getD (i + 1) 0) →
          (partition_task t m vec ((detail.partition_range 0 m.rows n).getD i 0)
            ((detail.partition_range 0 m.rows n).getD (i + 1) 0) result).getD row 0 =
            result.getD row 0) := by
  have hend : (detail.partition_range 0 m.rows n).getD (i + 1) 0 ≤ m.rows_ := by
    rw [detail.partition_range_getD 0 m.rows n (i + 1) (by omega)]
    have h1 := detail.partition_bound_le 0 m.rows n (i + 1) n (by omega)
    rw [detail.partition_bound_last 0 m.rows n hn (Nat.zero_le _)] at h1
    exact h1
  refine ⟨length_partition_task t m vec _ _ hend result, ?_⟩
  intro row
  rw [getD_partition_task t m vec _ _ hend result row]
  constructor
  · intro hin
    have hrow : row < result.length := by
      rw [hlen]
      exact Nat.lt_of_lt_of_le hin.2 hend
    rw [if_pos ⟨hin, hrow⟩]
  · intro hout
    rw [if_neg (fun hc => hout hc.1)]

theorem partition_task_writes_own_slots_witness :
    (partition_task ⟨false, 1⟩ scenario_a [1, 2, 3]
        ((detail.partition_range 0 scenario_a.rows 2).getD 1 0)
        ((detail.partition_range 0 scenario_a.rows 2).getD (1 + 1) 0) [7, 7, 7]).length =
      [7, 7, 7].length :=
  (partition_task_writes_own_slots ⟨false, 1⟩ scenario_a [1, 2, 3] 2 (by decide) 1 (by decide)
    [7, 7, 7] (by decide)).1


/-! ## Every access of the engine is in range -/

theorem read_eq {α : Type} (xs : List α) (i : Nat) (d : α) (hi : i < xs.length) :
    read xs i = some (xs.getD i d) := by
  unfold read
  rw [List.getD_eq_getElem?_getD, List.getElem?_eq_getElem hi]
  rfl

theorem read_all_some {α : Type} (f : Nat → Option α) (g : Nat → α) (l : List Nat)
    (h : ∀ j ∈ l, f j = some (g j)) : read_all f l = some (l.map g) := by
  induction l with
  | nil => rfl
  | cons j js ih =>
    unfold read_all
    rw [h j (List.mem_cons_self _ _), ih (fun k hk => h k (List.mem_cons_of_mem _ hk))]
    rfl

theorem fold_checked_some {β : Type} (f : β → Nat → Option β) (g : β → Nat → β) (l : List Nat)
    (h : ∀ i ∈ l, ∀ acc, f acc i = some (g acc i)) (a : β) :
    fold_checked f l a = some (l.foldl g a) := by
  induction l generalizing a with
  | nil => rfl
  | cons i is ih =>
    unfold fold_checked
    rw [h i (List.mem_cons_self _ _) a]
    exact ih (fun k hk => h k (List.mem_cons_of_mem _ hk)) _

namespace MatrixOps

theorem term_checked_some (values : List Int) (indices : List Nat) (vec : List Int) (sum : Int)
    (i : Nat) (hv : i < values.length) (hi : i < indices.length)
    (hc : indices.getD i 0 < vec.length) :
    term_checked values indices vec sum i =
      some (sum + values.getD i 0 * vec.getD (indices.getD i 0) 0) := by
  unfold term_checked
  simp only [read_eq values i 0 hv, read_eq indices i 0 hi, read_eq vec _ 0 hc]

/-- On a row whose column indices are indices of the vector, no read of the
kernel is out of range. -/
theorem sparse_dot_product_checked_eq (t : SimdTraits) (values : List Int) (indices : List Nat)
    (vec : List Int) (hlen : indices.length = values.length)
    (hcol : ∀ i, i < indices.length → indices.getD i 0 < vec.length) :
    sparse_dot_product_checked t values indices vec =
      some (sparse_dot_product t values indices vec) := by
  have hterm : ∀ l : List Nat, (∀ i ∈ l, i < values.length) → ∀ a,
      fold_checked (term_checked values indices vec) l a =
        some (l.foldl (fun s i => s + values.getD i 0 * vec.getD (indices.getD i 0) 0) a) := by
    intro l hl a
    apply fold_checked_some
    intro i hi acc
    exact term_checked_some values indices vec acc i (hl i hi) (hlen ▸ hl i hi)
      (hcol i (hlen ▸ hl i hi))
  unfold sparse_dot_product_checked sparse_dot_product
  by_cases hv : t.is_vectorizable = true
  · rw [if_pos hv, if_pos hv]
    have hchunks : fold_checked (fun sum i =>
        match read_all (fun j => read values (i * t.vector_size + j))
            (List.range t.vector_size) with
        | none => none
        | some vec_vals =>
          match read_all (fun j =>
              match read indices (i * t.vector_size + j) with
              | none => none
              | some c => read vec c) (List.range t.vector_size) with
          | none => none
          | some gathered_data =>
            match read_all (fun j => read gathered_data (0 + j))
                (List.range t.vector_size) with
            | none => none
            | some vec_vec => some (SimdTraits.add sum (SimdTraits.multiply vec_vals vec_vec)))
        (List.range (values.length / t.vector_size)) t.set_zero =
        some ((List.range (values.length / t.vector_size)).foldl (fun sum i =>
          SimdTraits.add sum (SimdTraits.multiply (t.load values (i * t.vector_size))
            (t.load ((List.range t.vector_size).map
              (fun j => vec.getD (indices.getD (i * t.vector_size + j) 0) 0)) 0)))
          t.set_zero) := by
      apply fold_checked_some
      intro i hi acc
      rw [List.mem_range] at hi
      have hbound : ∀ j, j < t.vector_size → i * t.vector_size + j < values.length := by
        intro j hj
        have h1 : (i + 1) * t.vector_size ≤ values.length / t.vector_size * t.vector_size :=
          Nat.mul_le_mul_right _ (by omega)
        have h2 := Nat.div_mul_le_self values.length t.vector_size
        rw [Nat.succ_mul] at h1
        omega
      have h1 : read_all (fun j => read values (i * t.vector_size + j))
          (List.range t.vector_size) = some (t.load values (i * t.vector_size)) := by
        apply read_all_some
        intro j hj
        exact read_eq values _ 0 (hbound j (List.mem_range.mp hj))
      have h2 : read_all (fun j =>
          match read indices (i * t.vector_size + j) with
          | none => none
          | some c => read vec c) (List.range t.vector_size) =
          some ((List.range t.vector_size).map
            (fun j => vec.getD (indices.getD (i * t.vector_size + j) 0) 0)) := by
        apply read_all_some
        intro j hj
        have hj2 := hbound j (List.mem_range.mp hj)
        rw [read_eq indices _ 0 (hlen ▸ hj2)]
        exact read_eq vec _ 0 (hcol _ (hlen ▸ hj2))
      have h3 : read_all (fun j => read ((List.range t.vector_size).map
          (fun j => vec.getD (indices.getD (i * t.vector_size + j) 0) 0)) (0 + j))
          (List.range t.vector_size) =
          some (t.load ((List.range t.vector_size).map
            (fun j => vec.getD (indices.getD (i * t.vector_size + j) 0) 0)) 0) := by
        apply read_all_some
        intro j hj
        exact read_eq _ _ 0 (by simpa using List.mem_range.mp hj)
      simp only [h1, h2, h3]
    simp only [hchunks]
    apply hterm
    intro i hi
    rw [List.mem_range'_1] at hi
    have := Nat.div_mul_le_self values.length t.vector_size
    omega
  · rw [if_neg hv, if_neg hv]
    exact hterm _ (fun i hi => List.mem_range.mp hi) 0

/-- On a well-formed matrix, the body of the row loops reads and writes in
range and raises nothing. -/
theorem row_step_checked_eq {m : SparseMatrix} (h : m.Inv) (t : SimdTraits) (vec : List Int)
    (hv : vec.length = m.cols) (result : List Int) (row : Nat) (hr : row < m.rows_)
    (hres : row < result.length) :
    row_step_checked t m vec result row =
      some (.ok (result.set row (row_product t m vec row))) := by
  have hnr : ¬ row ≥ m.rows_ := by omega
  have hle := h.ptr_mono row hr
  have hec := h.ptr_le_len (row + 1) hr
  have hev : m.ptr (row + 1) ≤ m.data_.values.length := h.len_cols ▸ hec
  have hp1 : read m.data_.row_ptrs row = some (m.ptr row) :=
    read_eq _ _ 0 (by rw [h.len_ptrs]; omega)
  have hp2 : read m.data_.row_ptrs (row + 1) = some (m.ptr (row + 1)) :=
    read_eq _ _ 0 (by rw [h.len_ptrs]; omega)
  have hs1 : span_checked m.data_.values (m.ptr row) (m.ptr (row + 1)) =
      some (span m.data_.values (m.ptr row) (m.ptr (row + 1))) := by
    unfold span_checked
    rw [if_pos ⟨hle, hev⟩]
  have hs2 : span_checked m.data_.col_indices (m.ptr row) (m.ptr (row + 1)) =
      some (span m.data_.col_indices (m.ptr row) (m.ptr (row + 1))) := by
    unfold span_checked
    rw [if_pos ⟨hle, hec⟩]
  have hk : sparse_dot_product_checked t (span m.data_.values (m.ptr row) (m.ptr (row + 1)))
      (span m.data_.col_indices (m.ptr row) (m.ptr (row + 1))) vec =
      some (row_product t m vec row) := by
    apply sparse_dot_product_checked_eq
    · rw [length_span _ _ _ hec, length_span _ _ _ hev]
    · intro i hi
      rw [length_span _ _ _ hec] at hi
      rw [getD_span _ _ _ _ _ hi, hv]
      exact h.col_lt _ (by omega)
  have hw : write result row (row_product t m vec row) =
      some (result.set row (row_product t m vec row)) := by
    unfold write
    rw [if_pos hres]
  unfold row_step_checked
  simp only [SparseMatrix.validate_row, hnr, if_false, hp1, hp2, hs1, hs2, hk, hw]

theorem multiply_loop_checked_eq {m : SparseMatrix} (h : m.Inv) (t : SimdTraits)
    (vec : List Int) (hv : vec.length = m.cols) (l : List Nat) (hl : ∀ i ∈ l, i < m.rows_)
    (result : List Int) (hres : result.length = m.rows_) :
    multiply_loop_checked t m vec l result = some (multiply_loop t m vec l result) := by
  induction l generalizing result with
  | nil => rfl
  | cons i rest ih =>
    have hi : i < m.rows_ := hl i (List.mem_cons_self _ _)
    unfold multiply_loop_checked multiply_loop
    rw [row_step_checked_eq h t vec hv result i hi (by omega), row_values_ok m i hi,
      row_indices_ok m i hi]
    exact ih (fun j hj => hl j (List.mem_cons_of_mem _ hj)) _
      (by rw [List.length_set]; exact hres)

theorem run_rows_checked_eq {m : SparseMatrix} (h : m.Inv) (t : SimdTraits)
    (vec : List Int) (hv : vec.length = m.cols) (l : List Nat) (hl : ∀ i ∈ l, i < m.rows_)
    (result : List Int) (hres : result.length = m.rows_) :
    run_rows_checked t m vec l result = some (run_rows t m vec l result) := by
  induction l generalizing result with
  | nil => rfl
  | cons i rest ih =>
    have hi : i < m.rows_ := hl i (List.mem_cons_self _ _)
    unfold run_rows_checked run_rows
    rw [row_step_checked_eq h t vec hv result i hi (by omega), row_values_ok m i hi,
      row_indices_ok m i hi]
    exact ih (fun j hj => hl j (List.mem_cons_of_mem _ hj)) _
      (by rw [List.length_set]; exact hres)

end MatrixOps

/-- C26. Multiplication never indexes out of range: in every matrix reachable
from `construct(rows, cols)` by inserts every stored column index is below
`cols` and every row segment lies within `values` and `col_indices`; hence,
for every vector of length `cols`, `multiply` and every partition closure of
`multiply_parallel` (thread count `n >= 1`, partition `i < n`, buffer of
length `rows`) behave as their bounds-checked versions: no read of
`row_ptrs`, `values`, `col_indices` or the vector and no write of the result
takes the out-of-range branch. -/
theorem multiplication_in_bounds (t : SimdTraits) (m : SparseMatrix) (hm : m.Reachable)
    (vec : List Int) (hv : vec.length = m.cols) :
    (∀ i, i < m.data_.col_indices.length → m.data_.col_indices.getD i 0 < m.cols) ∧
      (∀ r, r < m.rows →
        m.data_.row_ptrs.getD r 0 ≤ m.data_.row_ptrs.getD (r + 1) 0 ∧
        m.data_.row_ptrs.getD (r + 1) 0 ≤ m.data_.values.length ∧
        m.data_.row_ptrs.getD (r + 1) 0 ≤ m.data_.col_indices.length) ∧
      multiply_checked t m vec = some (multiply t m vec) ∧
      ∀ n i (result : List Int), 1 ≤ n → i < n → result.length = m.rows →
        partition_task_checked t m vec ((detail.partition_range 0 m.rows n).getD i 0)
            ((detail.partition_range 0 m.rows n).getD (i + 1) 0) result =
          some (partition_task t m vec ((detail.partition_range 0 m.rows n).getD i 0)
            ((detail.partition_range 0 m.rows n).getD (i + 1) 0) result) := by
  have h := hm.inv
  refine ⟨h.col_lt, ?_, ?_, ?_⟩
  · intro r hr
    have hec := h.ptr_le_len (r + 1) hr
    exact ⟨h.ptr_mono r hr, h.len_cols ▸ hec, hec⟩
  · have hd : ¬ m.cols ≠ vec.length := by simp [hv]
    unfold multiply_checked multiply
    simp only [validate_dimensions, hd, if_false]
    exact multiply_loop_checked_eq h t vec hv _ (fun i hi => List.mem_range.mp hi) _
      (by simp [SparseMatrix.rows])
  · intro n i result hn hi hres
    have hend : (detail.partition_range 0 m.rows n).getD (i + 1) 0 ≤ m.rows_ := by
      rw [detail.partition_range_getD 0 m.rows n (i + 1) (by omega)]
      have h1 := detail.partition_bound_le 0 m.rows n (i + 1) n (by omega)
      rw [detail.partition_bound_last 0 m.rows n hn (Nat.zero_le _)] at h1
      exact h1
    unfold partition_task_checked partition_task
    apply run_rows_checked_eq h t vec hv _ _ _ hres
    intro j hj
    rw [List.mem_range'_1] at hj
    omega

theorem multiplication_in_bounds_witness :
    multiply_checked ⟨true, 2⟩ scenario_a [1, 2, 3] = some (.ok [5, 6, 23]) := by
  have h := (multiplication_in_bounds ⟨true, 2⟩ scenario_a
    (.insert 2 2 5 (.insert 2 1 4 (.insert 1 1 3 (.insert 0 1 2 (.insert 0 0 1
      (.construct 3 3)))))) [1, 2, 3] (by decide)).2.2.1
  rw [h]
  rfl


/-! ## The representation is determined by the entries -/

theorem list_ext_getD {α : Type} (d : α) (a b : List α) (hlen : a.length = b.length)
    (h : ∀ i, i < a.length → a.getD i d = b.getD i d) : a = b := by
  apply List.ext_getElem hlen
  intro i h1 h2
  have := h i h1
  rwa [List.getD_eq_getElem _ d h1, List.getD_eq_getElem _ d h2] at this

namespace SparseMatrix

theorem insert_rows (m : SparseMatrix) (row col : Nat) (value : Int) :
    (m.insert row col value).2.rows_ = m.rows_ := by
  by_cases hrange : row ≥ m.rows_ ∨ col ≥ m.cols_
  · rw [insert_out_of_range m row col value hrange]
  · by_cases hv : value = 0
    · subst hv
      rw [insert_zero m row col (by omega) (by omega)]
    · rw [insert_eq m row col value (by omega) (by omega) hv]
      split_ifs <;> rfl

theorem insert_cols (m : SparseMatrix) (row col : Nat) (value : Int) :
    (m.insert row col value).2.cols_ = m.cols_ := by
  by_cases hrange : row ≥ m.rows_ ∨ col ≥ m.cols_
  · rw [insert_out_of_range m row col value hrange]
  · by_cases hv : value = 0
    · subst hv
      rw [insert_zero m row col (by omega) (by omega)]
    · rw [insert_eq m row col value (by omega) (by omega) hv]
      split_ifs <;> rfl

/-- The column view of a row of a well-formed matrix is strictly increasing
and holds exactly the stored columns. -/
theorem Inv.row_view {m : SparseMatrix} (h : m.Inv) (r : Nat) (hr : r < m.rows_) :
    List.Pairwise (fun a b => a < b) (span m.data_.col_indices (m.ptr r) (m.ptr (r + 1))) ∧
      ∀ c, c ∈ span m.data_.col_indices (m.ptr r) (m.ptr (r + 1)) ↔ m.stored r c := by
  have hle := h.ptr_mono r hr
  have hec := h.ptr_le_len (r + 1) hr
  have hli := length_span m.data_.col_indices (m.ptr r) (m.ptr (r + 1)) hec
  have hgi : ∀ k, k < m.ptr (r + 1) - m.ptr r →
      (span m.data_.col_indices (m.ptr r) (m.ptr (r + 1))).getD k 0 =
        m.data_.col_indices.getD (m.ptr r + k) 0 := fun k hk => getD_span _ _ _ _ _ hk
  refine ⟨?_, ?_⟩
  · rw [List.pairwise_iff_getElem]
    intro i j hi hj hij
    rw [← List.getD_eq_getElem _ 0 hi, ← List.getD_eq_getElem _ 0 hj,
      hgi i (by omega), hgi j (by omega)]
    exact h.sorted r hr _ _ (by omega) (by omega) (by omega)
  · intro c
    rw [List.mem_iff_getElem]
    constructor
    · rintro ⟨k, hk, hkc⟩
      rw [← List.getD_eq_getElem _ 0 hk, hgi k (by omega)] at hkc
      exact ⟨m.ptr r + k, by omega, by omega, hkc⟩
    · rintro ⟨i, hi1, hi2, hi3⟩
      have hk : i - m.ptr r < (span m.data_.col_indices (m.ptr r) (m.ptr (r + 1))).length := by
        omega
      refine ⟨i - m.ptr r, hk, ?_⟩
      rw [← List.getD_eq_getElem _ 0 hk, hgi _ (by omega)]
      have : m.ptr r + (i - m.ptr r) = i := by omega
      rw [this]; exact hi3

/-- Every offset below `row_ptrs[rows]` lies in the segment of some row. -/
theorem Inv.row_of_offset {m : SparseMatrix} (h : m.Inv) (i : Nat) :
    ∀ j, j ≤ m.rows_ → i < m.ptr j → ∃ r, r < j ∧ m.ptr r ≤ i ∧ i < m.ptr (r + 1) := by
  intro j
  induction j with
  | zero =>
    intro _ hi
    rw [h.ptr_zero] at hi
    omega
  | succ j ih =>
    intro hj hi
    by_cases hlt : i < m.ptr j
    · obtain ⟨r, hr, h1, h2⟩ := ih (by omega) hlt
      exact ⟨r, by omega, h1, h2⟩
    · exact ⟨j, by omega, by omega, hi⟩

/-- Two well-formed matrices of the same dimensions with the same entries have
the same representation. -/
theorem Inv.ext {m m2 : SparseMatrix} (h : m.Inv) (h2 : m2.Inv)
    (hrows : m2.rows_ = m.rows_) (hcols : m2.cols_ = m.cols_)
    (hent : ∀ r c x, r < m.rows_ → (m2.entry r c x ↔ m.entry r c x)) : m2 = m := by
  have hview : ∀ r, r < m.rows_ →
      span m2.data_.col_indices (m2.ptr r) (m2.ptr (r + 1)) =
        span m.data_.col_indices (m.ptr r) (m.ptr (r + 1)) := by
    intro r hr
    have v1 := h.row_view r hr
    have v2 := h2.row_view r (hrows ▸ hr)
    apply List.eq_of_perm_of_sorted (r := fun a b => a < b) _ v2.1 v1.1
    rw [List.perm_ext_iff_of_nodup v2.1.nodup v1.1.nodup]
    intro c
    rw [v2.2, v1.2, stored_iff_entry, stored_iff_entry]
    exact exists_congr (fun x => hent r c x hr)
  have hptr : ∀ r, r ≤ m.rows_ → m2.ptr r = m.ptr r := by
    intro r
    induction r with
    | zero => intro _; rw [h.ptr_zero, h2.ptr_zero]
    | succ r ih =>
      intro hr
      have hr2 : r < m.rows_ := by omega
      have e := congrArg List.length (hview r hr2)
      rw [length_span _ _ _ (h.ptr_le_len (r + 1) hr2),
        length_span _ _ _ (h2.ptr_le_len (r + 1) (hrows ▸ hr2)), ih (by omega)] at e
      have := h.ptr_mono r hr2
      have := h2.ptr_mono r (hrows ▸ hr2)
      rw [ih (by omega)] at this
      omega
  have hrp : m2.data_.row_ptrs = m.data_.row_ptrs := by
    apply list_ext_getD 0
    · rw [h.len_ptrs, h2.len_ptrs, hrows]
    · intro i hi
      rw [h2.len_ptrs, hrows] at hi
      exact hptr i (by omega)
  have hlenv : m2.data_.values.length = m.data_.values.length := by
    rw [h.len_vals, h2.len_vals, hrows, hptr m.rows_ (Nat.le_refl _)]
  have hci : m2.data_.col_indices = m.data_.col_indices := by
    apply list_ext_getD 0
    · rw [h.len_cols, h2.len_cols, hlenv]
    · intro i hi
      rw [h2.len_cols, hlenv, h.len_vals] at hi
      obtain ⟨r, hr, h1, h3⟩ := h.row_of_offset i m.rows_ (Nat.le_refl _) hi
      have e := congrArg (fun l => l.getD (i - m.ptr r) 0) (hview r hr)
      simp only at e
      rw [getD_span _ _ _ _ _ (by rw [hptr r (by omega), hptr (r + 1) (by omega)]; omega),
        getD_span _ _ _ _ _ (by omega), hptr r (by omega)] at e
      have hidx : m.ptr r + (i - m.ptr r) = i := by omega
      rw [hidx] at e
      exact e
  have hvs : m2.data_.values = m.data_.values := by
    apply list_ext_getD 0 _ _ hlenv
    intro i hi
    rw [hlenv, h.len_vals] at hi
    obtain ⟨r, hr, h1, h3⟩ := h.row_of_offset i m.rows_ (Nat.le_refl _) hi
    have he : m.entry r (m.data_.col_indices.getD i 0) (m.data_.values.getD i 0) :=
      ⟨i, h1, h3, rfl, rfl⟩
    obtain ⟨j, hj1, hj2, hj3, hj4⟩ := (hent r _ _ hr).mpr he
    rw [hptr r (by omega)] at hj1
    rw [hptr (r + 1) (by omega)] at hj2
    rw [hci] at hj3
    have hji : j = i := by
      rcases Nat.lt_trichotomy j i with hlt | heq | hgt
      · have := h.sorted r hr j i hj1 hlt h3
        omega
      · exact heq
      · have := h.sorted r hr i j h1 hgt hj2
        omega
    rw [hji] at hj4
    exact hj4
  cases m with
  | mk rows_ cols_ data_ =>
    cases m2 with
    | mk rows2 cols2 data2 =>
      cases data_
      cases data2
      simp only at hrows hcols hrp hci hvs
      subst hrows hcols hrp hci hvs
      rfl

/-- What an in-range insert does to the entries: the inserted position holds
the new value when that value is nonzero, every other entry is kept. -/
theorem Inv.entry_insert {m : SparseMatrix} (h : m.Inv) (row col : Nat) (value : Int)
    (hr : row < m.rows_) (hc : col < m.cols_) (r c : Nat) (x : Int) (hr2 : r < m.rows_) :
    (m.insert row col value).2.entry r c x ↔
      ((r = row ∧ c = col ∧ value ≠ 0) ∧ x = value) ∨
        (¬ (r = row ∧ c = col ∧ value ≠ 0) ∧ m.entry r c x) := by
  by_cases hv : value = 0
  · subst hv
    rw [insert_zero m row col hr hc]
    constructor
    · intro he
      exact Or.inr ⟨fun hp => hp.2.2 rfl, he⟩
    · rintro (⟨hp, _⟩ | ⟨_, he⟩)
      · exact absurd rfl hp.2.2
      · exact he
  · obtain ⟨pos, hpp, hcase | hcase⟩ := h.insert_cases row col value hr hc hv
    · obtain ⟨hlt, hcol, heq⟩ := hcase
      rw [heq]
      by_cases hself : r = row ∧ c = col
      · obtain ⟨rfl, rfl⟩ := hself
        have hlen : pos < m.data_.values.length := by
          have := h.ptr_le_len (r + 1) hr
          rw [h.len_cols] at this
          omega
        have hset : (m.data_.values.set pos value).getD pos 0 = value := by
          rw [List.getD_eq_getElem?_getD, List.getElem?_set]
          simp [hlen]
        constructor
        · rintro ⟨i, h1, h2, h3, h4⟩
          left
          refine ⟨⟨rfl, rfl, hv⟩, ?_⟩
          have hip : i = pos := by
            rcases Nat.lt_trichotomy i pos with hl | he | hg
            · have := h.sorted r hr i pos h1 hl hlt
              have h3b : m.data_.col_indices.getD i 0 = c := h3
              omega
            · exact he
            · have := h.sorted r hr pos i hpp.1 hg h2
              have h3b : m.data_.col_indices.getD i 0 = c := h3
              omega
          subst hip
          have h4b : (m.data_.values.set i value).getD i 0 = x := h4
          rw [hset] at h4b
          exact h4b.symm
        · rintro (⟨_, hx⟩ | ⟨hn, _⟩)
          · subst hx
            exact ⟨pos, hpp.1, hlt, hcol, hset⟩
          · exact absurd ⟨rfl, rfl, hv⟩ hn
      · rw [h.entry_overwrite_at row col pos value hr hpp.1 hlt hcol r c hr2 hself x]
        constructor
        · intro he
          exact Or.inr ⟨fun hp => hself ⟨hp.1, hp.2.1⟩, he⟩
        · rintro (⟨hp, _⟩ | ⟨_, he⟩)
          · exact absurd ⟨hp.1, hp.2.1⟩ hself
          · exact he
    · obtain ⟨habove, heq⟩ := hcase
      rw [heq, h.entry_place_at row pos col value hr hpp.1 hpp.2.1 r c hr2 x]
      constructor
      · rintro (he | ⟨h1, h2, h3⟩)
        · refine Or.inr ⟨?_, he⟩
          rintro ⟨rfl, rfl, _⟩
          exact not_stored_of_place r c pos hpp habove
            ((stored_iff_entry m r c).mpr ⟨x, he⟩)
        · exact Or.inl ⟨⟨h1, h2, hv⟩, h3⟩
      · rintro (⟨hp, hx⟩ | ⟨_, he⟩)
        · exact Or.inr ⟨hp.1, hp.2.1, hx⟩
        · exact Or.inl he

end SparseMatrix

theorem overwrite_order_irrelevant (P1 P2 X1 X2 E : Prop) (hex : ¬ (P1 ∧ P2)) :
    ((P2 ∧ X2) ∨ (¬ P2 ∧ ((P1 ∧ X1) ∨ (¬ P1 ∧ E)))) ↔
      ((P1 ∧ X1) ∨ (¬ P1 ∧ ((P2 ∧ X2) ∨ (¬ P2 ∧ E)))) := by
  tauto

/-- C27. Inserts at different positions commute: on every matrix reachable by
inserts, for every two in-range positions `(r1, c1) != (r2, c2)` and every two
values, `insert(r1, c1, v1)` followed by `insert(r2, c2, v2)` leaves exactly
the matrix (the same `values`, `col_indices` and `row_ptrs`) that the two
inserts in the opposite order leave. -/
theorem inserts_commute (m : SparseMatrix) (hm : m.Reachable) (r1 c1 r2 c2 : Nat) (v1 v2 : Int)
    (hr1 : r1 < m.rows) (hc1 : c1 < m.cols) (hr2 : r2 < m.rows) (hc2 : c2 < m.cols)
    (hne : (r1, c1) ≠ (r2, c2)) :
    ((m.insert r1 c1 v1).2.insert r2 c2 v2).2 = ((m.insert r2 c2 v2).2.insert r1 c1 v1).2 := by
  have h := hm.inv
  have hA := h.insert r1 c1 v1
  have hB := h.insert r2 c2 v2
  have hAr := insert_rows m r1 c1 v1
  have hAc := insert_cols m r1 c1 v1
  have hBr := insert_rows m r2 c2 v2
  have hBc := insert_cols m r2 c2 v2
  have hr1' : r1 < m.rows_ := hr1
  have hr2' : r2 < m.rows_ := hr2
  have hc1' : c1 < m.cols_ := hc1
  have hc2' : c2 < m.cols_ := hc2
  apply Inv.ext (hB.insert r1 c1 v1) (hA.insert r2 c2 v2)
  · simp only [insert_rows]
  · simp only [insert_cols]
  · intro r c x hr
    rw [insert_rows, hBr] at hr
    rw [hA.entry_insert r2 c2 v2 (hAr ▸ hr2') (hAc ▸ hc2') r c x (hAr ▸ hr),
      hB.entry_insert r1 c1 v1 (hBr ▸ hr1') (hBc ▸ hc1') r c x (hBr ▸ hr),
      h.entry_insert r1 c1 v1 hr1' hc1' r c x hr, h.entry_insert r2 c2 v2 hr2' hc2' r c x hr]
    apply overwrite_order_irrelevant
    rintro ⟨⟨rfl, rfl, _⟩, ⟨rfl, rfl, _⟩⟩
    exact hne rfl

theorem inserts_commute_witness :
    (((construct 3 3).insert 1 2 5).2.insert 1 0 4).2 =
      (((construct 3 3).insert 1 0 4).2.insert 1 2 5).2 :=
  inserts_commute (construct 3 3) (.construct 3 3) 1 2 1 0 5 4 (by decide) (by decide)
    (by decide) (by decide) (by decide)


/-! ## The thread pool -/

namespace execution

theorem tally_set (g : Worker → Nat) (l : List Worker) (w : Nat) (wk wk2 : Worker)
    (h : l[w]? = some wk) : tally g (l.set w wk2) + g wk = tally g l + g wk2 := by
  unfold tally
  induction l generalizing w with
  | nil => simp at h
  | cons a l ih =>
    cases w with
    | zero =>
      simp only [List.getElem?_cons_zero, Option.some.injEq] at h
      subst h
      simp only [List.set_cons_zero, List.map_cons, List.sum_cons]
      omega
    | succ w =>
      simp only [List.getElem?_cons_succ] at h
      have := ih w h
      simp only [List.set_cons_succ, List.map_cons, List.sum_cons]
      omega

theorem tally_map (g : Worker → Nat) (f : Worker → Worker) (l : List Worker)
    (h : ∀ wk, g (f wk) = g wk) : tally g (l.map f) = tally g l := by
  unfold tally
  rw [List.map_map]
  congr 1
  apply List.map_congr_left
  intro wk _
  exact h wk

theorem tally_eq_zero (g : Worker → Nat) (l : List Worker) (h : ∀ wk ∈ l, g wk = 0) :
    tally g l = 0 := by
  unfold tally
  induction l with
  | nil => rfl
  | cons a l ih =>
    rw [List.map_cons, List.sum_cons, h a (List.mem_cons_self _ _),
      ih (fun wk hwk => h wk (List.mem_cons_of_mem _ hwk))]

theorem tally_le (g k : Worker → Nat) (l : List Worker) (h : ∀ wk, g wk ≤ k wk) :
    tally g l ≤ tally k l := by
  unfold tally
  induction l with
  | nil => exact Nat.le_refl _
  | cons a l ih =>
    rw [List.map_cons, List.sum_cons, List.map_cons, List.sum_cons]
    exact Nat.add_le_add (h a) ih

theorem holds_le_busy (id : Nat) (wk : Worker) : holds id wk ≤ busy wk := by
  obtain ⟨pc, sr⟩ := wk
  cases pc <;> simp only [holds, busy] <;> (try split_ifs) <;> omega

theorem ran_le_holds (id : Nat) (wk : Worker) : ran id wk ≤ holds id wk := by
  obtain ⟨pc, sr⟩ := wk
  cases pc <;> simp only [ran, holds] <;> (try split_ifs) <;> omega

theorem mem_of_getElem? {l : List Worker} {w : Nat} {wk : Worker} (h : l[w]? = some wk) :
    wk ∈ l := by
  rw [List.getElem?_eq_some] at h
  obtain ⟨hw, rfl⟩ := h
  exact List.getElem_mem _

theorem mem_set {l : List Worker} {w : Nat} {wk2 x : Worker} (hx : x ∈ l.set w wk2) :
    x = wk2 ∨ x ∈ l := by
  rcases List.mem_or_eq_of_mem_set hx with h | h
  · exact Or.inr h
  · exact Or.inl h

namespace PoolState

theorem worker_dequeue_some {s s2 : PoolState} {w : Nat} (h : s.worker_dequeue w = some s2) :
    ∃ wk, s.workers_[w]? = some wk ∧ wk.pc = .waiting ∧
      ((wk.stop_requested = true ∧ s.tasks_ = [] ∧
          s2 = { s with workers_ := s.workers_.set w { wk with pc := .exited } }) ∨
        (∃ task rest, s.tasks_ = task :: rest ∧
          s2 = { s with
            tasks_ := rest,
            active_tasks_ := s.active_tasks_ + 1,
            workers_ := s.workers_.set w { wk with pc := .running task } })) := by
  unfold worker_dequeue at h
  cases hw : s.workers_[w]? with
  | none => simp [hw] at h
  | some wk =>
    simp only [hw] at h
    cases hpc : wk.pc with
    | waiting =>
      simp only [hpc] at h
      refine ⟨wk, rfl, hpc, ?_⟩
      by_cases hpred : wk.stop_requested = true ∨ s.tasks_ ≠ []
      · rw [if_pos hpred] at h
        by_cases hexit : wk.stop_requested = true ∧ s.tasks_ = []
        · rw [if_pos hexit] at h
          left
          exact ⟨hexit.1, hexit.2, (Option.some.inj h).symm⟩
        · rw [if_neg hexit] at h
          right
          cases ht : s.tasks_ with
          | nil =>
            rcases hpred with hp | hp
            · exact absurd ⟨hp, ht⟩ hexit
            · exact absurd ht hp
          | cons task rest =>
            simp only [ht] at h
            exact ⟨task, rest, rfl, (Option.some.inj h).symm⟩
      · rw [if_neg hpred] at h
        cases h
    | running t => simp [hpc] at h
    | finishing t => simp [hpc] at h
    | exited => simp [hpc] at h

theorem worker_run_some {s s2 : PoolState} {w : Nat} (h : s.worker_run w = some s2) :
    ∃ wk task, s.workers_[w]? = some wk ∧ wk.pc = .running task ∧
      ((s.futures.getD task none = none ∧
          s2 = { s with
            futures := s.futures.set task (some (s.packaged.getD task (.ok 0))),
            invocations := s.invocations.set task (s.invocations.getD task 0 + 1),
            workers_ := s.workers_.set w { wk with pc := .finishing task } }) ∨
        (s.futures.getD task none ≠ none ∧
          s2 = { s with
            exceptions_ := s.exceptions_ ++ [future_error],
            workers_ := s.workers_.set w { wk with pc := .finishing task } })) := by
  unfold worker_run at h
  cases hw : s.workers_[w]? with
  | none => simp [hw] at h
  | some wk =>
    simp only [hw] at h
    cases hpc : wk.pc with
    | running task =>
      simp only [hpc] at h
      refine ⟨wk, task, rfl, hpc, ?_⟩
      unfold invoke at h
      cases hf : s.futures.getD task none with
      | none =>
        simp only [hf] at h
        left
        exact ⟨rfl, (Option.some.inj h).symm⟩
      | some o =>
        simp only [hf] at h
        right
        exact ⟨by simp, (Option.some.inj h).symm⟩
    | waiting => simp [hpc] at h
    | finishing t => simp [hpc] at h
    | exited => simp [hpc] at h

theorem worker_complete_some {s s2 : PoolState} {w : Nat} (h : s.worker_complete w = some s2) :
    ∃ wk task, s.workers_[w]? = some wk ∧ wk.pc = .finishing task ∧
      s2 = { s with
        active_tasks_ := s.active_tasks_ - 1,
        completed := s.completed ++ [task],
        workers_ := s.workers_.set w { wk with pc := .waiting } } := by
  unfold worker_complete at h
  cases hw : s.workers_[w]? with
  | none => simp [hw] at h
  | some wk =>
    simp only [hw] at h
    cases hpc : wk.pc with
    | finishing task =>
      simp only [hpc] at h
      exact ⟨wk, task, rfl, hpc, (Option.some.inj h).symm⟩
    | waiting => simp [hpc] at h
    | running t => simp [hpc] at h
    | exited => simp [hpc] at h

end PoolState

theorem getD_append_default {α : Type} (l : List α) (d : α) (i : Nat) :
    (l ++ [d]).getD i d = l.getD i d := by
  simp only [List.getD_eq_getElem?_getD]
  by_cases h : i < l.length
  · rw [List.getElem?_append_left h]
  · have h1 : l[i]? = none := List.getElem?_eq_none (by omega)
    rw [List.getElem?_append_right (by omega), h1]
    cases hk : i - l.length with
    | zero => simp
    | succ k => simp

theorem getD_append_lt {α : Type} (l : List α) (x d : α) (i : Nat) (h : i < l.length) :
    (l ++ [x]).getD i d = l.getD i d := by
  simp only [List.getD_eq_getElem?_getD, List.getElem?_append_left h]

theorem count_append_singleton (l : List Nat) (a id : Nat) :
    (l ++ [a]).count id = l.count id + if a = id then 1 else 0 := by
  rw [List.count_append, List.count_singleton]
  by_cases h : a = id
  · subst h; simp
  · have h2 : ¬ id = a := fun e => h e.symm
    simp [h, h2]

theorem count_cons_nat (l : List Nat) (a id : Nat) :
    (a :: l).count id = l.count id + if a = id then 1 else 0 := by
  rw [List.count_cons]
  by_cases h : a = id
  · subst h; simp
  · simp [h]

theorem tally_replicate_waiting (g : Worker → Nat) (n : Nat)
    (h : g { pc := .waiting, stop_requested := false } = 0) :
    tally g (List.replicate n { pc := .waiting, stop_requested := false }) = 0 := by
  apply tally_eq_zero
  intro wk hwk
  rw [List.eq_of_mem_replicate hwk]
  exact h

theorem PoolInv.of_construct {n : Nat} {s : PoolState} (h : construct n = .ok s) : PoolInv s := by
  unfold execution.construct at h
  split_ifs at h with hn
  cases h
  refine ⟨rfl, rfl, ?_, ?_, ?_, ?_, rfl, ?_, ?_⟩
  · intro id
    show 0 + tally (holds id) _ + 0 = if id < 0 then 1 else 0
    rw [tally_replicate_waiting _ _ rfl]
    simp
  · show 0 = tally busy _
    rw [tally_replicate_waiting _ _ rfl]
  · intro id
    show 0 = tally (ran id) _ + 0
    rw [tally_replicate_waiting _ _ rfl]
  · intro id
    rfl
  · intro wk hwk hpc
    rw [List.eq_of_mem_replicate hwk] at hpc
    cases hpc
  · intro wk hwk hst
    rw [List.eq_of_mem_replicate hwk] at hst
    cases hst

theorem PoolInv.submit {s : PoolState} (h : PoolInv s) (f : Callable) :
    PoolInv (s.submit f).2 := by
  unfold PoolState.submit
  by_cases hw : s.workers_.isEmpty = true
  · rw [if_pos hw]; exact h
  · rw [if_neg hw]
    refine ⟨?_, ?_, ?_, h.active_count, ?_, ?_, h.no_exceptions, h.exited_stopped,
      h.stopped_late⟩
    · show (s.futures ++ [none]).length = (s.packaged ++ [f]).length
      simp [h.len_futures]
    · show (s.invocations ++ [0]).length = (s.packaged ++ [f]).length
      simp [h.len_invocations]
    · intro id
      show (s.tasks_ ++ [s.packaged.length]).count id + tally (holds id) s.workers_ +
        s.completed.count id = if id < (s.packaged ++ [f]).length then 1 else 0
      rw [count_append_singleton, List.length_append, List.length_singleton]
      have hold := h.one_place id
      by_cases hid : s.packaged.length = id
      · rw [if_pos hid, if_pos (by omega)]
        rw [if_neg (by omega)] at hold
        omega
      · rw [if_neg hid]
        by_cases hlt : id < s.packaged.length
        · rw [if_pos (by omega)]
          rw [if_pos hlt] at hold
          omega
        · rw [if_neg (by omega)]
          rw [if_neg hlt] at hold
          omega
    · intro id
      show (s.invocations ++ [0]).getD id 0 = _
      rw [getD_append_default]
      exact h.invoked id
    · intro id
      show (s.futures ++ [none]).getD id none =
        if (s.invocations ++ [0]).getD id 0 = 0 then none
        else some ((s.packaged ++ [f]).getD id (.ok 0))
      rw [getD_append_default, getD_append_default, h.future_state id]
      by_cases hz : s.invocations.getD id 0 = 0
      · rw [if_pos hz, if_pos hz]
      · rw [if_neg hz, if_neg hz]
        have hlt : id < s.packaged.length := by
          by_contra hge
          apply hz
          rw [List.getD_eq_getElem?_getD, List.getElem?_eq_none (by rw [h.len_invocations]; omega)]
          rfl
        rw [getD_append_lt _ _ _ _ hlt]

theorem getD_set {α : Type} (l : List α) (i j : Nat) (x d : α) :
    (l.set i x).getD j d = if i = j ∧ j < l.length then x else l.getD j d := by
  simp only [List.getD_eq_getElem?_getD, List.getElem?_set]
  by_cases hij : i = j
  · subst hij
    by_cases hlt : i < l.length
    · simp [hlt]
    · have h1 : l[i]? = none := List.getElem?_eq_none (by omega)
      simp [hlt, h1]
  · simp [hij]

theorem tally_ran_lt (id : Nat) (l : List Worker) (w : Nat) (wk : Worker)
    (h : l[w]? = some wk) (hpc : wk.pc = .running id) :
    tally (ran id) l + 1 ≤ tally (holds id) l := by
  induction l generalizing w with
  | nil => simp at h
  | cons a l ih =>
    cases w with
    | zero =>
      simp only [List.getElem?_cons_zero, Option.some.injEq] at h
      subst h
      have h1 : ran id a = 0 := by simp [ran, hpc]
      have h2 : holds id a = 1 := by simp [holds, hpc]
      have h3 := tally_le (ran id) (holds id) l (ran_le_holds id)
      simp only [tally, List.map_cons, List.sum_cons] at h3 ⊢
      omega
    | succ w =>
      simp only [List.getElem?_cons_succ] at h
      have h1 := ih w h
      have h2 := ran_le_holds id a
      simp only [tally, List.map_cons, List.sum_cons] at h1 ⊢
      omega

theorem PoolInv.dequeue {s s2 : PoolState} (h : PoolInv s) (w : Nat)
    (hstep : s.worker_dequeue w = some s2) : PoolInv s2 := by
  obtain ⟨wk, hw, hpc, hcase | hcase⟩ := PoolState.worker_dequeue_some hstep
  · obtain ⟨hstop, _, rfl⟩ := hcase
    have hholds : ∀ id, tally (holds id) (s.workers_.set w { wk with pc := .exited }) =
        tally (holds id) s.workers_ := by
      intro id
      have := tally_set (holds id) s.workers_ w wk { wk with pc := .exited } hw
      have h1 : holds id wk = 0 := by simp [holds, hpc]
      have h2 : holds id { wk with pc := .exited } = 0 := rfl
      omega
    have hbusy : tally busy (s.workers_.set w { wk with pc := .exited }) =
        tally busy s.workers_ := by
      have := tally_set busy s.workers_ w wk { wk with pc := .exited } hw
      have h1 : busy wk = 0 := by simp [busy, hpc]
      have h2 : busy { wk with pc := .exited } = 0 := rfl
      omega
    have hran : ∀ id, tally (ran id) (s.workers_.set w { wk with pc := .exited }) =
        tally (ran id) s.workers_ := by
      intro id
      have := tally_set (ran id) s.workers_ w wk { wk with pc := .exited } hw
      have h1 : ran id wk = 0 := by simp [ran, hpc]
      have h2 : ran id { wk with pc := .exited } = 0 := rfl
      omega
    refine ⟨h.len_futures, h.len_invocations, ?_, ?_, ?_, h.future_state, h.no_exceptions,
      ?_, ?_⟩
    · intro id
      show s.tasks_.count id + tally (holds id) (s.workers_.set w _) + s.completed.count id = _
      rw [hholds id]; exact h.one_place id
    · show s.active_tasks_ = tally busy (s.workers_.set w _)
      rw [hbusy]; exact h.active_count
    · intro id
      show s.invocations.getD id 0 = tally (ran id) (s.workers_.set w _) + _
      rw [hran id]; exact h.invoked id
    · intro x hx _
      rcases mem_set hx with rfl | hmem
      · exact hstop
      · rename_i hxpc
        exact h.exited_stopped x hmem hxpc
    · intro x hx hxs
      rcases mem_set hx with rfl | hmem
      · exact h.stopped_late wk (mem_of_getElem? hw) hxs
      · exact h.stopped_late x hmem hxs
  · obtain ⟨task, rest, htasks, rfl⟩ := hcase
    have hholds : ∀ id, tally (holds id) (s.workers_.set w { wk with pc := .running task }) =
        tally (holds id) s.workers_ + if task = id then 1 else 0 := by
      intro id
      have := tally_set (holds id) s.workers_ w wk { wk with pc := .running task } hw
      have h1 : holds id wk = 0 := by simp [holds, hpc]
      have h2 : holds id { wk with pc := .running task } = if task = id then 1 else 0 := rfl
      omega
    have hbusy : tally busy (s.workers_.set w { wk with pc := .running task }) =
        tally busy s.workers_ + 1 := by
      have := tally_set busy s.workers_ w wk { wk with pc := .running task } hw
      have h1 : busy wk = 0 := by simp [busy, hpc]
      have h2 : busy { wk with pc := .running task } = 1 := rfl
      omega
    have hran : ∀ id, tally (ran id) (s.workers_.set w { wk with pc := .running task }) =
        tally (ran id) s.workers_ := by
      intro id
      have := tally_set (ran id) s.workers_ w wk { wk with pc := .running task } hw
      have h1 : ran id wk = 0 := by simp [ran, hpc]
      have h2 : ran id { wk with pc := .running task } = 0 := rfl
      omega
    refine ⟨h.len_futures, h.len_invocations, ?_, ?_, ?_, h.future_state, h.no_exceptions,
      ?_, ?_⟩
    · intro id
      show rest.count id + tally (holds id) (s.workers_.set w _) + s.completed.count id =
        if id < s.packaged.length then 1 else 0
      have hold := h.one_place id
      rw [htasks, count_cons_nat] at hold
      rw [hholds id]
      omega
    · show s.active_tasks_ + 1 = tally busy (s.workers_.set w _)
      rw [hbusy, h.active_count]
    · intro id
      show s.invocations.getD id 0 = tally (ran id) (s.workers_.set w _) + _
      rw [hran id]; exact h.invoked id
    · intro x hx hxpc
      rcases mem_set hx with rfl | hmem
      · cases hxpc
      · exact h.exited_stopped x hmem hxpc
    · intro x hx hxs
      rcases mem_set hx with rfl | hmem
      · exact h.stopped_late wk (mem_of_getElem? hw) hxs
      · exact h.stopped_late x hmem hxs

/-- A task held by a worker that has not invoked it yet is a packaged task
whose shared state is empty. -/
theorem PoolInv.running_fresh {s : PoolState} (h : PoolInv s) (w : Nat) (wk : Worker)
    (task : Nat) (hw : s.workers_[w]? = some wk) (hpc : wk.pc = .running task) :
    task < s.packaged.length ∧ s.invocations.getD task 0 = 0 ∧
      s.futures.getD task none = none := by
  have h1 := tally_ran_lt task s.workers_ w wk hw hpc
  have h2 := h.one_place task
  have h3 := h.invoked task
  have hlt : task < s.packaged.length := by
    by_contra hge
    rw [if_neg hge] at h2
    omega
  rw [if_pos hlt] at h2
  have h4 : s.invocations.getD task 0 = 0 := by omega
  refine ⟨hlt, h4, ?_⟩
  rw [h.future_state task, if_pos h4]

theorem PoolInv.run {s s2 : PoolState} (h : PoolInv s) (w : Nat)
    (hstep : s.worker_run w = some s2) : PoolInv s2 := by
  obtain ⟨wk, task, hw, hpc, hcase | hcase⟩ := PoolState.worker_run_some hstep
  · obtain ⟨_, rfl⟩ := hcase
    obtain ⟨hlt, hzero, _⟩ := h.running_fresh w wk task hw hpc
    have hholds : ∀ id, tally (holds id) (s.workers_.set w { wk with pc := .finishing task }) =
        tally (holds id) s.workers_ := by
      intro id
      have := tally_set (holds id) s.workers_ w wk { wk with pc := .finishing task } hw
      have h1 : holds id wk = if task = id then 1 else 0 := by simp [holds, hpc]
      have h2 : holds id { wk with pc := .finishing task } = if task = id then 1 else 0 := rfl
      omega
    have hbusy : tally busy (s.workers_.set w { wk with pc := .finishing task }) =
        tally busy s.workers_ := by
      have := tally_set busy s.workers_ w wk { wk with pc := .finishing task } hw
      have h1 : busy wk = 1 := by simp [busy, hpc]
      have h2 : busy { wk with pc := .finishing task } = 1 := rfl
      omega
    have hran : ∀ id, tally (ran id) (s.workers_.set w { wk with pc := .finishing task }) =
        tally (ran id) s.workers_ + if task = id then 1 else 0 := by
      intro id
      have := tally_set (ran id) s.workers_ w wk { wk with pc := .finishing task } hw
      have h1 : ran id wk = 0 := by simp [ran, hpc]
      have h2 : ran id { wk with pc := .finishing task } = if task = id then 1 else 0 := rfl
      omega
    have hinv : ∀ id, (s.invocations.set task (s.invocations.getD task 0 + 1)).getD id 0 =
        s.invocations.getD id 0 + if task = id then 1 else 0 := by
      intro id
      rw [getD_set]
      by_cases hid : task = id
      · subst hid
        rw [if_pos ⟨rfl, by rw [h.len_invocations]; exact hlt⟩, if_pos rfl]
      · rw [if_neg (fun hc => hid hc.1), if_neg hid]
        rfl
    refine ⟨?_, ?_, ?_, ?_, ?_, ?_, h.no_exceptions, ?_, ?_⟩
    · show (s.futures.set task _).length = s.packaged.length
      rw [List.length_set]; exact h.len_futures
    · show (s.invocations.set task _).length = s.packaged.length
      rw [List.length_set]; exact h.len_invocations
    · intro id
      show s.tasks_.count id + tally (holds id) (s.workers_.set w _) + s.completed.count id =
        if id < s.packaged.length then 1 else 0
      rw [hholds id]; exact h.one_place id
    · show s.active_tasks_ = tally busy (s.workers_.set w _)
      rw [hbusy]; exact h.active_count
    · intro id
      show (s.invocations.set task (s.invocations.getD task 0 + 1)).getD id 0 =
        tally (ran id) (s.workers_.set w _) + s.completed.count id
      rw [hinv id, hran id, h.invoked id]
      omega
    · intro id
      show (s.futures.set task (some (s.packaged.getD task (.ok 0)))).getD id none =
        if (s.invocations.set task (s.invocations.getD task 0 + 1)).getD id 0 = 0 then none
        else some (s.packaged.getD id (.ok 0))
      rw [hinv id, getD_set]
      by_cases hid : task = id
      · subst hid
        rw [if_pos ⟨rfl, by rw [h.len_futures]; exact hlt⟩, if_pos rfl, if_neg (by omega)]
      · rw [if_neg (fun hc => hid hc.1), if_neg hid, h.future_state id]
        rfl
    · intro x hx hxpc
      rcases mem_set hx with rfl | hmem
      · cases hxpc
      · exact h.exited_stopped x hmem hxpc
    · intro x hx hxs
      rcases mem_set hx with rfl | hmem
      · exact h.stopped_late wk (mem_of_getElem? hw) hxs
      · exact h.stopped_late x hmem hxs
  · exact absurd (h.running_fresh w wk task hw hpc).2.2 hcase.1

theorem PoolInv.complete {s s2 : PoolState} (h : PoolInv s) (w : Nat)
    (hstep : s.worker_complete w = some s2) : PoolInv s2 := by
  obtain ⟨wk, task, hw, hpc, rfl⟩ := PoolState.worker_complete_some hstep
  have hholds : ∀ id, tally (holds id) (s.workers_.set w { wk with pc := .waiting }) +
      (if task = id then 1 else 0) = tally (holds id) s.workers_ := by
    intro id
    have := tally_set (holds id) s.workers_ w wk { wk with pc := .waiting } hw
    have h1 : holds id wk = if task = id then 1 else 0 := by simp [holds, hpc]
    have h2 : holds id { wk with pc := .waiting } = 0 := rfl
    omega
  have hbusy : tally busy (s.workers_.set w { wk with pc := .waiting }) + 1 =
      tally busy s.workers_ := by
    have := tally_set busy s.workers_ w wk { wk with pc := .waiting } hw
    have h1 : busy wk = 1 := by simp [busy, hpc]
    have h2 : busy { wk with pc := .waiting } = 0 := rfl
    omega
  have hran : ∀ id, tally (ran id) (s.workers_.set w { wk with pc := .waiting }) +
      (if task = id then 1 else 0) = tally (ran id) s.workers_ := by
    intro id
    have := tally_set (ran id) s.workers_ w wk { wk with pc := .waiting } hw
    have h1 : ran id wk = if task = id then 1 else 0 := by simp [ran, hpc]
    have h2 : ran id { wk with pc := .waiting } = 0 := rfl
    omega
  refine ⟨h.len_futures, h.len_invocations, ?_, ?_, ?_, h.future_state, h.no_exceptions,
    ?_, ?_⟩
  · intro id
    show s.tasks_.count id + tally (holds id) (s.workers_.set w _) +
      (s.completed ++ [task]).count id = if id < s.packaged.length then 1 else 0
    rw [count_append_singleton]
    have := hholds id
    have := h.one_place id
    omega
  · show s.active_tasks_ - 1 = tally busy (s.workers_.set w _)
    have := h.active_count
    omega
  · intro id
    show s.invocations.getD id 0 = tally (ran id) (s.workers_.set w _) +
      (s.completed ++ [task]).count id
    rw [count_append_singleton]
    have := hran id
    have := h.invoked id
    omega
  · intro x hx hxpc
    rcases mem_set hx with rfl | hmem
    · cases hxpc
    · exact h.exited_stopped x hmem hxpc
  · intro x hx hxs
    rcases mem_set hx with rfl | hmem
    · exact h.stopped_late wk (mem_of_getElem? hw) hxs
    · exact h.stopped_late x hmem hxs

theorem PoolInv.shutdown_wait {s s2 : PoolState} (h : PoolInv s)
    (hstep : s.shutdown_wait = some s2) : PoolInv s2 := by
  unfold PoolState.shutdown_wait at hstep
  split_ifs at hstep with hq
  cases hstep
  refine ⟨h.len_futures, h.len_invocations, h.one_place, h.active_count, h.invoked,
    h.future_state, h.no_exceptions, h.exited_stopped, ?_⟩
  intro wk hwk hst
  rcases h.stopped_late wk hwk hst with h1 | h1
  · rw [hq.1] at h1; cases h1
  · rw [hq.1] at h1; cases h1

theorem PoolInv.shutdown_stop {s s2 : PoolState} (h : PoolInv s)
    (hstep : s.shutdown_stop = some s2) : PoolInv s2 := by
  unfold PoolState.shutdown_stop at hstep
  split_ifs at hstep with hq
  cases hstep
  refine ⟨h.len_futures, h.len_invocations, ?_, ?_, ?_, h.future_state, h.no_exceptions,
    ?_, ?_⟩
  · intro id
    show s.tasks_.count id + tally (holds id) (s.workers_.map _) + s.completed.count id =
      if id < s.packaged.length then 1 else 0
    rw [tally_map (holds id) (fun wk => { wk with stop_requested := true }) s.workers_
      (fun wk => rfl)]
    exact h.one_place id
  · show s.active_tasks_ = tally busy (s.workers_.map _)
    rw [tally_map busy (fun wk => { wk with stop_requested := true }) s.workers_
      (fun wk => rfl)]
    exact h.active_count
  · intro id
    show s.invocations.getD id 0 = tally (ran id) (s.workers_.map _) + s.completed.count id
    rw [tally_map (ran id) (fun wk => { wk with stop_requested := true }) s.workers_
      (fun wk => rfl)]
    exact h.invoked id
  · intro x hx _
    obtain ⟨wk, _, rfl⟩ := List.mem_map.mp hx
    rfl
  · intro x _ _
    exact Or.inl rfl

theorem PoolInv.shutdown_clear {s s2 : PoolState} (h : PoolInv s)
    (hstep : s.shutdown_clear = some s2) : PoolInv s2 := by
  unfold PoolState.shutdown_clear at hstep
  split_ifs at hstep with hq
  cases hstep
  have hall : ∀ wk ∈ s.workers_, wk.pc = .exited := by
    intro wk hwk
    have := List.all_eq_true.mp hq.2 wk hwk
    exact of_decide_eq_true this
  have hholds : ∀ id, tally (holds id) s.workers_ = 0 := fun id =>
    tally_eq_zero _ _ (fun wk hwk => by simp [holds, hall wk hwk])
  have hbusy : tally busy s.workers_ = 0 :=
    tally_eq_zero _ _ (fun wk hwk => by simp [busy, hall wk hwk])
  have hran : ∀ id, tally (ran id) s.workers_ = 0 := fun id =>
    tally_eq_zero _ _ (fun wk hwk => by simp [ran, hall wk hwk])
  refine ⟨h.len_futures, h.len_invocations, ?_, ?_, ?_, h.future_state, h.no_exceptions,
    ?_, ?_⟩
  · intro id
    show s.tasks_.count id + tally (holds id) [] + s.completed.count id =
      if id < s.packaged.length then 1 else 0
    have := h.one_place id
    rw [hholds id] at this
    exact this
  · show s.active_tasks_ = tally busy []
    rw [h.active_count, hbusy]; rfl
  · intro id
    show s.invocations.getD id 0 = tally (ran id) [] + s.completed.count id
    have := h.invoked id
    rw [hran id] at this
    exact this
  · intro x hx
    cases hx
  · intro x hx
    cases hx

theorem PoolInv.step {s s2 : PoolState} (h : PoolInv s) (a : Action)
    (hstep : step s a = some s2) : PoolInv s2 := by
  cases a with
  | submit f =>
    have : s2 = (s.submit f).2 := (Option.some.inj hstep).symm
    rw [this]; exact h.submit f
  | dequeue w => exact h.dequeue w hstep
  | run w => exact h.run w hstep
  | complete w => exact h.complete w hstep
  | shutdown_wait => exact h.shutdown_wait hstep
  | shutdown_stop => exact h.shutdown_stop hstep
  | shutdown_clear => exact h.shutdown_clear hstep

theorem PoolInv.steps {s s2 : PoolState} (h : PoolInv s) (hsteps : Steps s s2) :
    PoolInv s2 := by
  induction hsteps with
  | refl => exact h
  | tail a _ hstep ih => exact ih.step a hstep

theorem Reachable.pool_inv {n : Nat} {s : PoolState} (h : Reachable n s) : PoolInv s := by
  obtain ⟨s0, h0, hsteps⟩ := h
  exact (PoolInv.of_construct h0).steps hsteps

/-- A step never revives a cleared pool, and keeps the workers unless it is
the clearing step. -/
theorem step_thread_count {s s2 : PoolState} (a : Action) (hstep : step s a = some s2)
    (hpc : s2.shutdown_pc ≠ .cleared) :
    s.shutdown_pc ≠ .cleared ∧ s2.workers_.length = s.workers_.length := by
  cases a with
  | submit f =>
    have h2 : s2 = (s.submit f).2 := (Option.some.inj hstep).symm
    subst h2
    unfold PoolState.submit at hpc ⊢
    split_ifs at hpc ⊢
    · exact ⟨hpc, rfl⟩
    · exact ⟨hpc, rfl⟩
  | dequeue w =>
    obtain ⟨wk, _, _, hcase | hcase⟩ := PoolState.worker_dequeue_some hstep
    · obtain ⟨_, _, rfl⟩ := hcase
      exact ⟨hpc, List.length_set _ _ _⟩
    · obtain ⟨_, _, _, rfl⟩ := hcase
      exact ⟨hpc, List.length_set _ _ _⟩
  | run w =>
    obtain ⟨wk, task, _, _, hcase | hcase⟩ := PoolState.worker_run_some hstep
    · obtain ⟨_, rfl⟩ := hcase
      exact ⟨hpc, List.length_set _ _ _⟩
    · obtain ⟨_, rfl⟩ := hcase
      exact ⟨hpc, List.length_set _ _ _⟩
  | complete w =>
    obtain ⟨wk, task, _, _, rfl⟩ := PoolState.worker_complete_some hstep
    exact ⟨hpc, List.length_set _ _ _⟩
  | shutdown_wait =>
    simp only [step, PoolState.shutdown_wait] at hstep
    split_ifs at hstep with hq
    cases hstep
    exact ⟨by rw [hq.1]; simp, rfl⟩
  | shutdown_stop =>
    simp only [step, PoolState.shutdown_stop] at hstep
    split_ifs at hstep with hq
    cases hstep
    exact ⟨by rw [hq]; simp, List.length_map _ _⟩
  | shutdown_clear =>
    simp only [step, PoolState.shutdown_clear] at hstep
    split_ifs at hstep with hq
    cases hstep
    exact absurd rfl hpc

theorem steps_thread_count {s s2 : PoolState} (hsteps : Steps s s2)
    (hpc : s2.shutdown_pc ≠ .cleared) :
    s.shutdown_pc ≠ .cleared ∧ s2.workers_.length = s.workers_.length := by
  induction hsteps with
  | refl => exact ⟨hpc, rfl⟩
  | tail a _ hstep ih =>
    obtain ⟨h1, h2⟩ := step_thread_count a hstep hpc
    obtain ⟨h3, h4⟩ := ih h1
    exact ⟨h3, h2.trans h4⟩

/-- Packaged tasks are only ever added at the end. -/
theorem step_packaged {s s2 : PoolState} (a : Action) (hstep : step s a = some s2) :
    s.packaged.length ≤ s2.packaged.length ∧
      ∀ i, i < s.packaged.length → s2.packaged.getD i (.ok 0) = s.packaged.getD i (.ok 0) := by
  cases a with
  | submit f =>
    have h2 : s2 = (s.submit f).2 := (Option.some.inj hstep).symm
    subst h2
    unfold PoolState.submit
    split_ifs
    · exact ⟨Nat.le_refl _, fun _ _ => rfl⟩
    · refine ⟨by simp, fun i hi => getD_append_lt _ _ _ _ hi⟩
  | dequeue w =>
    obtain ⟨wk, _, _, hcase | hcase⟩ := PoolState.worker_dequeue_some hstep
    · obtain ⟨_, _, rfl⟩ := hcase
      exact ⟨Nat.le_refl _, fun _ _ => rfl⟩
    · obtain ⟨_, _, _, rfl⟩ := hcase
      exact ⟨Nat.le_refl _, fun _ _ => rfl⟩
  | run w =>
    obtain ⟨wk, task, _, _, hcase | hcase⟩ := PoolState.worker_run_some hstep
    · obtain ⟨_, rfl⟩ := hcase
      exact ⟨Nat.le_refl _, fun _ _ => rfl⟩
    · obtain ⟨_, rfl⟩ := hcase
      exact ⟨Nat.le_refl _, fun _ _ => rfl⟩
  | complete w =>
    obtain ⟨wk, task, _, _, rfl⟩ := PoolState.worker_complete_some hstep
    exact ⟨Nat.le_refl _, fun _ _ => rfl⟩
  | shutdown_wait =>
    simp only [step, PoolState.shutdown_wait] at hstep
    split_ifs at hstep
    cases hstep
    exact ⟨Nat.le_refl _, fun _ _ => rfl⟩
  | shutdown_stop =>
    simp only [step, PoolState.shutdown_stop] at hstep
    split_ifs at hstep
    cases hstep
    exact ⟨Nat.le_refl _, fun _ _ => rfl⟩
  | shutdown_clear =>
    simp only [step, PoolState.shutdown_clear] at hstep
    split_ifs at hstep
    cases hstep
    exact ⟨Nat.le_refl _, fun _ _ => rfl⟩

theorem steps_packaged {s s2 : PoolState} (hsteps : Steps s s2) :
    s.packaged.length ≤ s2.packaged.length ∧
      ∀ i, i < s.packaged.length → s2.packaged.getD i (.ok 0) = s.packaged.getD i (.ok 0) := by
  induction hsteps with
  | refl => exact ⟨Nat.le_refl _, fun _ _ => rfl⟩
  | tail a _ hstep ih =>
    obtain ⟨h1, h2⟩ := step_packaged a hstep
    exact ⟨Nat.le_trans ih.1 h1, fun i hi => (h2 i (by omega)).trans (ih.2 i hi)⟩

theorem steps_trans {s s1 s2 : PoolState} (h1 : Steps s s1) (h2 : Steps s1 s2) :
    Steps s s2 := by
  induction h2 with
  | refl => exact h1
  | tail a _ hstep ih => exact .tail a ih hstep

theorem steps_of_run_schedule {s s2 : PoolState} (sched : List Action)
    (h : run_schedule s sched = some s2) : Steps s s2 := by
  induction sched generalizing s with
  | nil =>
    cases h
    exact .refl
  | cons a rest ih =>
    unfold run_schedule at h
    cases hs : step s a with
    | none => simp [hs] at h
    | some s1 =>
      simp only [hs] at h
      exact steps_trans (.tail a .refl hs) (ih h)

end execution


namespace execution

namespace PoolState

theorem worker_dequeue_task {s : PoolState} {w : Nat} {wk : Worker} {task : Nat}
    {rest : List Nat} (hw : s.workers_[w]? = some wk) (hpc : wk.pc = .waiting)
    (ht : s.tasks_ = task :: rest) :
    s.worker_dequeue w = some { s with
      tasks_ := rest,
      active_tasks_ := s.active_tasks_ + 1,
      workers_ := s.workers_.set w { wk with pc := .running task } } := by
  unfold worker_dequeue
  simp only [hw, hpc, ht]
  rw [if_pos (Or.inr (by simp)), if_neg (fun hc => by simp at hc)]

theorem worker_run_ok {s : PoolState} {w : Nat} {wk : Worker} {task : Nat}
    (hw : s.workers_[w]? = some wk) (hpc : wk.pc = .running task)
    (hf : s.futures.getD task none = none) :
    s.worker_run w = some { s with
      futures := s.futures.set task (some (s.packaged.getD task (.ok 0))),
      invocations := s.invocations.set task (s.invocations.getD task 0 + 1),
      workers_ := s.workers_.set w { wk with pc := .finishing task } } := by
  unfold worker_run invoke
  simp only [hw, hpc, hf]

theorem worker_complete_ok {s : PoolState} {w : Nat} {wk : Worker} {task : Nat}
    (hw : s.workers_[w]? = some wk) (hpc : wk.pc = .finishing task) :
    s.worker_complete w = some { s with
      active_tasks_ := s.active_tasks_ - 1,
      completed := s.completed ++ [task],
      workers_ := s.workers_.set w { wk with pc := .waiting } } := by
  unfold worker_complete
  simp only [hw, hpc]

end PoolState

theorem getElem?_set_self {l : List Worker} {w : Nat} {wk : Worker} (wk2 : Worker)
    (hw : l[w]? = some wk) : (l.set w wk2)[w]? = some wk2 := by
  have hlt : w < l.length := by
    rw [List.getElem?_eq_some] at hw
    exact hw.1
  rw [List.getElem?_set]
  simp [hlt]

/-- A shared state that is set stays as it is. -/
theorem step_future_kept {s s2 : PoolState} (a : Action)
    (hstep : step s a = some s2) (id : Nat) (o : Except Failure Int)
    (hset : s.futures.getD id none = some o) : s2.futures.getD id none = some o := by
  have hlt : id < s.futures.length := by
    by_contra hge
    rw [List.getD_eq_getElem?_getD, List.getElem?_eq_none (by omega)] at hset
    cases hset
  cases a with
  | submit f =>
    have h2 : s2 = (s.submit f).2 := (Option.some.inj hstep).symm
    subst h2
    unfold PoolState.submit
    split_ifs
    · exact hset
    · show (s.futures ++ [none]).getD id none = some o
      rw [getD_append_lt _ _ _ _ hlt]; exact hset
  | dequeue w =>
    obtain ⟨wk, _, _, hcase | hcase⟩ := PoolState.worker_dequeue_some hstep
    · obtain ⟨_, _, rfl⟩ := hcase
      exact hset
    · obtain ⟨_, _, _, rfl⟩ := hcase
      exact hset
  | run w =>
    obtain ⟨wk, task, _, _, hcase | hcase⟩ := PoolState.worker_run_some hstep
    · obtain ⟨hnone, rfl⟩ := hcase
      show (s.futures.set task _).getD id none = some o
      rw [getD_set, if_neg]
      · exact hset
      · rintro ⟨rfl, _⟩
        rw [hnone] at hset
        cases hset
    · obtain ⟨_, rfl⟩ := hcase
      exact hset
  | complete w =>
    obtain ⟨wk, task, _, _, rfl⟩ := PoolState.worker_complete_some hstep
    exact hset
  | shutdown_wait =>
    simp only [step, PoolState.shutdown_wait] at hstep
    split_ifs at hstep
    cases hstep
    exact hset
  | shutdown_stop =>
    simp only [step, PoolState.shutdown_stop] at hstep
    split_ifs at hstep
    cases hstep
    exact hset
  | shutdown_clear =>
    simp only [step, PoolState.shutdown_clear] at hstep
    split_ifs at hstep
    cases hstep
    exact hset

theorem steps_future_kept {s s2 : PoolState} (hsteps : Steps s s2) (id : Nat)
    (o : Except Failure Int) (hset : s.futures.getD id none = some o) :
    s2.futures.getD id none = some o := by
  induction hsteps with
  | refl => exact hset
  | tail a _ hstep ih => exact step_future_kept a hstep id o ih

theorem run_schedule_cons (s : PoolState) (a : Action) (rest : List Action) :
    run_schedule s (a :: rest) = (step s a).bind (fun s1 => run_schedule s1 rest) := by
  rw [run_schedule]
  cases step s a <;> rfl

theorem run_schedule_append (s : PoolState) (l1 l2 : List Action) :
    run_schedule s (l1 ++ l2) = (run_schedule s l1).bind (fun s1 => run_schedule s1 l2) := by
  induction l1 generalizing s with
  | nil => rfl
  | cons a l ih =>
    rw [List.cons_append, run_schedule_cons, run_schedule_cons]
    cases hs : step s a with
    | none => rfl
    | some s1 => exact ih s1

theorem dequeue_ex {s : PoolState} {w : Nat} {wk : Worker} {task : Nat} {rest : List Nat}
    (hw : s.workers_[w]? = some wk) (hpc : wk.pc = .waiting) (ht : s.tasks_ = task :: rest) :
    ∃ s1, step s (.dequeue w) = some s1 ∧ s1.tasks_ = rest ∧ s1.packaged = s.packaged ∧
      s1.futures = s.futures ∧ s1.active_tasks_ = s.active_tasks_ + 1 ∧
      s1.workers_[w]? = some ⟨.running task, wk.stop_requested⟩ :=
  ⟨_, PoolState.worker_dequeue_task hw hpc ht, rfl, rfl, rfl, rfl, getElem?_set_self _ hw⟩

theorem run_ex {s : PoolState} {w : Nat} {wk : Worker} {task : Nat}
    (hw : s.workers_[w]? = some wk) (hpc : wk.pc = .running task)
    (hf : s.futures.getD task none = none) :
    ∃ s1, step s (.run w) = some s1 ∧ s1.tasks_ = s.tasks_ ∧ s1.packaged = s.packaged ∧
      s1.futures = s.futures.set task (some (s.packaged.getD task (.ok 0))) ∧
      s1.active_tasks_ = s.active_tasks_ ∧ s1.exceptions_ = s.exceptions_ ∧
      s1.workers_[w]? = some ⟨.finishing task, wk.stop_requested⟩ :=
  ⟨_, PoolState.worker_run_ok hw hpc hf, rfl, rfl, rfl, rfl, rfl, getElem?_set_self _ hw⟩

theorem complete_ex {s : PoolState} {w : Nat} {wk : Worker} {task : Nat}
    (hw : s.workers_[w]? = some wk) (hpc : wk.pc = .finishing task) :
    ∃ s1, step s (.complete w) = some s1 ∧ s1.tasks_ = s.tasks_ ∧ s1.packaged = s.packaged ∧
      s1.futures = s.futures ∧ s1.active_tasks_ = s.active_tasks_ - 1 ∧
      s1.exceptions_ = s.exceptions_ ∧
      s1.workers_[w]? = some ⟨.waiting, wk.stop_requested⟩ :=
  ⟨_, PoolState.worker_complete_ok hw hpc, rfl, rfl, rfl, rfl, rfl, getElem?_set_self _ hw⟩

/-- A worker at the top of its loop serves the task at the front of the
queue: the three steps are enabled, the task leaves the queue, its shared
state is set to the outcome of its callable, and the worker is back at the
top of its loop. -/
theorem serve_one {s : PoolState} {w : Nat} {wk : Worker} {task : Nat} {rest : List Nat}
    (hinv : PoolInv s) (hw : s.workers_[w]? = some wk) (hpc : wk.pc = .waiting)
    (ht : s.tasks_ = task :: rest) :
    ∃ s3, run_schedule s [.dequeue w, .run w, .complete w] = some s3 ∧ PoolInv s3 ∧
      s3.tasks_ = rest ∧ s3.packaged = s.packaged ∧ s3.workers_[w]? = some wk ∧
      task < s.packaged.length ∧
      s3.futures.getD task none = some (s.packaged.getD task (.ok 0)) := by
  obtain ⟨s1, hd, ht1, hp1, hf1, _, hw1⟩ := dequeue_ex hw hpc ht
  have hinv1 := hinv.step _ hd
  have hfresh := hinv1.running_fresh w _ task hw1 rfl
  obtain ⟨s2, hr, ht2, hp2, hf2, _, _, hw2⟩ := run_ex hw1 rfl hfresh.2.2
  have hinv2 := hinv1.step _ hr
  obtain ⟨s3, hc, ht3, hp3, hf3, _, _, hw3⟩ := complete_ex hw2 rfl
  have hinv3 := hinv2.step _ hc
  have hwk : (⟨.waiting, wk.stop_requested⟩ : Worker) = wk := by
    cases wk
    simp only at hpc
    subst hpc
    rfl
  refine ⟨s3, ?_, hinv3, by rw [ht3, ht2, ht1], by rw [hp3, hp2, hp1], ?_, ?_, ?_⟩
  · simp only [run_schedule, hd, hr, hc]
  · rw [hw3]
    exact congrArg some hwk
  · rw [← hp1]; exact hfresh.1
  · have hlt : task < s1.futures.length := by
      rw [hf1, hinv.len_futures, ← hp1]
      exact hfresh.1
    rw [hf3, hf2, hp1, getD_set, if_pos ⟨rfl, hlt⟩]

/-- A worker at the top of its loop can serve the whole queue: the schedule
`serve w k` is enabled, empties the queue and sets the shared state of every
task that was queued to the outcome of its callable. -/
theorem serve_spec (w : Nat) : ∀ (k : Nat) (s : PoolState) (wk : Worker), PoolInv s →
    s.tasks_.length = k → s.workers_[w]? = some wk → wk.pc = .waiting →
    ∃ s3, run_schedule s (serve w k) = some s3 ∧ s3.tasks_ = [] ∧
      s3.packaged = s.packaged ∧ s3.workers_[w]? = some wk ∧
      ∀ id ∈ s.tasks_, s3.futures.getD id none = some (s.packaged.getD id (.ok 0)) := by
  intro k
  induction k with
  | zero =>
    intro s wk _ hlen hw _
    have ht : s.tasks_ = [] := List.length_eq_zero.mp hlen
    refine ⟨s, rfl, ht, rfl, hw, ?_⟩
    intro id hid
    rw [ht] at hid
    cases hid
  | succ k ih =>
    intro s wk hinv hlen hw hpc
    obtain ⟨task, rest, ht⟩ : ∃ task rest, s.tasks_ = task :: rest := by
      cases hts : s.tasks_ with
      | nil => rw [hts] at hlen; cases hlen
      | cons a l => exact ⟨a, l, rfl⟩
    obtain ⟨s1, hrun1, hinv1, ht1, hp1, hw1, _, hfut1⟩ := serve_one hinv hw hpc ht
    obtain ⟨s3, hrun, hempty, hpk, hw4, hfut⟩ := ih s1 wk hinv1
      (by rw [ht1]; simp only [ht, List.length_cons] at hlen; omega) hw1 hpc
    refine ⟨s3, ?_, hempty, hpk.trans hp1, hw4, ?_⟩
    · show run_schedule s ([.dequeue w, .run w, .complete w] ++ serve w k) = some s3
      rw [run_schedule_append, hrun1]
      exact hrun
    · intro id hid
      rw [ht] at hid
      rcases List.mem_cons.mp hid with rfl | hmem
      · exact steps_future_kept (steps_of_run_schedule _ hrun) _ _ hfut1
      · rw [← hp1]
        exact hfut id (ht1 ▸ hmem)

theorem tally_ge (g : Worker → Nat) {l : List Worker} {w : Nat} {wk : Worker}
    (h : l[w]? = some wk) : g wk ≤ tally g l := by
  induction l generalizing w with
  | nil => simp at h
  | cons a l ih =>
    cases w with
    | zero =>
      simp only [List.getElem?_cons_zero, Option.some.injEq] at h
      subst h
      simp only [tally, List.map_cons, List.sum_cons]
      omega
    | succ w =>
      simp only [List.getElem?_cons_succ] at h
      have := ih h
      simp only [tally, List.map_cons, List.sum_cons] at this ⊢
      omega

theorem tally_holds_pos (id : Nat) (l : List Worker) :
    0 < tally (holds id) l ↔ ∃ wk ∈ l, wk.pc = .running id ∨ wk.pc = .finishing id := by
  induction l with
  | nil => simp [tally]
  | cons a l ih =>
    have hsum : tally (holds id) (a :: l) = holds id a + tally (holds id) l := by
      simp [tally]
    have ha : 0 < holds id a ↔ (a.pc = .running id ∨ a.pc = .finishing id) := by
      obtain ⟨pc, sr⟩ := a
      cases pc <;> simp only [holds] <;> (try split_ifs) <;> simp_all
    rw [hsum]
    constructor
    · intro hpos
      by_cases h0 : 0 < holds id a
      · exact ⟨a, List.mem_cons_self _ _, ha.mp h0⟩
      · obtain ⟨wk, hwk, hpc⟩ := ih.mp (by omega)
        exact ⟨wk, List.mem_cons_of_mem _ hwk, hpc⟩
    · rintro ⟨wk, hwk, hpc⟩
      rcases List.mem_cons.mp hwk with rfl | hmem
      · have := ha.mpr hpc
        omega
      · have := ih.mpr ⟨wk, hmem, hpc⟩
        omega

/-- In a quiescent pool every packaged task is completed, has been invoked
exactly once, and is neither queued nor held. -/
theorem PoolInv.quiescent {s : PoolState} (h : PoolInv s) (hq : s.tasks_ = [])
    (ha : s.active_tasks_ = 0) (id : Nat) (hid : id < s.packaged.length) :
    s.completed.count id = 1 ∧ s.invocations.getD id 0 = 1 ∧
      tally (holds id) s.workers_ = 0 := by
  have h1 := h.one_place id
  rw [if_pos hid, hq] at h1
  have h2 := h.invoked id
  have h3 := tally_le (holds id) busy s.workers_ (holds_le_busy id)
  have h4 := tally_le (ran id) (holds id) s.workers_ (ran_le_holds id)
  have h5 := h.active_count
  simp only [List.count_nil] at h1
  omega

theorem sum_range_ite (t : Nat) (N : Nat) :
    ((List.range N).map (fun id => if t = id then 1 else 0)).sum = if t < N then 1 else 0 := by
  induction N with
  | zero => simp
  | succ N ih =>
    rw [List.range_succ, List.map_append, List.sum_append, ih]
    simp only [List.map_cons, List.map_nil, List.sum_cons, List.sum_nil]
    by_cases h1 : t < N
    · rw [if_pos h1, if_neg (by omega), if_pos (by omega)]; rfl
    · rw [if_neg h1]
      by_cases h2 : t = N
      · rw [if_pos h2, if_pos (by omega)]; rfl
      · rw [if_neg h2, if_neg (by omega)]; rfl

theorem sum_range_zero (N : Nat) : ((List.range N).map (fun _ => 0)).sum = 0 := by
  induction N with
  | zero => rfl
  | succ N ih => rw [List.range_succ, List.map_append, List.sum_append, ih]; rfl

theorem sum_holds_range (wk : Worker) (N : Nat)
    (h : ∀ t, wk.pc = .running t ∨ wk.pc = .finishing t → t < N) :
    ((List.range N).map (fun id => holds id wk)).sum = busy wk := by
  obtain ⟨pc, sr⟩ := wk
  cases pc with
  | waiting => exact sum_range_zero N
  | exited => exact sum_range_zero N
  | running t =>
    show ((List.range N).map (fun id => if t = id then 1 else 0)).sum = 1
    rw [sum_range_ite, if_pos (h t (Or.inl rfl))]
  | finishing t =>
    show ((List.range N).map (fun id => if t = id then 1 else 0)).sum = 1
    rw [sum_range_ite, if_pos (h t (Or.inr rfl))]

theorem sum_map_add_nat (f g : Nat → Nat) (L : List Nat) :
    (L.map (fun x => f x + g x)).sum = (L.map f).sum + (L.map g).sum := by
  induction L with
  | nil => rfl
  | cons a L ih =>
    simp only [List.map_cons, List.sum_cons, ih]
    omega

theorem sum_tally_holds (l : List Worker) (N : Nat)
    (h : ∀ wk ∈ l, ∀ t, wk.pc = .running t ∨ wk.pc = .finishing t → t < N) :
    ((List.range N).map (fun id => tally (holds id) l)).sum = tally busy l := by
  induction l with
  | nil => exact sum_range_zero N
  | cons a l ih =>
    have hsum : (fun id => tally (holds id) (a :: l)) =
        fun id => holds id a + tally (holds id) l := by
      funext id
      simp [tally]
    rw [hsum, sum_map_add_nat, sum_holds_range a N (h a (List.mem_cons_self _ _)),
      ih (fun wk hwk => h wk (List.mem_cons_of_mem _ hwk))]
    simp [tally]

theorem filter_length_eq_sum (f : Nat → Nat) (L : List Nat) (h : ∀ x ∈ L, f x ≤ 1) :
    (L.filter (fun x => decide (0 < f x))).length = (L.map f).sum := by
  induction L with
  | nil => rfl
  | cons a L ih =>
    have ha := h a (List.mem_cons_self _ _)
    have ih2 := ih (fun x hx => h x (List.mem_cons_of_mem _ hx))
    rw [List.filter_cons, List.map_cons, List.sum_cons]
    by_cases hpos : 0 < f a
    · rw [if_pos (by simpa using hpos), List.length_cons, ih2]
      omega
    · rw [if_neg (by simpa using hpos), ih2]
      omega

/-- The counter `active_tasks_` is the number of active tasks. -/
theorem PoolInv.active_tasks_eq {s : PoolState} (h : PoolInv s) :
    s.active_tasks_ = active_task_count s := by
  have hle : ∀ id, tally (holds id) s.workers_ ≤ 1 := by
    intro id
    have := h.one_place id
    split_ifs at this <;> omega
  have hlt : ∀ wk ∈ s.workers_, ∀ t, wk.pc = .running t ∨ wk.pc = .finishing t →
      t < s.packaged.length := by
    intro wk hwk t hpc
    have hpos := (tally_holds_pos t s.workers_).mpr ⟨wk, hwk, hpc⟩
    have := h.one_place t
    by_contra hge
    rw [if_neg hge] at this
    omega
  unfold active_task_count
  have hcongr : (List.range s.packaged.length).filter (fun id => decide (active s id)) =
      (List.range s.packaged.length).filter
        (fun id => decide (0 < tally (holds id) s.workers_)) := by
    apply List.filter_congr
    intro id _
    exact decide_eq_decide.mpr (tally_holds_pos id s.workers_).symm
  rw [hcongr, filter_length_eq_sum _ _ (fun id _ => hle id), sum_tally_holds _ _ hlt]
  exact h.active_count

/-- What one step does to the worker at index `w`. -/
theorem step_worker {s s2 : PoolState} (a : Action) (hstep : step s a = some s2)
    (w : Nat) (wk : Worker) (hw : s.workers_[w]? = some wk) :
    (a = .shutdown_clear ∧ wk.pc = .exited ∧ s2.workers_ = []) ∨
    ∃ wk2, s2.workers_[w]? = some wk2 ∧
      (wk2 = wk ∨
       (a = .dequeue w ∧ wk.stop_requested = true ∧ s.tasks_ = [] ∧ wk.pc = .waiting ∧
          wk2 = { wk with pc := .exited }) ∨
       (∃ task rest, a = .dequeue w ∧ s.tasks_ = task :: rest ∧ wk.pc = .waiting ∧
          wk2 = { wk with pc := .running task }) ∨
       (∃ task, a = .run w ∧ wk.pc = .running task ∧ wk2 = { wk with pc := .finishing task }) ∨
       (∃ task, a = .complete w ∧ wk.pc = .finishing task ∧ wk2 = { wk with pc := .waiting }) ∨
       (a = .shutdown_stop ∧ s.shutdown_pc = .drained ∧
          wk2 = { wk with stop_requested := true })) := by
  cases a with
  | submit f =>
    right
    have h2 : s2 = (s.submit f).2 := (Option.some.inj hstep).symm
    subst h2
    refine ⟨wk, ?_, Or.inl rfl⟩
    unfold PoolState.submit
    split_ifs
    · exact hw
    · exact hw
  | dequeue w2 =>
    right
    obtain ⟨wk0, hw0, hpc0, hcase | hcase⟩ := PoolState.worker_dequeue_some hstep
    · obtain ⟨hstop, hq, rfl⟩ := hcase
      by_cases hww : w2 = w
      · subst hww
        have hwk : wk0 = wk := Option.some.inj (hw0.symm.trans hw)
        subst hwk
        exact ⟨_, getElem?_set_self _ hw, Or.inr (Or.inl ⟨rfl, hstop, hq, hpc0, rfl⟩)⟩
      · refine ⟨wk, ?_, Or.inl rfl⟩
        show (s.workers_.set w2 _)[w]? = some wk
        rw [List.getElem?_set, if_neg hww]
        exact hw
    · obtain ⟨task, rest, ht, rfl⟩ := hcase
      by_cases hww : w2 = w
      · subst hww
        have hwk : wk0 = wk := Option.some.inj (hw0.symm.trans hw)
        subst hwk
        exact ⟨_, getElem?_set_self _ hw,
          Or.inr (Or.inr (Or.inl ⟨task, rest, rfl, ht, hpc0, rfl⟩))⟩
      · refine ⟨wk, ?_, Or.inl rfl⟩
        show (s.workers_.set w2 _)[w]? = some wk
        rw [List.getElem?_set, if_neg hww]
        exact hw
  | run w2 =>
    right
    obtain ⟨wk0, task, hw0, hpc0, hcase | hcase⟩ := PoolState.worker_run_some hstep
    · obtain ⟨_, rfl⟩ := hcase
      by_cases hww : w2 = w
      · subst hww
        have hwk : wk0 = wk := Option.some.inj (hw0.symm.trans hw)
        subst hwk
        exact ⟨_, getElem?_set_self _ hw,
          Or.inr (Or.inr (Or.inr (Or.inl ⟨task, rfl, hpc0, rfl⟩)))⟩
      · refine ⟨wk, ?_, Or.inl rfl⟩
        show (s.workers_.set w2 _)[w]? = some wk
        rw [List.getElem?_set, if_neg hww]
        exact hw
    · obtain ⟨_, rfl⟩ := hcase
      by_cases hww : w2 = w
      · subst hww
        have hwk : wk0 = wk := Option.some.inj (hw0.symm.trans hw)
        subst hwk
        exact ⟨_, getElem?_set_self _ hw,
          Or.inr (Or.inr (Or.inr (Or.inl ⟨task, rfl, hpc0, rfl⟩)))⟩
      · refine ⟨wk, ?_, Or.inl rfl⟩
        show (s.workers_.set w2 _)[w]? = some wk
        rw [List.getElem?_set, if_neg hww]
        exact hw
  | complete w2 =>
    right
    obtain ⟨wk0, task, hw0, hpc0, rfl⟩ := PoolState.worker_complete_some hstep
    by_cases hww : w2 = w
    · subst hww
      have hwk : wk0 = wk := Option.some.inj (hw0.symm.trans hw)
      subst hwk
      exact ⟨_, getElem?_set_self _ hw,
        Or.inr (Or.inr (Or.inr (Or.inr (Or.inl ⟨task, rfl, hpc0, rfl⟩))))⟩
    · refine ⟨wk, ?_, Or.inl rfl⟩
      show (s.workers_.set w2 _)[w]? = some wk
      rw [List.getElem?_set, if_neg hww]
      exact hw
  | shutdown_wait =>
    right
    simp only [step, PoolState.shutdown_wait] at hstep
    split_ifs at hstep
    cases hstep
    exact ⟨wk, hw, Or.inl rfl⟩
  | shutdown_stop =>
    right
    simp only [step, PoolState.shutdown_stop] at hstep
    split_ifs at hstep with hq
    cases hstep
    refine ⟨{ wk with stop_requested := true }, ?_,
      Or.inr (Or.inr (Or.inr (Or.inr (Or.inr ⟨rfl, hq, rfl⟩))))⟩
    show (s.workers_.map _)[w]? = _
    rw [List.getElem?_map, hw]
    rfl
  | shutdown_clear =>
    left
    simp only [step, PoolState.shutdown_clear] at hstep
    split_ifs at hstep with hq
    cases hstep
    refine ⟨rfl, ?_, rfl⟩
    have hall := List.all_eq_true.mp hq.2 wk (mem_of_getElem? hw)
    exact of_decide_eq_true hall

/-- A queued task stays queued unless a worker dequeues it. -/
theorem step_queue {s s2 : PoolState} (a : Action) (hstep : step s a = some s2) (id : Nat)
    (hq : id ∈ s.tasks_) :
    id ∈ s2.tasks_ ∨
      ∃ w wk2, a = .dequeue w ∧ s2.workers_[w]? = some wk2 ∧ wk2.pc = .running id := by
  cases a with
  | submit f =>
    left
    have h2 : s2 = (s.submit f).2 := (Option.some.inj hstep).symm
    subst h2
    unfold PoolState.submit
    split_ifs
    · exact hq
    · exact List.mem_append_left _ hq
  | dequeue w =>
    obtain ⟨wk, hw, _, hcase | hcase⟩ := PoolState.worker_dequeue_some hstep
    · obtain ⟨_, _, rfl⟩ := hcase
      exact Or.inl hq
    · obtain ⟨task, rest, ht, rfl⟩ := hcase
      rw [ht] at hq
      rcases List.mem_cons.mp hq with heq | hmem
      · right
        subst heq
        exact ⟨w, _, rfl, getElem?_set_self _ hw, rfl⟩
      · exact Or.inl hmem
  | run w =>
    left
    obtain ⟨wk, task, _, _, hcase | hcase⟩ := PoolState.worker_run_some hstep
    · obtain ⟨_, rfl⟩ := hcase
      exact hq
    · obtain ⟨_, rfl⟩ := hcase
      exact hq
  | complete w =>
    left
    obtain ⟨wk, task, _, _, rfl⟩ := PoolState.worker_complete_some hstep
    exact hq
  | shutdown_wait =>
    left
    simp only [step, PoolState.shutdown_wait] at hstep
    split_ifs at hstep
    cases hstep
    exact hq
  | shutdown_stop =>
    left
    simp only [step, PoolState.shutdown_stop] at hstep
    split_ifs at hstep
    cases hstep
    exact hq
  | shutdown_clear =>
    left
    simp only [step, PoolState.shutdown_clear] at hstep
    split_ifs at hstep
    cases hstep
    exact hq

/-- The destructor passes its wait only by the step that sees a quiescent pool. -/
theorem step_drained {s s2 : PoolState} (a : Action) (hstep : step s a = some s2)
    (h2 : s2.shutdown_pc = .drained) (h1 : s.shutdown_pc ≠ .drained) :
    a = .shutdown_wait ∧ s.tasks_ = [] ∧ s.active_tasks_ = 0 := by
  cases a with
  | submit f =>
    have h3 : s2 = (s.submit f).2 := (Option.some.inj hstep).symm
    subst h3
    unfold PoolState.submit at h2
    split_ifs at h2
    · exact absurd h2 h1
    · exact absurd h2 h1
  | dequeue w =>
    obtain ⟨wk, _, _, hcase | hcase⟩ := PoolState.worker_dequeue_some hstep
    · obtain ⟨_, _, rfl⟩ := hcase
      exact absurd h2 h1
    · obtain ⟨_, _, _, rfl⟩ := hcase
      exact absurd h2 h1
  | run w =>
    obtain ⟨wk, task, _, _, hcase | hcase⟩ := PoolState.worker_run_some hstep
    · obtain ⟨_, rfl⟩ := hcase
      exact absurd h2 h1
    · obtain ⟨_, rfl⟩ := hcase
      exact absurd h2 h1
  | complete w =>
    obtain ⟨wk, task, _, _, rfl⟩ := PoolState.worker_complete_some hstep
    exact absurd h2 h1
  | shutdown_wait =>
    simp only [step, PoolState.shutdown_wait] at hstep
    split_ifs at hstep with hq
    exact ⟨rfl, hq.2.2, hq.2.1⟩
  | shutdown_stop =>
    simp only [step, PoolState.shutdown_stop] at hstep
    split_ifs at hstep
    cases hstep
    cases h2
  | shutdown_clear =>
    simp only [step, PoolState.shutdown_clear] at hstep
    split_ifs at hstep
    cases hstep
    cases h2

/-- A completed task stays completed. -/
theorem step_completed_kept {s s2 : PoolState} (a : Action) (hstep : step s a = some s2)
    (id : Nat) (hc : id ∈ s.completed) : id ∈ s2.completed := by
  cases a with
  | submit f =>
    have h2 : s2 = (s.submit f).2 := (Option.some.inj hstep).symm
    subst h2
    unfold PoolState.submit
    split_ifs
    · exact hc
    · exact hc
  | dequeue w =>
    obtain ⟨wk, _, _, hcase | hcase⟩ := PoolState.worker_dequeue_some hstep
    · obtain ⟨_, _, rfl⟩ := hcase
      exact hc
    · obtain ⟨_, _, _, rfl⟩ := hcase
      exact hc
  | run w =>
    obtain ⟨wk, task, _, _, hcase | hcase⟩ := PoolState.worker_run_some hstep
    · obtain ⟨_, rfl⟩ := hcase
      exact hc
    · obtain ⟨_, rfl⟩ := hcase
      exact hc
  | complete w =>
    obtain ⟨wk, task, _, _, rfl⟩ := PoolState.worker_complete_some hstep
    exact List.mem_append_left _ hc
  | shutdown_wait =>
    simp only [step, PoolState.shutdown_wait] at hstep
    split_ifs at hstep
    cases hstep
    exact hc
  | shutdown_stop =>
    simp only [step, PoolState.shutdown_stop] at hstep
    split_ifs at hstep
    cases hstep
    exact hc
  | shutdown_clear =>
    simp only [step, PoolState.shutdown_clear] at hstep
    split_ifs at hstep
    cases hstep
    exact hc

theorem steps_completed_kept {s s2 : PoolState} (hsteps : Steps s s2) (id : Nat)
    (hc : id ∈ s.completed) : id ∈ s2.completed := by
  induction hsteps with
  | refl => exact hc
  | tail a _ hstep ih => exact step_completed_kept a hstep id ih

/-- A completed task has been invoked exactly once. -/
theorem PoolInv.completed_once {s : PoolState} (h : PoolInv s) (id : Nat)
    (hc : id ∈ s.completed) : id < s.packaged.length ∧ s.invocations.getD id 0 = 1 := by
  have hpos : 0 < s.completed.count id := List.count_pos_iff.mpr hc
  have h1 := h.one_place id
  have h2 := h.invoked id
  have h4 := tally_le (ran id) (holds id) s.workers_ (ran_le_holds id)
  have hlt : id < s.packaged.length := by
    by_contra hge
    rw [if_neg hge] at h1
    omega
  rw [if_pos hlt] at h1
  exact ⟨hlt, by omega⟩

end execution

theorem execution.PoolState.submit_ok {s : PoolState} {f : Callable} {h : Nat}
    (hsub : (s.submit f).1 = .ok h) :
    h = s.packaged.length ∧ (s.submit f).2.packaged = s.packaged ++ [f] ∧
      (s.submit f).2.tasks_ = s.tasks_ ++ [h] ∧ s.workers_.isEmpty = false := by
  unfold PoolState.submit at hsub ⊢
  by_cases hw : s.workers_.isEmpty = true
  · rw [if_pos hw] at hsub
    cases hsub
  · rw [if_neg hw] at hsub ⊢
    have hh : s.packaged.length = h := by
      injection hsub
    subst hh
    exact ⟨rfl, rfl, rfl, by simpa using hw⟩

/-! ## Claims about the thread pool -/

open execution

/-- C20. Pool construction: `construct(0)` fails with `InvalidConfiguration`
(no pool, no worker); for every `n >= 1`, `construct(n)` succeeds with exactly
`n` workers, all at the top of their loop, an empty queue and no active task,
and `thread_count()` returns `n`, in the constructed pool and in every later
state until `shutdown` has cleared the workers; so it is at least 1. -/
theorem pool_construction :
    execution.construct 0 = .error .InvalidConfiguration ∧
      ∀ n, 1 ≤ n → ∃ s0, execution.construct n = .ok s0 ∧
        s0.workers_ = List.replicate n { pc := .waiting, stop_requested := false } ∧
        s0.workers_.length = n ∧ s0.tasks_ = [] ∧ s0.active_tasks_ = 0 ∧
        s0.thread_count = n ∧
        ∀ s, Steps s0 s → s.shutdown_pc ≠ .cleared → s.thread_count = n ∧ 1 ≤ s.thread_count := by
  refine ⟨rfl, ?_⟩
  intro n hn
  have hn0 : ¬ n = 0 := by omega
  refine ⟨_, by unfold execution.construct; rw [if_neg hn0], rfl, by simp, rfl, rfl,
    by simp [PoolState.thread_count], ?_⟩
  intro s hsteps hpc
  have := (steps_thread_count hsteps hpc).2
  simp only [List.length_replicate] at this
  unfold PoolState.thread_count
  omega

/-- C16, what the code does. In every state of a pool the failure list
`exceptions_` is empty, because `submit` wraps each callable in a
`std::packaged_task`, which keeps a raised failure in the task's own shared
state; so `wait_all()` never re-raises. On a pool with one worker, after a
callable that raises failure `7` has been submitted, dequeued, invoked and
completed, the pool is quiescent, the handle holds the failure, and
`wait_all()` returns normally. -/
theorem wait_all_never_reraises :
    (∀ n s, Reachable n s → s.exceptions_ = [] ∧ ∀ e, s.wait_all ≠ some (.error e)) ∧
      ∃ s0 s, execution.construct 1 = .ok s0 ∧
        run_schedule s0 [.submit (.error 7), .dequeue 0, .run 0, .complete 0] = some s ∧
        s.future_get 0 = some (.error 7) ∧ s.wait_all = some (.ok ()) := by
  refine ⟨?_, _, _, rfl, rfl, rfl, rfl⟩
  intro n s hs
  have hex := hs.pool_inv.no_exceptions
  refine ⟨hex, ?_⟩
  intro e he
  unfold PoolState.wait_all at he
  rw [hex] at he
  split_ifs at he
  cases he

/-- C18. A task's handle delivers that task's own outcome: when `submit(f)`
on a pool returns handle `h`, then in every later state the handle is still
blocked as long as the task has not been invoked, and once it has been
invoked `future.get()` yields exactly what `f` returned or raised; in every
state a handle holds nothing or the outcome of its own callable. -/
theorem handle_delivers_own_outcome (n : Nat) (s : PoolState) (hs : Reachable n s)
    (f : Callable) (h : Nat) (hsub : (s.submit f).1 = .ok h) (s2 : PoolState)
    (hsteps : Steps (s.submit f).2 s2) :
    (s2.invocations.getD h 0 = 0 → s2.future_get h = none) ∧
      (s2.invocations.getD h 0 ≠ 0 → s2.future_get h = some f) ∧
      ∀ id, s2.future_get id = none ∨
        s2.future_get id = some (s2.packaged.getD id (.ok 0)) := by
  have hinv1 : PoolInv (s.submit f).2 := hs.pool_inv.submit f
  have hinv2 : PoolInv s2 := hinv1.steps hsteps
  have hpk := steps_packaged hsteps
  have hf : s2.packaged.getD h (.ok 0) = f := by
    obtain ⟨hh, hpkg, _, _⟩ := PoolState.submit_ok hsub
    rw [hpk.2 h (by rw [hpkg, hh]; simp), hpkg, hh]
    simp [List.getD_eq_getElem?_getD]
  refine ⟨?_, ?_, ?_⟩
  · intro hz
    unfold PoolState.future_get
    rw [hinv2.future_state h, if_pos hz]
  · intro hz
    unfold PoolState.future_get
    rw [hinv2.future_state h, if_neg hz, hf]
  · intro id
    unfold PoolState.future_get
    rw [hinv2.future_state id]
    split_ifs
    · exact Or.inl rfl
    · exact Or.inr rfl


theorem handle_delivers_own_outcome_witness :
    ∃ s0 s s2, execution.construct 4 = .ok s0 ∧
      run_schedule s0 [.submit (.ok 0), .submit (.ok 1)] = some s ∧
      run_schedule (s.submit (.ok 2)).2
        [.dequeue 3, .dequeue 0, .dequeue 1, .run 1, .run 3, .complete 1] = some s2 ∧
      s2.future_get 2 = some (.ok 2) := by
  refine ⟨_, _, _, rfl, rfl, rfl, ?_⟩
  exact (handle_delivers_own_outcome 4 _ ⟨_, rfl, steps_of_run_schedule
    [.submit (.ok 0), .submit (.ok 1)] rfl⟩ (.ok 2) 2 rfl _
    (steps_of_run_schedule
      [.dequeue 3, .dequeue 0, .dequeue 1, .run 1, .run 3, .complete 1] rfl)).2.1 (by decide)

/-- C19. A failing task does not stop the pool: in every state of a pool with
`n` workers in which worker `w` holds a task whose callable raises a failure,
the worker can invoke the task and pass its second locked block; after that
the failure is in the task's handle, the worker is back at the top of its
loop (not exited), `active_tasks_` has been decremented back, a following
`submit` is accepted, and there is a schedule (worker `w` serving the queue)
after which the newly submitted task has been dequeued and invoked and its
handle yields the outcome of its callable. -/
theorem failing_task_does_not_stop_pool (n : Nat) (s : PoolState) (hs : Reachable n s)
    (w : Nat) (wk : Worker) (task : Nat) (e : Failure)
    (hw : s.workers_[w]? = some wk) (hpc : wk.pc = .running task)
    (hfail : s.packaged.getD task (.ok 0) = .error e) :
    ∃ s1 s2, step s (.run w) = some s1 ∧ step s1 (.complete w) = some s2 ∧
      s1.future_get task = some (.error e) ∧
      s2.workers_[w]? = some ⟨.waiting, wk.stop_requested⟩ ∧
      s2.active_tasks_ + 1 = s.active_tasks_ ∧
      ∀ g, ∃ h, (s2.submit g).1 = .ok h ∧
        ∃ s3, run_schedule (s2.submit g).2 (serve w (s2.submit g).2.tasks_.length) = some s3 ∧
          s3.future_get h = some g := by
  have hinv := hs.pool_inv
  have hfresh := hinv.running_fresh w wk task hw hpc
  obtain ⟨s1, hr, _, hp1, hf1, ha1, _, hw1⟩ := run_ex hw hpc hfresh.2.2
  have hinv1 := hinv.step _ hr
  obtain ⟨s2, hc, _, hp2, _, ha2, _, hw2⟩ := complete_ex hw1 rfl
  have hinv2 := hinv1.step _ hc
  have hbusy : 1 ≤ s.active_tasks_ := by
    rw [hinv.active_count]
    have := tally_ge busy hw
    have hb : busy wk = 1 := by simp [busy, hpc]
    omega
  refine ⟨s1, s2, hr, hc, ?_, hw2, by omega, ?_⟩
  · unfold PoolState.future_get
    rw [hf1, getD_set, if_pos ⟨rfl, by rw [hinv.len_futures]; exact hfresh.1⟩, hfail]
  · intro g
    have hne : s2.workers_.isEmpty = false := by
      cases hl : s2.workers_ with
      | nil => rw [hl] at hw2; simp at hw2
      | cons a l => rfl
    have hsub : s2.submit g = (.ok s2.packaged.length,
        { s2 with
          packaged := s2.packaged ++ [g],
          futures := s2.futures ++ [none],
          invocations := s2.invocations ++ [0],
          tasks_ := s2.tasks_ ++ [s2.packaged.length] }) := by
      unfold PoolState.submit
      rw [hne]
      rfl
    refine ⟨s2.packaged.length, by rw [hsub], ?_⟩
    have hinv3 : PoolInv (s2.submit g).2 := hinv2.submit g
    have hw3 : (s2.submit g).2.workers_[w]? = some ⟨.waiting, wk.stop_requested⟩ := by
      rw [hsub]; exact hw2
    obtain ⟨s3, hrun, _, _, _, hfut⟩ := serve_spec w _ _ _ hinv3 rfl hw3 rfl
    refine ⟨s3, hrun, ?_⟩
    unfold PoolState.future_get
    rw [hfut s2.packaged.length (by rw [hsub]; simp), hsub]
    simp [List.getD_eq_getElem?_getD]

theorem failing_task_does_not_stop_pool_witness :
    ∃ s0 s s1 s2, execution.construct 4 = .ok s0 ∧
      run_schedule s0 [.submit (.error 7), .dequeue 2] = some s ∧
      step s (.run 2) = some s1 ∧ step s1 (.complete 2) = some s2 ∧
      s1.future_get 0 = some (.error 7) ∧
      s2.workers_[2]? = some ⟨.waiting, false⟩ ∧ s2.active_tasks_ + 1 = s.active_tasks_ := by
  obtain ⟨s1, s2, h1, h2, h3, h4, h5, _⟩ := failing_task_does_not_stop_pool 4 _
    ⟨_, rfl, steps_of_run_schedule [.submit (.error 7), .dequeue 2] rfl⟩ 2
    ⟨.running 0, false⟩ 0 7 rfl rfl rfl
  exact ⟨_, _, s1, s2, rfl, rfl, h1, h2, h3, h4, h5⟩


/-- C17. Every task runs exactly once by quiescence: in every state of a pool
each submitted task is in exactly one of the states queued, active (held by
a worker) or completed, and `active_tasks_` is the number of active tasks;
therefore in any state where the queue is empty and `active_tasks_ == 0`
(what `wait_all` waits for) each submitted task is completed and its
callable has been invoked exactly once. -/
theorem tasks_run_exactly_once (n : Nat) (s : PoolState) (hs : Reachable n s) :
    (∀ id, id < s.packaged.length →
        (queued s id ∨ active s id ∨ finished s id) ∧ ¬ (queued s id ∧ active s id) ∧
        ¬ (queued s id ∧ finished s id) ∧ ¬ (active s id ∧ finished s id)) ∧
      s.active_tasks_ = active_task_count s ∧
      (s.tasks_ = [] → s.active_tasks_ = 0 → ∀ id, id < s.packaged.length →
        finished s id ∧ s.invocations.getD id 0 = 1) := by
  have h := hs.pool_inv
  refine ⟨?_, h.active_tasks_eq, ?_⟩
  · intro id hid
    have h1 := h.one_place id
    rw [if_pos hid] at h1
    have hq : queued s id ↔ 0 < s.tasks_.count id := List.count_pos_iff.symm
    have ha : active s id ↔ 0 < tally (holds id) s.workers_ :=
      (tally_holds_pos id s.workers_).symm
    have hf : finished s id ↔ 0 < s.completed.count id := List.count_pos_iff.symm
    rw [hq, ha, hf]
    omega
  · intro hq ha id hid
    obtain ⟨h1, h2, _⟩ := h.quiescent hq ha id hid
    exact ⟨List.count_pos_iff.mp (by omega), h2⟩

theorem tasks_run_exactly_once_witness :
    ∃ s0 s, execution.construct 2 = .ok s0 ∧
      run_schedule s0 [.submit (.ok 5), .submit (.error 3), .dequeue 1, .dequeue 0, .run 0,
        .run 1, .complete 1, .complete 0] = some s ∧
      s.active_tasks_ = active_task_count s ∧ s.invocations.getD 1 0 = 1 := by
  refine ⟨_, _, rfl, rfl, ?_⟩
  have h := tasks_run_exactly_once 2 _ ⟨_, rfl, steps_of_run_schedule
    [.submit (.ok 5), .submit (.error 3), .dequeue 1, .dequeue 0, .run 0, .run 1,
      .complete 1, .complete 0] rfl⟩
  exact ⟨h.2.1, (h.2.2 rfl rfl 1 (by decide)).2⟩


/-- C21. Shutdown never discards a task. For every state `s` of a pool:
a step makes a worker exit only if it is that worker's dequeue step taken
with its stop requested and the queue empty; a step requests a worker's stop
only if it is the stop step of `shutdown()`, which is enabled only past the
wait for quiescence, and that wait is passed only in a state with an empty
queue and `active_tasks_ == 0`; a queued task leaves the queue only into the
hands of a worker, which leaves the task only by invoking it; every submitted
task is queued, active, or completed with exactly one invocation; and every
task submitted before the destructor passes its wait is completed, invoked
exactly once, in every later state, the state after destruction included. -/
theorem shutdown_never_discards (n : Nat) (s : PoolState) (hs : Reachable n s) :
    (∀ (a : Action) (s2 : PoolState) (w : Nat) (wk wk2 : Worker),
        step s a = some s2 → s.workers_[w]? = some wk → wk.pc ≠ .exited →
        s2.workers_[w]? = some wk2 → wk2.pc = .exited →
        a = .dequeue w ∧ wk.stop_requested = true ∧ s.tasks_ = []) ∧
    (∀ (a : Action) (s2 : PoolState) (w : Nat) (wk wk2 : Worker),
        step s a = some s2 → s.workers_[w]? = some wk → wk.stop_requested = false → s2.workers_[w]? = some wk2 → wk2.stop_requested = true →
        a = .shutdown_stop ∧ s.shutdown_pc = .drained) ∧
    (∀ (a : Action) (s2 : PoolState),
        step s a = some s2 → s2.shutdown_pc = .drained → s.shutdown_pc ≠ .drained →
        a = .shutdown_wait ∧ s.tasks_ = [] ∧ s.active_tasks_ = 0) ∧
    (∀ (a : Action) (s2 : PoolState) (id : Nat), step s a = some s2 → queued s id →
        queued s2 id ∨
          ∃ (w : Nat) (wk2 : Worker),
            a = .dequeue w ∧ s2.workers_[w]? = some wk2 ∧ wk2.pc = .running id) ∧
    (∀ (a : Action) (s2 : PoolState) (w : Nat) (wk : Worker) (id : Nat),
        step s a = some s2 → s.workers_[w]? = some wk → wk.pc = .running id →
        ∃ wk2 : Worker, s2.workers_[w]? = some wk2 ∧ (wk2.pc = .running id ∨
          (a = .run w ∧ wk2.pc = .finishing id ∧ s2.invocations.getD id 0 = 1))) ∧
    (∀ id, id < s.packaged.length →
        queued s id ∨ active s id ∨ (finished s id ∧ s.invocations.getD id 0 = 1)) ∧
    (∀ (s2 s3 : PoolState), step s .shutdown_wait = some s2 → Steps s2 s3 →
        ∀ id, id < s.packaged.length → finished s3 id ∧ s3.invocations.getD id 0 = 1) := by
  have h := hs.pool_inv
  refine ⟨?_, ?_, fun a s2 => step_drained a,
    fun a s2 id hstep hq => step_queue a hstep id hq, ?_, ?_, ?_⟩
  · intro a s2 w wk wk2 hstep hw hpc hw2 hpc2
    rcases step_worker a hstep w wk hw with ⟨_, hex, _⟩ | ⟨wk3, hw3, hcase⟩
    · exact absurd hex hpc
    · have heq : wk3 = wk2 := Option.some.inj (hw3.symm.trans hw2)
      subst heq
      rcases hcase with rfl | ⟨ha, hstop, hq, _, _⟩ | ⟨task, rest, _, _, _, rfl⟩ |
        ⟨task, _, _, rfl⟩ | ⟨task, _, _, rfl⟩ | ⟨_, _, rfl⟩
      · exact absurd hpc2 hpc
      · exact ⟨ha, hstop, hq⟩
      · cases hpc2
      · cases hpc2
      · cases hpc2
      · exact absurd hpc2 hpc
  · intro a s2 w wk wk2 hstep hw hstop hw2 hstop2
    rcases step_worker a hstep w wk hw with ⟨_, _, hnil⟩ | ⟨wk3, hw3, hcase⟩
    · rw [hnil] at hw2
      cases hw2
    · have heq : wk3 = wk2 := Option.some.inj (hw3.symm.trans hw2)
      subst heq
      rcases hcase with rfl | ⟨_, hs1, _, _, _⟩ | ⟨task, rest, _, _, _, rfl⟩ |
        ⟨task, _, _, rfl⟩ | ⟨task, _, _, rfl⟩ | ⟨ha, hd, _⟩
      · rw [hstop] at hstop2
        cases hstop2
      · rw [hstop] at hs1
        cases hs1
      · exact absurd (hstop.symm.trans hstop2) (by decide)
      · exact absurd (hstop.symm.trans hstop2) (by decide)
      · exact absurd (hstop.symm.trans hstop2) (by decide)
      · exact ⟨ha, hd⟩
  · intro a s2 w wk id hstep hw hpc
    rcases step_worker a hstep w wk hw with ⟨_, hex, _⟩ | ⟨wk3, hw3, hcase⟩
    · rw [hpc] at hex
      cases hex
    · refine ⟨wk3, hw3, ?_⟩
      rcases hcase with rfl | ⟨_, _, _, hwait, _⟩ | ⟨task, rest, _, _, hwait, _⟩ |
        ⟨task, ha, hrun, rfl⟩ | ⟨task, _, hfin, _⟩ | ⟨_, _, rfl⟩
      · exact Or.inl hpc
      · rw [hpc] at hwait
        cases hwait
      · rw [hpc] at hwait
        cases hwait
      · right
        have hid : task = id := by
          rw [hpc] at hrun
          exact (WorkerPc.running.inj hrun).symm
        subst hid
        subst ha
        obtain ⟨hlt, hzero, hfresh⟩ := h.running_fresh w wk task hw hpc
        have hrun2 := PoolState.worker_run_ok hw hpc hfresh
        have hs2 := Option.some.inj ((show s.worker_run w = some s2 from hstep).symm.trans hrun2)
        refine ⟨rfl, rfl, ?_⟩
        rw [hs2]
        show (s.invocations.set task (s.invocations.getD task 0 + 1)).getD task 0 = 1
        rw [getD_set, if_pos ⟨rfl, by rw [h.len_invocations]; exact hlt⟩, hzero]
      · rw [hpc] at hfin
        cases hfin
      · exact Or.inl hpc
  · intro id hid
    have h1 := h.one_place id
    rw [if_pos hid] at h1
    by_cases hq : 0 < s.tasks_.count id
    · exact Or.inl (List.count_pos_iff.mp hq)
    · by_cases ha : 0 < tally (holds id) s.workers_
      · exact Or.inr (Or.inl ((tally_holds_pos id s.workers_).mp ha))
      · have hc : id ∈ s.completed := List.count_pos_iff.mp (by omega)
        exact Or.inr (Or.inr ⟨hc, (h.completed_once id hc).2⟩)
  · intro s2 s3 hwait hsteps id hid
    have hq : s.active_tasks_ = 0 ∧ s.tasks_ = [] := by
      simp only [step, PoolState.shutdown_wait] at hwait
      split_ifs at hwait with hq
      exact hq.2
    obtain ⟨hcount, _, _⟩ := h.quiescent hq.2 hq.1 id hid
    have hc : id ∈ s.completed := List.count_pos_iff.mp (by omega)
    have hc3 : id ∈ s3.completed :=
      steps_completed_kept (steps_trans (.tail .shutdown_wait .refl hwait) hsteps) id hc
    obtain ⟨s0, hs0, hsteps0⟩ := hs
    have h3 : PoolInv s3 :=
      (PoolInv.of_construct hs0).steps
        (steps_trans hsteps0 (steps_trans (.tail .shutdown_wait .refl hwait) hsteps))
    exact ⟨hc3, (h3.completed_once id hc3).2⟩

theorem shutdown_never_discards_witness :
    ∃ s0 s1 s s2 s3, execution.construct 2 = .ok s0 ∧
      run_schedule s0 [.submit (.ok 5), .submit (.error 3)] = some s1 ∧
      step s1 .shutdown_wait = none ∧
      run_schedule s1 [.dequeue 0, .dequeue 1, .run 1, .run 0, .complete 0, .complete 1] =
        some s ∧
      step s .shutdown_wait = some s2 ∧
      run_schedule s2 [.shutdown_stop, .dequeue 1, .dequeue 0, .shutdown_clear] = some s3 ∧
      s3.shutdown_pc = .cleared ∧ s3.workers_ = [] ∧
      (finished s3 0 ∧ s3.invocations.getD 0 0 = 1) ∧
      (finished s3 1 ∧ s3.invocations.getD 1 0 = 1) := by
  refine ⟨_, _, _, _, _, rfl, rfl, rfl, rfl, rfl, rfl, rfl, rfl, ?_, ?_⟩
  · exact (shutdown_never_discards 2 _ ⟨_, rfl, steps_of_run_schedule
      [.submit (.ok 5), .submit (.error 3), .dequeue 0, .dequeue 1, .run 1, .run 0,
        .complete 0, .complete 1] rfl⟩).2.2.2.2.2.2 _ _ rfl
      (steps_of_run_schedule [.shutdown_stop, .dequeue 1, .dequeue 0, .shutdown_clear] rfl)
      0 (by decide)
  · exact (shutdown_never_discards 2 _ ⟨_, rfl, steps_of_run_schedule
      [.submit (.ok 5), .submit (.error 3), .dequeue 0, .dequeue 1, .run 1, .run 0,
        .complete 0, .complete 1] rfl⟩).2.2.2.2.2.2 _ _ rfl
      (steps_of_run_schedule [.shutdown_stop, .dequeue 1, .dequeue 0, .shutdown_clear] rfl)
      1 (by decide)

end SparseLinalg
